import Mathlib

set_option maxHeartbeats 2000000
set_option maxRecDepth 4000
set_option linter.all false

/-!
Verification of the traversal engine of the bidivec crate: the neighbour
policy (src/areas/neighbours.rs), the cost normalization of the pathfinding
cost model, the unified Dijkstra/A* search (src/algorithms/pathfinding.rs)
and the flood-fill region grower (src/algorithms/editing.rs), shallowly
embedded in Lean.

Grids are modelled by their logical extents plus a total contents function;
the algorithms only ever read cells at in-bounds coordinates. usize values
are modelled as Nat: the only place the source subtracts (width - 1 and
height - 1 in neighbour generation) is reached by the algorithms only after
an in-bounds check has ensured width ≥ 1 and height ≥ 1, where Rust usize
subtraction and Nat truncated subtraction agree.
-/

namespace Bidivec

/-- Model of the error type of the crate (src/error.rs). -/
inductive BidiError where
  | IncompatibleSize
  | OutOfBounds
deriving DecidableEq, Repr

/-- Model of a bidimensional view (the Grid contract of §6 of the spec,
src/bidiview/traits.rs): logical width and height plus the cell contents as
a total function on coordinates. -/
structure BidiView (T : Type) where
  width : Nat
  height : Nat
  get : Nat × Nat → T

/-- In-bounds predicate: BidiRect::contains (src/areas/bidirect.rs) applied
to the bounding rect (0, 0, width, height) returned by
BidiView::bounding_rect (src/bidiview/traits.rs). -/
def BidiView.contains (v : BidiView T) (x y : Nat) : Prop :=
  x < v.width ∧ y < v.height

instance (v : BidiView T) (x y : Nat) : Decidable (v.contains x y) := by
  unfold BidiView.contains; infer_instance

/-- Functional update of one cell of a view, modelling a write through
BidiViewMut (used by the painting phase of flood_fill). -/
def BidiView.set (v : BidiView T) (p : Nat × Nat) (t : T) : BidiView T :=
  { v with get := fun q => if q = p then t else v.get q }

/-- Model of the neighbour policy enum (src/areas/neighbours.rs). -/
inductive BidiNeighbours where
  | Adjacent
  | Bordering
deriving DecidableEq, Repr

namespace BidiNeighbours

/-- Model of BidiNeighbours::generate_points_on (src/areas/neighbours.rs),
producing the neighbours in the push order of the Rust code. The go_e and
go_s guards compare against width - 1 and height - 1; all callers in the
algorithms reach this only with an in-bounds pos, hence width ≥ 1 and
height ≥ 1, where Nat subtraction models usize subtraction exactly. -/
def generate_points_on (nb : BidiNeighbours) (pos : Nat × Nat)
    (width height : Nat) : List (Nat × Nat) :=
  let x := pos.1
  let y := pos.2
  match nb with
  | Adjacent =>
    ((if 0 < x then [(x - 1, y)] else []) ++
     (if y < height - 1 then [(x, y + 1)] else []) ++
     (if x < width - 1 then [(x + 1, y)] else []) ++
     (if 0 < y then [(x, y - 1)] else []))
  | Bordering =>
    ((if 0 < y ∧ 0 < x then [(x - 1, y - 1)] else []) ++
     (if 0 < x then [(x - 1, y)] else []) ++
     (if y < height - 1 ∧ 0 < x then [(x - 1, y + 1)] else []) ++
     (if y < height - 1 then [(x, y + 1)] else []) ++
     (if y < height - 1 ∧ x < width - 1 then [(x + 1, y + 1)] else []) ++
     (if x < width - 1 then [(x + 1, y)] else []) ++
     (if 0 < y ∧ x < width - 1 then [(x + 1, y - 1)] else []) ++
     (if 0 < y then [(x, y - 1)] else []))

end BidiNeighbours

/-- Manhattan distance between two coordinates. -/
def manhattanDist (p q : Nat × Nat) : Nat :=
  Nat.dist p.1 q.1 + Nat.dist p.2 q.2

/-- Chebyshev distance between two coordinates. -/
def chebyshevDist (p q : Nat × Nat) : Nat :=
  max (Nat.dist p.1 q.1) (Nat.dist p.2 q.2)

/-- A corner cell of a w × h grid. -/
def IsCornerCell (w h x y : Nat) : Prop :=
  (x = 0 ∨ x = w - 1) ∧ (y = 0 ∨ y = h - 1)

/-- A cell on the boundary of a w × h grid that is not a corner. -/
def IsEdgeNonCornerCell (w h x y : Nat) : Prop :=
  ((x = 0 ∨ x = w - 1) ∧ 0 < y ∧ y < h - 1) ∨
  ((y = 0 ∨ y = h - 1) ∧ 0 < x ∧ x < w - 1)

theorem mem_if_singleton {c : Prop} [Decidable c] {q p : Nat × Nat} :
    (q ∈ if c then [p] else []) ↔ c ∧ q = p := by
  split_ifs with h <;> simp [h]

theorem length_if_singleton {c : Prop} [Decidable c] {p : Nat × Nat} :
    (if c then [p] else []).length = if c then 1 else 0 := by
  split_ifs <;> rfl

theorem max_eq_one_iff (u v : Nat) :
    max u v = 1 ↔ (u ≤ 1 ∧ v ≤ 1 ∧ (u = 1 ∨ v = 1)) := by
  omega

theorem mem_generate_adjacent (w h x y : Nat) (hx : x < w) (hy : y < h)
    (q : Nat × Nat) :
    q ∈ BidiNeighbours.Adjacent.generate_points_on (x, y) w h ↔
      (q.1 < w ∧ q.2 < h ∧ manhattanDist (x, y) q = 1) := by
  obtain ⟨a, b⟩ := q
  by_cases hx0 : 0 < x <;> by_cases hy0 : 0 < y <;>
    by_cases hxe : x < w - 1 <;> by_cases hye : y < h - 1 <;>
    simp only [BidiNeighbours.generate_points_on, List.mem_append,
      mem_if_singleton, Prod.mk.injEq, manhattanDist, Nat.dist,
      hx0, hy0, hxe, hye, true_and, false_and, and_true, and_false,
      iff_true, iff_false, false_iff, true_iff, List.not_mem_nil,
      or_false, false_or, not_false_iff] <;>
    omega

theorem mem_generate_bordering (w h x y : Nat) (hx : x < w) (hy : y < h)
    (q : Nat × Nat) :
    q ∈ BidiNeighbours.Bordering.generate_points_on (x, y) w h ↔
      (q.1 < w ∧ q.2 < h ∧ q ≠ (x, y) ∧ chebyshevDist (x, y) q = 1) := by
  obtain ⟨a, b⟩ := q
  simp only [chebyshevDist, max_eq_one_iff]
  by_cases hx0 : 0 < x <;> by_cases hy0 : 0 < y <;>
    by_cases hxe : x < w - 1 <;> by_cases hye : y < h - 1 <;>
    simp only [BidiNeighbours.generate_points_on, List.mem_append,
      mem_if_singleton, Prod.mk.injEq, ne_eq, Nat.dist,
      hx0, hy0, hxe, hye, true_and, false_and, and_true, and_false,
      iff_true, iff_false, false_iff, true_iff, List.not_mem_nil,
      or_false, false_or, not_false_iff, not_and] <;>
    omega

theorem length_generate_adjacent (w h x y : Nat) :
    (BidiNeighbours.Adjacent.generate_points_on (x, y) w h).length =
      (if 0 < x then 1 else 0) + (if y < h - 1 then 1 else 0) +
      (if x < w - 1 then 1 else 0) + (if 0 < y then 1 else 0) := by
  simp only [BidiNeighbours.generate_points_on, List.length_append,
    length_if_singleton]

theorem length_generate_bordering (w h x y : Nat) :
    (BidiNeighbours.Bordering.generate_points_on (x, y) w h).length =
      (if 0 < y ∧ 0 < x then 1 else 0) + (if 0 < x then 1 else 0) +
      (if y < h - 1 ∧ 0 < x then 1 else 0) + (if y < h - 1 then 1 else 0) +
      (if y < h - 1 ∧ x < w - 1 then 1 else 0) + (if x < w - 1 then 1 else 0) +
      (if 0 < y ∧ x < w - 1 then 1 else 0) + (if 0 < y then 1 else 0) := by
  simp only [BidiNeighbours.generate_points_on, List.length_append,
    length_if_singleton]

/-- C9: for every grid with width ≥ 1 and height ≥ 1 and every in-bounds cell
(x, y), the neighbour policy generates exactly the in-bounds cells at
Manhattan distance 1 from (x, y) (Adjacent), respectively at Chebyshev
distance 1 excluding (x, y) itself (Bordering); on grids at least 2 × 2 a
corner cell yields exactly 2 (Adjacent) or 3 (Bordering) neighbours and a
non-corner edge cell yields exactly 3 or 5. -/
theorem neighbour_policy_spec (w h x y : Nat) (hx : x < w) (hy : y < h) :
    (∀ q, q ∈ BidiNeighbours.Adjacent.generate_points_on (x, y) w h ↔
        (q.1 < w ∧ q.2 < h ∧ manhattanDist (x, y) q = 1)) ∧
    (∀ q, q ∈ BidiNeighbours.Bordering.generate_points_on (x, y) w h ↔
        (q.1 < w ∧ q.2 < h ∧ q ≠ (x, y) ∧ chebyshevDist (x, y) q = 1)) ∧
    (2 ≤ w → 2 ≤ h →
      (IsCornerCell w h x y →
        (BidiNeighbours.Adjacent.generate_points_on (x, y) w h).length = 2 ∧
        (BidiNeighbours.Bordering.generate_points_on (x, y) w h).length = 3) ∧
      (IsEdgeNonCornerCell w h x y →
        (BidiNeighbours.Adjacent.generate_points_on (x, y) w h).length = 3 ∧
        (BidiNeighbours.Bordering.generate_points_on (x, y) w h).length = 5)) := by
  refine ⟨mem_generate_adjacent w h x y hx hy,
    mem_generate_bordering w h x y hx hy, fun hw hh => ⟨fun hc => ?_, fun he => ?_⟩⟩
  · obtain ⟨hcx, hcy⟩ := hc
    rw [length_generate_adjacent, length_generate_bordering]
    constructor <;> split_ifs <;> omega
  · rw [length_generate_adjacent, length_generate_bordering]
    obtain he | he := he <;> constructor <;> split_ifs <;> omega

/-- Witness for C9 at the concrete in-bounds cell (1, 0) of a 3 × 3 grid. -/
theorem neighbour_policy_spec_witness :
    1 < 3 ∧ 0 < 3 ∧
    ((∀ q, q ∈ BidiNeighbours.Adjacent.generate_points_on (1, 0) 3 3 ↔
        (q.1 < 3 ∧ q.2 < 3 ∧ manhattanDist (1, 0) q = 1)) ∧
    (∀ q, q ∈ BidiNeighbours.Bordering.generate_points_on (1, 0) 3 3 ↔
        (q.1 < 3 ∧ q.2 < 3 ∧ q ≠ (1, 0) ∧ chebyshevDist (1, 0) q = 1)) ∧
    (2 ≤ 3 → 2 ≤ 3 →
      (IsCornerCell 3 3 1 0 →
        (BidiNeighbours.Adjacent.generate_points_on (1, 0) 3 3).length = 2 ∧
        (BidiNeighbours.Bordering.generate_points_on (1, 0) 3 3).length = 3) ∧
      (IsEdgeNonCornerCell 3 3 1 0 →
        (BidiNeighbours.Adjacent.generate_points_on (1, 0) 3 3).length = 3 ∧
        (BidiNeighbours.Bordering.generate_points_on (1, 0) 3 3).length = 5))) :=
  ⟨by decide, by decide, neighbour_policy_spec 3 3 1 0 (by decide) (by decide)⟩

/-! Float cost normalization (PathFindCost for f32/f64). -/

/-- Model of std::num::FpCategory, the classification returned by
classify() on f32/f64 values. -/
inductive FpCategory where
  | Nan
  | Infinite
  | Zero
  | Subnormal
  | Normal
deriving DecidableEq, Repr

/-- Abstract model of an IEEE floating point value (f32 or f64), carrying
exactly what the float implementations of PathFindCost::normalize
(src/algorithms/pathfinding.rs) inspect: the classification, the sign bit,
and an abstract magnitude payload that distinguishes values of the same
class and sign. -/
structure Fp where
  category : FpCategory
  negSign : Bool
  magnitude : Nat
deriving DecidableEq, Repr

/-- Well-formedness of the model: an IEEE value of class Zero carries no
information beyond its sign bit (the only zeros are +0.0 and -0.0). -/
def Fp.WellFormed (f : Fp) : Prop := f.category = FpCategory.Zero → f.magnitude = 0

instance (f : Fp) : Decidable f.WellFormed := by
  unfold Fp.WellFormed; infer_instance

/-- The positive zero literal 0f32 / 0f64. -/
def Fp.posZero : Fp := ⟨FpCategory.Zero, false, 0⟩

/-- The negative zero -0f32 / -0f64. -/
def Fp.negZero : Fp := ⟨FpCategory.Zero, true, 0⟩

/-- Model of the f32/f64 implementations of PathFindCost::normalize
(src/algorithms/pathfinding.rs): match on classify(); Infinite and Nan map
to None, a zero maps to Some(0.0) (so negative zero becomes positive zero),
negative values map to None, everything else to Some(self). -/
def Fp.normalize (self : Fp) : Option Fp :=
  match self.category with
  | FpCategory.Infinite => none
  | FpCategory.Nan => none
  | FpCategory.Zero => some Fp.posZero
  | FpCategory.Subnormal => if self.negSign then none else some self
  | FpCategory.Normal => if self.negSign then none else some self

/-- Model of the default PathFindCost::normalize inherited by the unsigned
integer impls (u16, u32, u64, u128, usize), whose values are modelled as
Nat: the body is Some(self). -/
def uintNormalize (self : Nat) : Option Nat := some self

/-- C8: normalize maps, for floats, every infinite or NaN value to None,
negative zero to positive zero, every other negative value to None and
every finite non-negative value to Some(itself); for the unsigned integer
cost types normalize is the identity, returning Some(self). -/
theorem normalize_cost_spec (f : Fp) (hf : f.WellFormed) :
    ((f.category = FpCategory.Infinite ∨ f.category = FpCategory.Nan) →
      f.normalize = none) ∧
    (f = Fp.negZero → f.normalize = some Fp.posZero) ∧
    (f.negSign = true → f.category ≠ FpCategory.Infinite →
      f.category ≠ FpCategory.Nan → f.category ≠ FpCategory.Zero →
      f.normalize = none) ∧
    (f.negSign = false → f.category ≠ FpCategory.Infinite →
      f.category ≠ FpCategory.Nan → f.normalize = some f) ∧
    (∀ n : Nat, uintNormalize n = some n) := by
  obtain ⟨cat, sign, mag⟩ := f
  cases cat <;> cases sign <;>
    simp_all [Fp.normalize, Fp.WellFormed, Fp.posZero, Fp.negZero, uintNormalize]

/-- Witness for C8 at the concrete value negative zero. -/
theorem normalize_cost_spec_witness :
    Fp.negZero.WellFormed ∧
    (((Fp.negZero.category = FpCategory.Infinite ∨
        Fp.negZero.category = FpCategory.Nan) → Fp.negZero.normalize = none) ∧
    (Fp.negZero = Fp.negZero → Fp.negZero.normalize = some Fp.posZero) ∧
    (Fp.negZero.negSign = true → Fp.negZero.category ≠ FpCategory.Infinite →
      Fp.negZero.category ≠ FpCategory.Nan →
      Fp.negZero.category ≠ FpCategory.Zero → Fp.negZero.normalize = none) ∧
    (Fp.negZero.negSign = false → Fp.negZero.category ≠ FpCategory.Infinite →
      Fp.negZero.category ≠ FpCategory.Nan →
      Fp.negZero.normalize = some Fp.negZero) ∧
    (∀ n : Nat, uintNormalize n = some n)) :=
  ⟨by decide, normalize_cost_spec Fp.negZero (by decide)⟩

instance {e a : Type} [DecidableEq e] [DecidableEq a] : DecidableEq (Except e a) := fun x y =>
  match x, y with
  | Except.ok u, Except.ok v =>
    if h : u = v then Decidable.isTrue (by rw [h]) else Decidable.isFalse (by simp [h])
  | Except.error u, Except.error v =>
    if h : u = v then Decidable.isTrue (by rw [h]) else Decidable.isFalse (by simp [h])
  | Except.ok _, Except.error _ => Decidable.isFalse (by simp)
  | Except.error _, Except.ok _ => Decidable.isFalse (by simp)

/-! Flood fill (src/algorithms/editing.rs). -/

/-- Model of the tri-state visited table local to flood_fill
(src/algorithms/editing.rs). -/
inductive FloodFillState where
  | Unvisited
  | Border
  | Paint
deriving DecidableEq, Repr

/-- One pass of the inner neighbour loop of flood_fill: the neighbours are
visited in the pop order of the neighbour vector; a not-yet-visited
neighbour accepted by the comparer is marked Paint and appended to the back
of the queue, a rejected one is marked Border. The comparer receives the
seed value, the current cell's value and the candidate's value. -/
def floodVisit (g : BidiView T) (comparer : T → T → T → Bool) (initial : T)
    (curVal : T) :
    ((Nat × Nat) → FloodFillState) × List (Nat × Nat) →
    List (Nat × Nat) → ((Nat × Nat) → FloodFillState) × List (Nat × Nat)
  | vq, [] => vq
  | vq, n :: rest =>
    floodVisit g comparer initial curVal
      (if vq.1 n ≠ FloodFillState.Unvisited then vq
       else if comparer initial curVal (g.get n) then
         (fun m => if m = n then FloodFillState.Paint else vq.1 m, vq.2 ++ [n])
       else
         (fun m => if m = n then FloodFillState.Border else vq.1 m, vq.2))
      rest

/-- The breadth-first discovery loop of flood_fill, dequeuing from the front
of the FIFO queue. The fuel argument is a loop bound used to obtain a
structurally recursive model; every dequeued point was enqueued when an
in-bounds cell left the Unvisited state, so fuel 2·width·height + 2 is
proved never to run out when the seed is in bounds. -/
def floodLoop (g : BidiView T) (nb : BidiNeighbours)
    (comparer : T → T → T → Bool) (initial : T) :
    Nat → ((Nat × Nat) → FloodFillState) → List (Nat × Nat) →
    ((Nat × Nat) → FloodFillState)
  | 0, visited, _ => visited
  | _ + 1, visited, [] => visited
  | fuel + 1, visited, point :: rest =>
    let vq := floodVisit g comparer initial (g.get point) (visited, rest)
      ((nb.generate_points_on point g.width g.height).reverse)
    floodLoop g nb comparer initial fuel vq.1 vq.2

/-- The final visited table computed by the discovery phase of flood_fill
for an in-bounds start position. -/
def floodVisited (dest : BidiView T) (pos : Nat × Nat) (nb : BidiNeighbours)
    (comparer : T → T → T → Bool) : (Nat × Nat) → FloodFillState :=
  floodLoop dest nb comparer (dest.get pos) (2 * dest.width * dest.height + 2)
    (fun m => if m = pos then FloodFillState.Paint else FloodFillState.Unvisited)
    [pos]

/-- Model of editing::flood_fill (src/algorithms/editing.rs). The result
pairs the value the Rust function returns with the final state of the
caller-owned grid (which Rust mutates through the &mut borrow and leaves
untouched on the out-of-bounds error). The returned count is visited.len(),
the length of the width × height visited array, exactly as in the source.
Painting is modelled pointwise: the source's painting phase calls the
painter once on every in-bounds cell marked Paint, after discovery has
fully completed. -/
def flood_fill (dest : BidiView T) (pos : Nat × Nat) (nb : BidiNeighbours)
    (comparer : T → T → T → Bool) (painter : T → (Nat × Nat) → T) :
    Except BidiError Nat × BidiView T :=
  if pos.1 ≥ dest.width ∨ pos.2 ≥ dest.height then
    (Except.error BidiError.OutOfBounds, dest)
  else
    let visited := floodVisited dest pos nb comparer
    (Except.ok (dest.width * dest.height),
      ⟨dest.width, dest.height, fun m =>
        if m.1 < dest.width ∧ m.2 < dest.height ∧
            visited m = FloodFillState.Paint
        then painter (dest.get m) m else dest.get m⟩)

/-- Cells reachable from the seed through comparer-accepted steps between
neighbours: the connected component grown by flood fill. The step from p to
its neighbour q is accepted when the comparer applied to the seed value, the
value at p and the value at q returns true. -/
inductive FloodReach (g : BidiView T) (comparer : T → T → T → Bool)
    (nb : BidiNeighbours) (seed : Nat × Nat) : (Nat × Nat) → Prop
  | seed : FloodReach g comparer nb seed seed
  | step {p q : Nat × Nat} : FloodReach g comparer nb seed p →
      q ∈ nb.generate_points_on p g.width g.height →
      comparer (g.get seed) (g.get p) (g.get q) = true →
      FloodReach g comparer nb seed q

/-- The 4 × 4 example grid of the flood_fill documentation
(src/algorithms/editing.rs): rows [0,0,1,1], [0,0,1,0], [1,0,1,1],
[1,0,0,1]. -/
def docGrid44 : BidiView Nat :=
  ⟨4, 4, fun p =>
    (([[0, 0, 1, 1], [0, 0, 1, 0], [1, 0, 1, 1], [1, 0, 0, 1]].getD p.2 []).getD p.1 0)⟩

/-- C1 (failing input): on the 4 × 4 grid of the crate's own flood_fill
example, with the value-equality comparer and a painter writing 5,
flood_fill returns Ok(16) = Ok(width · height), while the number of cells
actually passed to the painter (the cells holding 5 afterwards) is 7: the
returned count is the size of the visited table, not the painted count the
documentation promises. -/
theorem flood_fill_count_bug :
    (flood_fill docGrid44 (0, 0) BidiNeighbours.Adjacent
        (fun _ a b => a == b) (fun _ _ => 5)).1 = Except.ok 16 ∧
    (((List.range 4).product (List.range 4)).filter
        (fun p => (flood_fill docGrid44 (0, 0) BidiNeighbours.Adjacent
          (fun _ a b => a == b) (fun _ _ => 5)).2.get p == 5)).length = 7 ∧
    (16 : Nat) ≠ 7 := by
  refine ⟨?_, ?_, by decide⟩ <;> decide

/-- The 2 × 2 grid used to refute the connected-component claim for
current-value-dependent comparers: values 0, 3 on the top row and 1, 2 on
the bottom row. -/
def stepGrid22 : BidiView Nat :=
  ⟨2, 2, fun p => (([[0, 3], [1, 2]].getD p.2 []).getD p.1 0)⟩

/-- C6 (counterexample): with the comparer accepting a step exactly when the
candidate value is the current value plus one, the cell (1, 0) of
stepGrid22 is reachable from the seed (0, 0) through comparer-accepted
steps (via (0, 1) and (1, 1)), yet flood_fill leaves it unpainted: its
value stays 3 instead of the painted 9, because (1, 0) was marked Border
when first examined from the seed and Border cells are never revisited. -/
theorem flood_fill_component_counterexample :
    FloodReach stepGrid22 (fun _ a b => b == a + 1) BidiNeighbours.Adjacent
      (0, 0) (1, 0) ∧
    (flood_fill stepGrid22 (0, 0) BidiNeighbours.Adjacent
      (fun _ a b => b == a + 1) (fun _ _ => 9)).2.get (1, 0) = 3 := by
  constructor
  · have h1 : FloodReach stepGrid22 (fun _ a b => b == a + 1)
        BidiNeighbours.Adjacent (0, 0) (0, 1) :=
      FloodReach.step FloodReach.seed (by decide) (by decide)
    have h2 : FloodReach stepGrid22 (fun _ a b => b == a + 1)
        BidiNeighbours.Adjacent (0, 0) (1, 1) :=
      FloodReach.step h1 (by decide) (by decide)
    exact FloodReach.step h2 (by decide) (by decide)
  · decide

/-! Correctness of the flood fill discovery phase, for comparers that do not
depend on the current cell's value. -/

/-- Number of in-bounds cells of the grid still Unvisited in a visited
table. -/
def unvisitedCount (g : BidiView T) (v : (Nat × Nat) → FloodFillState) : Nat :=
  ((Finset.range g.width ×ˢ Finset.range g.height).filter
    (fun p => v p = FloodFillState.Unvisited)).card

theorem unvisitedCount_le (g : BidiView T) (v : (Nat × Nat) → FloodFillState) :
    unvisitedCount g v ≤ g.width * g.height := by
  calc unvisitedCount g v ≤ (Finset.range g.width ×ˢ Finset.range g.height).card :=
        Finset.card_filter_le _ _
    _ = g.width * g.height := by
        rw [Finset.card_product, Finset.card_range, Finset.card_range]

theorem unvisitedCount_update (g : BidiView T) (v : (Nat × Nat) → FloodFillState)
    (n : Nat × Nat) (hn : n.1 < g.width ∧ n.2 < g.height)
    (hU : v n = FloodFillState.Unvisited) (mark : FloodFillState)
    (hm : mark ≠ FloodFillState.Unvisited) :
    unvisitedCount g (fun m => if m = n then mark else v m) + 1 =
      unvisitedCount g v := by
  unfold unvisitedCount
  have hset :
      ((Finset.range g.width ×ˢ Finset.range g.height).filter
        (fun p => (if p = n then mark else v p) = FloodFillState.Unvisited)) =
      ((Finset.range g.width ×ˢ Finset.range g.height).filter
        (fun p => v p = FloodFillState.Unvisited)).erase n := by
    ext m
    simp only [Finset.mem_filter, Finset.mem_erase, Finset.mem_product,
      Finset.mem_range]
    constructor
    · rintro ⟨hmem, hv⟩
      by_cases hmn : m = n
      · rw [if_pos hmn] at hv; exact absurd hv hm
      · rw [if_neg hmn] at hv; exact ⟨hmn, hmem, hv⟩
    · rintro ⟨hmn, hmem, hv⟩
      exact ⟨hmem, by rw [if_neg hmn]; exact hv⟩
  rw [hset, Finset.card_erase_add_one]
  exact Finset.mem_filter.mpr ⟨Finset.mem_product.mpr
    ⟨Finset.mem_range.mpr hn.1, Finset.mem_range.mpr hn.2⟩, hU⟩

/-- Neighbours generated from an in-bounds cell are in bounds. -/
theorem generate_points_inB (nb : BidiNeighbours) (w h : Nat) (p q : Nat × Nat)
    (hp : p.1 < w ∧ p.2 < h) (hq : q ∈ nb.generate_points_on p w h) :
    q.1 < w ∧ q.2 < h := by
  obtain ⟨x, y⟩ := p
  cases nb with
  | Adjacent =>
    have := (mem_generate_adjacent w h x y hp.1 hp.2 q).mp hq
    exact ⟨this.1, this.2.1⟩
  | Bordering =>
    have := (mem_generate_bordering w h x y hp.1 hp.2 q).mp hq
    exact ⟨this.1, this.2.1⟩

theorem floodVisit_mark_mono (g : BidiView T) (cmp : T → T → T → Bool)
    (initial curVal : T) (nbrs : List (Nat × Nat)) :
    ∀ (st : ((Nat × Nat) → FloodFillState) × List (Nat × Nat)) (p : Nat × Nat),
      st.1 p ≠ FloodFillState.Unvisited →
      (floodVisit g cmp initial curVal st nbrs).1 p = st.1 p := by
  induction nbrs with
  | nil => intro st p h; rfl
  | cons n rest ih =>
    intro st p h
    simp only [floodVisit]
    split_ifs with hvis hc
    · exact ih st p h
    · push_neg at hvis
      have hpn : p ≠ n := fun he => h (he ▸ hvis)
      rw [ih _ p (by simpa [hpn] using h)]
      simp [hpn]
    · push_neg at hvis
      have hpn : p ≠ n := fun he => h (he ▸ hvis)
      rw [ih _ p (by simpa [hpn] using h)]
      simp [hpn]

theorem floodVisit_mark_cases (g : BidiView T) (cmp : T → T → T → Bool)
    (initial curVal : T) (nbrs : List (Nat × Nat)) :
    ∀ (st : ((Nat × Nat) → FloodFillState) × List (Nat × Nat)) (p : Nat × Nat),
      (floodVisit g cmp initial curVal st nbrs).1 p = st.1 p ∨
      (p ∈ nbrs ∧ st.1 p = FloodFillState.Unvisited ∧
        (((floodVisit g cmp initial curVal st nbrs).1 p = FloodFillState.Paint ∧
            cmp initial curVal (g.get p) = true) ∨
         ((floodVisit g cmp initial curVal st nbrs).1 p = FloodFillState.Border ∧
            cmp initial curVal (g.get p) = false))) := by
  induction nbrs with
  | nil => intro st p; exact Or.inl rfl
  | cons n rest ih =>
    intro st p
    simp only [floodVisit]
    split_ifs with hvis hc
    · rcases ih st p with h | ⟨h1, h2, h3⟩
      · exact Or.inl h
      · exact Or.inr ⟨List.mem_cons_of_mem _ h1, h2, h3⟩
    · push_neg at hvis
      by_cases hpn : p = n
      · subst hpn
        refine Or.inr ⟨List.mem_cons_self _ _, hvis, Or.inl ⟨?_, hc⟩⟩
        rw [floodVisit_mark_mono g cmp initial curVal rest _ p (by simp)]
        simp
      · rcases ih _ p with h | ⟨h1, h2, h3⟩
        · rw [h]; simp only [hpn, if_neg hpn]; exact Or.inl rfl
        · simp only [if_neg hpn] at h2 h3
          exact Or.inr ⟨List.mem_cons_of_mem _ h1, h2, h3⟩
    · push_neg at hvis
      by_cases hpn : p = n
      · subst hpn
        refine Or.inr ⟨List.mem_cons_self _ _, hvis, Or.inr ⟨?_, by simpa using hc⟩⟩
        rw [floodVisit_mark_mono g cmp initial curVal rest _ p (by simp)]
        simp
      · rcases ih _ p with h | ⟨h1, h2, h3⟩
        · rw [h]; simp only [hpn, if_neg hpn]; exact Or.inl rfl
        · simp only [if_neg hpn] at h2 h3
          exact Or.inr ⟨List.mem_cons_of_mem _ h1, h2, h3⟩

theorem floodVisit_queue_mono (g : BidiView T) (cmp : T → T → T → Bool)
    (initial curVal : T) (nbrs : List (Nat × Nat)) :
    ∀ (st : ((Nat × Nat) → FloodFillState) × List (Nat × Nat)) (p : Nat × Nat),
      p ∈ st.2 → p ∈ (floodVisit g cmp initial curVal st nbrs).2 := by
  induction nbrs with
  | nil => intro st p h; exact h
  | cons n rest ih =>
    intro st p h
    simp only [floodVisit]
    split_ifs with hvis hc
    · exact ih st p h
    · exact ih _ p (by simp [List.mem_append]; exact Or.inl h)
    · exact ih _ p h

theorem floodVisit_queue_sub (g : BidiView T) (cmp : T → T → T → Bool)
    (initial curVal : T) (nbrs : List (Nat × Nat)) :
    ∀ (st : ((Nat × Nat) → FloodFillState) × List (Nat × Nat)) (p : Nat × Nat),
      p ∈ (floodVisit g cmp initial curVal st nbrs).2 → p ∈ st.2 ∨ p ∈ nbrs := by
  induction nbrs with
  | nil => intro st p h; exact Or.inl h
  | cons n rest ih =>
    intro st p h
    simp only [floodVisit] at h
    split_ifs at h with hvis hc
    · rcases ih st p h with h | h
      · exact Or.inl h
      · exact Or.inr (List.mem_cons_of_mem _ h)
    · rcases ih _ p h with h | h
      · rcases List.mem_append.mp h with h | h
        · exact Or.inl h
        · simp at h; subst h; exact Or.inr (List.mem_cons_self _ _)
      · exact Or.inr (List.mem_cons_of_mem _ h)
    · rcases ih _ p h with h | h
      · exact Or.inl h
      · exact Or.inr (List.mem_cons_of_mem _ h)

theorem floodVisit_queue_paint (g : BidiView T) (cmp : T → T → T → Bool)
    (initial curVal : T) (nbrs : List (Nat × Nat)) :
    ∀ (st : ((Nat × Nat) → FloodFillState) × List (Nat × Nat)),
      (∀ p ∈ st.2, st.1 p = FloodFillState.Paint) →
      ∀ p ∈ (floodVisit g cmp initial curVal st nbrs).2,
        (floodVisit g cmp initial curVal st nbrs).1 p = FloodFillState.Paint := by
  induction nbrs with
  | nil => intro st h p hp; exact h p hp
  | cons n rest ih =>
    intro st h
    simp only [floodVisit]
    split_ifs with hvis hc
    · exact ih st h
    · refine ih _ ?_
      intro p hp
      rcases List.mem_append.mp hp with hp | hp
      · by_cases hpn : p = n
        · simp [hpn]
        · simp only [hpn, if_neg hpn]; exact h p hp
      · simp at hp; subst hp; simp
    · refine ih _ ?_
      intro p hp
      push_neg at hvis
      have hpn : p ≠ n := by
        intro he; subst he
        rw [h p hp] at hvis; exact FloodFillState.noConfusion hvis
      simp only [hpn, if_neg hpn]; exact h p hp

theorem floodVisit_processed (g : BidiView T) (cmp : T → T → T → Bool)
    (initial curVal : T) (nbrs : List (Nat × Nat)) :
    ∀ (st : ((Nat × Nat) → FloodFillState) × List (Nat × Nat)) (p : Nat × Nat),
      p ∈ nbrs →
      (floodVisit g cmp initial curVal st nbrs).1 p ≠ FloodFillState.Unvisited := by
  induction nbrs with
  | nil => intro st p h; exact absurd h (List.not_mem_nil p)
  | cons n rest ih =>
    intro st p hp
    simp only [floodVisit]
    rcases List.mem_cons.mp hp with hpn | hp
    · subst hpn
      split_ifs with hvis hc
      · intro hfin
        rw [floodVisit_mark_mono g cmp initial curVal rest st p hvis] at hfin
        exact hvis hfin
      · intro hfin
        rw [floodVisit_mark_mono g cmp initial curVal rest _ p (by simp)] at hfin
        simp at hfin
      · intro hfin
        rw [floodVisit_mark_mono g cmp initial curVal rest _ p (by simp)] at hfin
        simp at hfin
    · split_ifs with hvis hc
      · exact ih st p hp
      · exact ih _ p hp
      · exact ih _ p hp

theorem floodVisit_new_paint_queued (g : BidiView T) (cmp : T → T → T → Bool)
    (initial curVal : T) (nbrs : List (Nat × Nat)) :
    ∀ (st : ((Nat × Nat) → FloodFillState) × List (Nat × Nat)) (p : Nat × Nat),
      (floodVisit g cmp initial curVal st nbrs).1 p = FloodFillState.Paint →
      st.1 p ≠ FloodFillState.Paint → p ∈ (floodVisit g cmp initial curVal st nbrs).2 := by
  induction nbrs with
  | nil => intro st p h1 h2; exact absurd h1 h2
  | cons n rest ih =>
    intro st p h1 h2
    simp only [floodVisit] at h1 ⊢
    split_ifs at h1 ⊢ with hvis hc
    · exact ih st p h1 h2
    · by_cases hpn : p = n
      · subst hpn
        exact floodVisit_queue_mono g cmp initial curVal rest _ p
          (by simp [List.mem_append])
      · exact ih _ p h1 (by simpa [hpn] using h2)
    · by_cases hpn : p = n
      · subst hpn
        rw [floodVisit_mark_mono g cmp initial curVal rest _ p (by simp)] at h1
        simp at h1
      · exact ih _ p h1 (by simpa [hpn] using h2)

theorem floodVisit_measure (g : BidiView T) (cmp : T → T → T → Bool)
    (initial curVal : T) (nbrs : List (Nat × Nat)) :
    ∀ (st : ((Nat × Nat) → FloodFillState) × List (Nat × Nat)),
      (∀ p ∈ nbrs, p.1 < g.width ∧ p.2 < g.height) →
      2 * unvisitedCount g (floodVisit g cmp initial curVal st nbrs).1 +
        (floodVisit g cmp initial curVal st nbrs).2.length ≤
      2 * unvisitedCount g st.1 + st.2.length := by
  induction nbrs with
  | nil => intro st _; exact Nat.le_refl _
  | cons n rest ih =>
    intro st hb
    have hbrest : ∀ p ∈ rest, p.1 < g.width ∧ p.2 < g.height :=
      fun p hp => hb p (List.mem_cons_of_mem _ hp)
    have hbn : n.1 < g.width ∧ n.2 < g.height := hb n (List.mem_cons_self _ _)
    simp only [floodVisit]
    split_ifs with hvis hc
    · exact ih st hbrest
    · push_neg at hvis
      refine le_trans (ih _ hbrest) ?_
      have := unvisitedCount_update g st.1 n hbn hvis FloodFillState.Paint
        (by simp)
      simp only [List.length_append, List.length_singleton]
      omega
    · push_neg at hvis
      refine le_trans (ih _ hbrest) ?_
      have := unvisitedCount_update g st.1 n hbn hvis FloodFillState.Border
        (by simp)
      dsimp only
      omega

/-- Invariant of the flood fill discovery loop: queued cells are painted and
in bounds, painted cells are reachable, bordered cells were rejected by the
comparer, and every painted cell no longer queued has had all its
neighbours examined. -/
structure FloodInv (g : BidiView T) (cmp : T → T → T → Bool)
    (nb : BidiNeighbours) (seed : Nat × Nat)
    (v : (Nat × Nat) → FloodFillState) (q : List (Nat × Nat)) : Prop where
  queue_paint : ∀ p ∈ q, v p = FloodFillState.Paint
  queue_inB : ∀ p ∈ q, p.1 < g.width ∧ p.2 < g.height
  paint_reach : ∀ p, v p = FloodFillState.Paint → FloodReach g cmp nb seed p
  border_rej : ∀ p, v p = FloodFillState.Border →
    cmp (g.get seed) (g.get seed) (g.get p) = false
  processed_closed : ∀ p, v p = FloodFillState.Paint → p ∉ q →
    ∀ r ∈ nb.generate_points_on p g.width g.height, v r ≠ FloodFillState.Unvisited

/-- What holds of the visited table when the discovery loop has run to
completion. -/
structure FloodPost (g : BidiView T) (cmp : T → T → T → Bool)
    (nb : BidiNeighbours) (seed : Nat × Nat)
    (v : (Nat × Nat) → FloodFillState)
    (vfin : (Nat × Nat) → FloodFillState) : Prop where
  paint_reach : ∀ p, vfin p = FloodFillState.Paint → FloodReach g cmp nb seed p
  border_rej : ∀ p, vfin p = FloodFillState.Border →
    cmp (g.get seed) (g.get seed) (g.get p) = false
  mark_mono : ∀ p, v p ≠ FloodFillState.Unvisited → vfin p = v p
  closed : ∀ p, vfin p = FloodFillState.Paint →
    ∀ r ∈ nb.generate_points_on p g.width g.height, vfin r ≠ FloodFillState.Unvisited

theorem floodLoop_post (g : BidiView T) (nb : BidiNeighbours)
    (cmp : T → T → T → Bool) (seed : Nat × Nat)
    (hcmp : ∀ s a a' b, cmp s a b = cmp s a' b) :
    ∀ (fuel : Nat) (v : (Nat × Nat) → FloodFillState) (q : List (Nat × Nat)),
      FloodInv g cmp nb seed v q →
      2 * unvisitedCount g v + q.length < fuel →
      FloodPost g cmp nb seed v (floodLoop g nb cmp (g.get seed) fuel v q) := by
  intro fuel
  induction fuel with
  | zero => intro v q _ hm; omega
  | succ fuel ih =>
    intro v q hinv hm
    match q with
    | [] =>
      exact ⟨hinv.paint_reach, hinv.border_rej, fun p _ => rfl,
        fun p hp r hr => hinv.processed_closed p hp (List.not_mem_nil p) r hr⟩
    | point :: rest =>
      have hpoint_inB : point.1 < g.width ∧ point.2 < g.height :=
        hinv.queue_inB point (List.mem_cons_self _ _)
      have hpoint_paint : v point = FloodFillState.Paint :=
        hinv.queue_paint point (List.mem_cons_self _ _)
      set nbrs := (nb.generate_points_on point g.width g.height).reverse with hnbrs
      have hnbrs_inB : ∀ p ∈ nbrs, p.1 < g.width ∧ p.2 < g.height := by
        intro p hp
        exact generate_points_inB nb g.width g.height point p hpoint_inB
          (List.mem_reverse.mp hp)
      set st' := floodVisit g cmp (g.get seed) (g.get point) (v, rest) nbrs with hst'
      have hmono : ∀ p, v p ≠ FloodFillState.Unvisited → st'.1 p = v p :=
        fun p hp => floodVisit_mark_mono g cmp (g.get seed) (g.get point) nbrs (v, rest) p hp
      have hinv' : FloodInv g cmp nb seed st'.1 st'.2 := by
        refine ⟨?_, ?_, ?_, ?_, ?_⟩
        · exact floodVisit_queue_paint g cmp (g.get seed) (g.get point) nbrs (v, rest)
            (fun p hp => hinv.queue_paint p (List.mem_cons_of_mem _ hp))
        · intro p hp
          rcases floodVisit_queue_sub g cmp (g.get seed) (g.get point) nbrs (v, rest) p hp with
            h | h
          · exact hinv.queue_inB p (List.mem_cons_of_mem _ h)
          · exact hnbrs_inB p h
        · intro p hp
          rcases floodVisit_mark_cases g cmp (g.get seed) (g.get point) nbrs (v, rest) p with
            h | ⟨h1, h2, h3⟩
          · have hvp : (v, rest).1 p = FloodFillState.Paint := h ▸ hp
            exact hinv.paint_reach p hvp
          · rcases h3 with ⟨_, hacc⟩ | ⟨hmark, _⟩
            · exact FloodReach.step (hinv.paint_reach point hpoint_paint)
                (List.mem_reverse.mp h1) hacc
            · rw [hp] at hmark; exact absurd hmark.symm (by simp)
        · intro p hp
          rcases floodVisit_mark_cases g cmp (g.get seed) (g.get point) nbrs (v, rest) p with
            h | ⟨h1, h2, h3⟩
          · have hvp : (v, rest).1 p = FloodFillState.Border := h ▸ hp
            exact hinv.border_rej p hvp
          · rcases h3 with ⟨hmark, _⟩ | ⟨_, hrej⟩
            · rw [hp] at hmark; exact absurd hmark.symm (by simp)
            · rw [hcmp (g.get seed) (g.get seed) (g.get point) (g.get p)]
              exact hrej
        · intro p hp hpq r hr
          rcases floodVisit_mark_cases g cmp (g.get seed) (g.get point) nbrs (v, rest) p with
            h | ⟨h1, h2, h3⟩
          · rw [h] at hp
            by_cases hppt : p = point
            · exact floodVisit_processed g cmp (g.get seed) (g.get point) nbrs (v, rest) r
                (List.mem_reverse.mpr (hppt ▸ hr))
            · have hnrest : p ∉ rest := fun hm =>
                hpq (floodVisit_queue_mono g cmp (g.get seed) (g.get point) nbrs (v, rest) p hm)
              have hnq : p ∉ point :: rest := by
                intro hm
                rcases List.mem_cons.mp hm with hm | hm
                · exact hppt hm
                · exact hnrest hm
              have := hinv.processed_closed p hp hnq r hr
              intro hfin
              rw [floodVisit_mark_mono g cmp (g.get seed) (g.get point) nbrs (v, rest) r this]
                at hfin
              exact this hfin
          · exact absurd (floodVisit_new_paint_queued g cmp (g.get seed) (g.get point) nbrs
              (v, rest) p hp (by rw [h2]; simp)) hpq
      have hm' : 2 * unvisitedCount g st'.1 + st'.2.length < fuel := by
        have hme := floodVisit_measure g cmp (g.get seed) (g.get point) nbrs (v, rest) hnbrs_inB
        rw [← hst'] at hme
        simp only [List.length_cons] at hm
        dsimp only at hme
        omega
      have hrec := ih st'.1 st'.2 hinv' hm'
      have hunfold : floodLoop g nb cmp (g.get seed) (fuel + 1) v (point :: rest) =
          floodLoop g nb cmp (g.get seed) fuel st'.1 st'.2 := rfl
      rw [hunfold]
      exact ⟨hrec.paint_reach, hrec.border_rej,
        fun p hp => by rw [hrec.mark_mono p (by rw [hmono p hp]; exact hp), hmono p hp],
        hrec.closed⟩

/-- C6 (amended): for every in-bounds seed and every comparer that does not
depend on the current cell's value, flood_fill marks Paint exactly the
cells reachable from the seed through comparer-accepted steps under the
chosen neighbour policy, and then paints exactly those cells; the comparer
is evaluated on pre-paint values since painting happens after discovery. -/
theorem flood_fill_component (g : BidiView T) (seed : Nat × Nat)
    (nb : BidiNeighbours) (cmp : T → T → T → Bool) (painter : T → (Nat × Nat) → T)
    (hseed : seed.1 < g.width ∧ seed.2 < g.height)
    (hcmp : ∀ s a a' b, cmp s a b = cmp s a' b) :
    (∀ p, floodVisited g seed nb cmp p = FloodFillState.Paint ↔
      FloodReach g cmp nb seed p) ∧
    (∀ p, (FloodReach g cmp nb seed p → p.1 < g.width ∧ p.2 < g.height →
        (flood_fill g seed nb cmp painter).2.get p = painter (g.get p) p) ∧
      ((¬ FloodReach g cmp nb seed p ∨ ¬(p.1 < g.width ∧ p.2 < g.height)) →
        (flood_fill g seed nb cmp painter).2.get p = g.get p)) := by
  set v0 : (Nat × Nat) → FloodFillState :=
    fun m => if m = seed then FloodFillState.Paint else FloodFillState.Unvisited with hv0
  have hinv : FloodInv g cmp nb seed v0 [seed] := by
    refine ⟨?_, ?_, ?_, ?_, ?_⟩
    · intro p hp; rw [List.mem_singleton.mp hp]; simp [hv0]
    · intro p hp; rw [List.mem_singleton.mp hp]; exact hseed
    · intro p hp
      by_cases hps : p = seed
      · subst hps; exact FloodReach.seed
      · simp [hv0, hps] at hp
    · intro p hp
      by_cases hps : p = seed <;> simp [hv0, hps] at hp
    · intro p hp hq
      by_cases hps : p = seed
      · subst hps; exact absurd (List.mem_singleton.mpr rfl) hq
      · simp [hv0, hps] at hp
  have hmeas : 2 * unvisitedCount g v0 + 1 < 2 * g.width * g.height + 2 := by
    have h1 := unvisitedCount_le g v0
    have h2 : 2 * g.width * g.height = 2 * (g.width * g.height) := by ring
    omega
  have hpost := floodLoop_post g nb cmp seed hcmp
    (2 * g.width * g.height + 2) v0 [seed] hinv hmeas
  have hvfin : floodVisited g seed nb cmp =
      floodLoop g nb cmp (g.get seed) (2 * g.width * g.height + 2) v0 [seed] := rfl
  have hiff : ∀ p, floodVisited g seed nb cmp p = FloodFillState.Paint ↔
      FloodReach g cmp nb seed p := by
    intro p
    constructor
    · intro hp; exact hpost.paint_reach p (by rw [← hvfin]; exact hp)
    · intro hr
      rw [hvfin]
      induction hr with
      | seed =>
        rw [hpost.mark_mono seed (by simp [hv0])]; simp [hv0]
      | step hr hmem hacc ih =>
        rename_i p' q'
        have hq' := hpost.closed p' ih q' hmem
        cases hcase : (floodLoop g nb cmp (g.get seed)
            (2 * g.width * g.height + 2) v0 [seed]) q' with
        | Unvisited => exact absurd hcase hq'
        | Border =>
          have hrej := hpost.border_rej q' hcase
          rw [hcmp (g.get seed) (g.get seed) (g.get p') (g.get q')] at hrej
          rw [hrej] at hacc
          exact Bool.noConfusion hacc
        | Paint => rfl
  have hguard : ¬(seed.1 ≥ g.width ∨ seed.2 ≥ g.height) := by omega
  refine ⟨hiff, fun p => ⟨?_, ?_⟩⟩
  · intro hr hb
    have hvp : floodVisited g seed nb cmp p = FloodFillState.Paint := (hiff p).mpr hr
    simp only [flood_fill, if_neg hguard]
    rw [if_pos ⟨hb.1, hb.2, hvp⟩]
  · intro hor
    simp only [flood_fill, if_neg hguard]
    rw [if_neg]
    rintro ⟨hb1, hb2, hvp⟩
    rcases hor with hor | hor
    · exact hor ((hiff p).mp hvp)
    · exact hor ⟨hb1, hb2⟩

/-- Witness for the amended C6 on stepGrid22 with a comparer that only
inspects the seed and candidate values. -/
theorem flood_fill_component_witness :
    (((0, 0) : Nat × Nat).1 < stepGrid22.width ∧
      ((0, 0) : Nat × Nat).2 < stepGrid22.height) ∧
    (∀ s a a' b : Nat, (fun (s _ b : Nat) => b == s) s a b =
      (fun (s _ b : Nat) => b == s) s a' b) ∧
    ((∀ p, floodVisited stepGrid22 (0, 0) BidiNeighbours.Adjacent
        (fun s _ b => b == s) p = FloodFillState.Paint ↔
      FloodReach stepGrid22 (fun s _ b => b == s) BidiNeighbours.Adjacent (0, 0) p) ∧
    (∀ p, (FloodReach stepGrid22 (fun s _ b => b == s) BidiNeighbours.Adjacent (0, 0) p →
        p.1 < stepGrid22.width ∧ p.2 < stepGrid22.height →
        (flood_fill stepGrid22 (0, 0) BidiNeighbours.Adjacent (fun s _ b => b == s)
          (fun _ _ => 9)).2.get p = 9) ∧
      ((¬ FloodReach stepGrid22 (fun s _ b => b == s) BidiNeighbours.Adjacent (0, 0) p ∨
          ¬(p.1 < stepGrid22.width ∧ p.2 < stepGrid22.height)) →
        (flood_fill stepGrid22 (0, 0) BidiNeighbours.Adjacent (fun s _ b => b == s)
          (fun _ _ => 9)).2.get p = stepGrid22.get p))) :=
  ⟨⟨by decide, by decide⟩, fun _ _ _ _ => rfl,
    flood_fill_component stepGrid22 (0, 0) BidiNeighbours.Adjacent
      (fun s _ b => b == s) (fun _ _ => 9) ⟨by decide, by decide⟩ (fun _ _ _ _ => rfl)⟩


/-! Pathfinding (src/algorithms/pathfinding.rs). -/

/-- Capability bundle of a PathFindCost instance: the default value (zero),
addition, the strict comparison underlying the derived ordering, and
normalize. Executions in which the Rust Ord implementation would panic
(partial_cmp returning None inside the binary heap) are outside this model;
every unsigned integer instance has a total order, for which the model is
exact. -/
structure CostModel (C : Type) where
  dflt : C
  add : C → C → C
  blt : C → C → Bool
  normalize : C → Option C

/-- The cost model shared by the unsigned integer PathFindCost instances
(u16, u32, u64, u128, usize), modelled on Nat: default zero, usual addition
and strict order, and the inherited identity normalize. -/
def natCostModel : CostModel Nat :=
  ⟨0, Nat.add, fun a b => decide (a < b), fun c => some c⟩

/-- Model of the frontier entry struct Adjacency
(src/algorithms/pathfinding.rs). -/
structure Adjacency (C : Type) where
  estimated_cost : C
  actual_cost : C
  position : Nat × Nat
  origin : Nat × Nat
deriving DecidableEq, Repr

/-- Model of PathFindDataTile (src/algorithms/pathfinding.rs); the Default
instance used by BidiArray::with_size_default gives none, none, false. -/
structure PathFindDataTile (C : Type) where
  origin : Option (Nat × Nat)
  cost : Option C
  in_shortest_path : Bool
deriving DecidableEq, Repr

/-- Model of PathFindDataResult (src/algorithms/pathfinding.rs). -/
inductive PathFindDataResult (C : Type) where
  | MultipleDestinations
  | ShortestPathFound (cost : C)
  | PathNotFound
deriving DecidableEq, Repr

/-- Model of PathFindData: the overall outcome plus one tile per cell, the
tile table modelled as a total function on coordinates. -/
structure PathFindData (C : Type) where
  result : PathFindDataResult C
  tiles : (Nat × Nat) → PathFindDataTile C

/-- State of the search loop of pathfind_core: the binary heap of frontier
entries (modelled as a list with minimum extraction), the running result
and the tile table. -/
structure PFState (C : Type) where
  heap : List (Adjacency C)
  result : PathFindDataResult C
  tiles : (Nat × Nat) → PathFindDataTile C

/-- Extraction of a minimum-estimated-cost entry, modelling
BinaryHeap::pop under the reversed Ord of Adjacency (the heap pops its Ord
maximum, which is the entry of least estimated cost). Rust leaves the order
of equal-estimate entries unspecified; this model takes the leftmost
minimum, and the concrete executions examined below have no ties. -/
def popMin (cm : CostModel C) : List (Adjacency C) → Option (Adjacency C × List (Adjacency C))
  | [] => none
  | a :: rest =>
    match popMin cm rest with
    | none => some (a, [])
    | some (b, rest') =>
      if cm.blt b.estimated_cost a.estimated_cost then some (b, a :: rest')
      else some (a, rest)

/-- The expansion step of pathfind_core: for every bounded neighbour of the
popped position (taken in the pop order of the scratch vector), evaluate
the cost function, normalize its result, and keep a new frontier entry when
the push filter passes: the neighbour has no recorded cost yet, or the
normalized edge cost is strictly below the recorded cost. The estimated
cost adds the normalized heuristic (defaulted to zero when normalization
fails) when a destination is present. -/
def expandEntries (cm : CostModel C) (view : BidiView T) (nb : BidiNeighbours)
    (cost_func : T → (Nat × Nat) → T → (Nat × Nat) → Option C)
    (heuristic : (Nat × Nat) → (Nat × Nat) → C) (dest : Option (Nat × Nat))
    (tiles : (Nat × Nat) → PathFindDataTile C)
    (position : Nat × Nat) (cur_cost : C) : List (Adjacency C) :=
  ((nb.generate_points_on position view.width view.height).reverse).filterMap
    (fun neighbour =>
      match (match cost_func (view.get position) position (view.get neighbour) neighbour with
             | none => none
             | some c => cm.normalize c) with
      | none => none
      | some cost =>
        if (match (tiles neighbour).cost with
            | none => true
            | some old_cost => cm.blt cost old_cost) then
          some { estimated_cost :=
                  match dest with
                  | some d => cm.add (cm.add cur_cost cost)
                      ((cm.normalize (heuristic neighbour d)).getD cm.dflt)
                  | none => cm.add cur_cost cost,
                 actual_cost := cm.add cur_cost cost,
                 position := neighbour,
                 origin := position }
        else none)

/-- One iteration of the search loop of pathfind_core: pop the least
estimated entry (Sum.inl is returned when the loop ends, with the final
state). A popped entry whose actual cost is not strictly below the recorded
cost of its cell is discarded; otherwise the cell is finalized (origin and
cost recorded), the destination check may end the search, and the cell is
expanded, its new entries pushed onto the heap. -/
def pathfindStep (cm : CostModel C) (view : BidiView T) (nb : BidiNeighbours)
    (cost_func : T → (Nat × Nat) → T → (Nat × Nat) → Option C)
    (heuristic : (Nat × Nat) → (Nat × Nat) → C) (dest : Option (Nat × Nat))
    (s : PFState C) : PFState C ⊕ PFState C :=
  match popMin cm s.heap with
  | none => Sum.inl s
  | some (adjacency, rest) =>
    let improving : Bool :=
      match (s.tiles adjacency.position).cost with
      | none => true
      | some cost => cm.blt adjacency.actual_cost cost
    if improving then
      let tiles' := fun p =>
        if p = adjacency.position then
          { origin := some adjacency.origin, cost := some adjacency.actual_cost,
            in_shortest_path := (s.tiles adjacency.position).in_shortest_path }
        else s.tiles p
      let cur_cost := adjacency.actual_cost
      if dest = some adjacency.position then
        Sum.inl { heap := rest,
                  result := PathFindDataResult.ShortestPathFound cur_cost,
                  tiles := tiles' }
      else
        let entries := expandEntries cm view nb cost_func heuristic dest tiles'
          adjacency.position cur_cost
        Sum.inr { heap := entries.foldl (fun hp e => e :: hp) rest,
                  result := s.result, tiles := tiles' }
    else
      Sum.inr { s with heap := rest }

/-- The search loop of pathfind_core, iterating pathfindStep. The fuel is a
bound on the number of iterations, used to obtain a structurally recursive
model; the pathfindFuel bound chosen below is proved large enough in the
correctness theorems. -/
def pathfindLoop (cm : CostModel C) (view : BidiView T) (nb : BidiNeighbours)
    (cost_func : T → (Nat × Nat) → T → (Nat × Nat) → Option C)
    (heuristic : (Nat × Nat) → (Nat × Nat) → C) (dest : Option (Nat × Nat)) :
    Nat → PFState C → PFState C
  | 0, s => s
  | fuel + 1, s =>
    match pathfindStep cm view nb cost_func heuristic dest s with
    | Sum.inl final => final
    | Sum.inr s' => pathfindLoop cm view nb cost_func heuristic dest fuel s'

/-- The path reconstruction loop of pathfind_core: starting from the
destination, mark in_shortest_path and follow the recorded origin until the
start cell is reached. The fuel bounds the chain length; the source loop
runs until it reaches the start, and the correctness theorems show the
chain reaches the start within width·height + 1 steps. -/
def reconstructLoop (start : Nat × Nat) :
    Nat → Option (Nat × Nat) → ((Nat × Nat) → PathFindDataTile C) →
    ((Nat × Nat) → PathFindDataTile C)
  | 0, _, tiles => tiles
  | _ + 1, none, tiles => tiles
  | fuel + 1, some p, tiles =>
    let tiles' := fun q =>
      if q = p then { tiles p with in_shortest_path := true } else tiles q
    if p = start then tiles'
    else reconstructLoop start fuel (tiles' p).origin tiles'

/-- The largest normalized edge cost the cost function can produce between
any two in-bounds cells. This quantity does not appear in the source; it
only feeds the fuel bound of the loop model. -/
def maxEdgeCost (view : BidiView T)
    (cost_func : T → (Nat × Nat) → T → (Nat × Nat) → Option Nat) : Nat :=
  let cells := (List.range view.width).product (List.range view.height)
  (cells.product cells).foldl
    (fun m pq =>
      match cost_func (view.get pq.1) pq.1 (view.get pq.2) pq.2 with
      | none => m
      | some c => max m c)
    0

/-- Iteration bound for the search loop, proved sufficient in the
correctness theorems: every recorded cost stays below
width·height·maxEdgeCost, each pop either shrinks the heap or strictly
improves a recorded cost, and every finalization pushes at most 8
entries. -/
def pathfindFuel (view : BidiView T)
    (cost_func : T → (Nat × Nat) → T → (Nat × Nat) → Option Nat) : Nat :=
  2 + 10 * (view.width * view.height) *
    (view.width * view.height * maxEdgeCost view cost_func + 2)

def destOutOfBounds (view : BidiView T) : Option (Nat × Nat) → Prop
  | some d => ¬ (d.1 < view.width ∧ d.2 < view.height)
  | none => False

instance (view : BidiView T) (dest : Option (Nat × Nat)) :
    Decidable (destOutOfBounds view dest) :=
  match dest with
  | some d => inferInstanceAs (Decidable (¬ (d.1 < view.width ∧ d.2 < view.height)))
  | none => inferInstanceAs (Decidable False)

/-- Model of pathfind_core (src/algorithms/pathfinding.rs), at the unsigned
integer cost instances (modelled as Nat): bounds checks on start and
destination, then the search loop seeded with the start entry at cost zero,
then path reconstruction when a shortest path was found. -/
def pathfind_core (view : BidiView T) (start : Nat × Nat)
    (dest : Option (Nat × Nat)) (neighbouring : BidiNeighbours)
    (cost_func : T → (Nat × Nat) → T → (Nat × Nat) → Option Nat)
    (heuristic : (Nat × Nat) → (Nat × Nat) → Nat) :
    Except BidiError (PathFindData Nat) :=
  if ¬ (start.1 < view.width ∧ start.2 < view.height) then
    Except.error BidiError.OutOfBounds
  else if destOutOfBounds view dest then
    Except.error BidiError.OutOfBounds
  else
    let s0 : PFState Nat :=
      { heap := [⟨natCostModel.dflt, natCostModel.dflt, start, start⟩],
        result := match dest with
          | some _ => PathFindDataResult.PathNotFound
          | none => PathFindDataResult.MultipleDestinations,
        tiles := fun _ => ⟨none, none, false⟩ }
    let sfin := pathfindLoop natCostModel view neighbouring cost_func heuristic
      dest (pathfindFuel view cost_func) s0
    let tiles := match sfin.result with
      | PathFindDataResult.ShortestPathFound _ =>
        reconstructLoop start (view.width * view.height + 1) dest sfin.tiles
      | _ => sfin.tiles
    Except.ok ⟨sfin.result, tiles⟩

/-- Model of pathfind_to_dest: pathfind_core with a destination and the
constant default (zero) heuristic. -/
def pathfind_to_dest (view : BidiView T) (start dest : Nat × Nat)
    (neighbouring : BidiNeighbours)
    (cost_func : T → (Nat × Nat) → T → (Nat × Nat) → Option Nat) :
    Except BidiError (PathFindData Nat) :=
  pathfind_core view start (some dest) neighbouring cost_func
    (fun _ _ => natCostModel.dflt)

/-- Model of pathfind_to_dest_heuristic: pathfind_core with a destination
and the caller's heuristic. -/
def pathfind_to_dest_heuristic (view : BidiView T) (start dest : Nat × Nat)
    (neighbouring : BidiNeighbours)
    (cost_func : T → (Nat × Nat) → T → (Nat × Nat) → Option Nat)
    (heuristic : (Nat × Nat) → (Nat × Nat) → Nat) :
    Except BidiError (PathFindData Nat) :=
  pathfind_core view start (some dest) neighbouring cost_func heuristic

/-- Model of pathfind_to_whole: pathfind_core without a destination and
with the constant default (zero) heuristic. -/
def pathfind_to_whole (view : BidiView T) (start : Nat × Nat)
    (neighbouring : BidiNeighbours)
    (cost_func : T → (Nat × Nat) → T → (Nat × Nat) → Option Nat) :
    Except BidiError (PathFindData Nat) :=
  pathfind_core view start none neighbouring cost_func
    (fun _ _ => natCostModel.dflt)

/-- C7: every search call with the start (or, where one is given, the
destination) out of bounds, and every flood_fill call with the start out of
bounds, returns the out-of-bounds error immediately, before any algorithmic
work, and produces no partial state: flood_fill hands the grid back
unchanged. -/
theorem out_of_bounds_spec (view : BidiView T) (start dest : Nat × Nat)
    (nb : BidiNeighbours)
    (cost_func : T → (Nat × Nat) → T → (Nat × Nat) → Option Nat)
    (heuristic : (Nat × Nat) → (Nat × Nat) → Nat) (g : BidiView U)
    (pos : Nat × Nat) (cmp : U → U → U → Bool) (painter : U → (Nat × Nat) → U) :
    ((¬ (start.1 < view.width ∧ start.2 < view.height) ∨
      ¬ (dest.1 < view.width ∧ dest.2 < view.height)) →
      pathfind_to_dest view start dest nb cost_func =
        Except.error BidiError.OutOfBounds ∧
      pathfind_to_dest_heuristic view start dest nb cost_func heuristic =
        Except.error BidiError.OutOfBounds) ∧
    (¬ (start.1 < view.width ∧ start.2 < view.height) →
      pathfind_to_whole view start nb cost_func =
        Except.error BidiError.OutOfBounds) ∧
    (¬ (pos.1 < g.width ∧ pos.2 < g.height) →
      flood_fill g pos nb cmp painter =
        (Except.error BidiError.OutOfBounds, g)) := by
  refine ⟨?_, ?_, ?_⟩
  · intro hor
    by_cases hs : start.1 < view.width ∧ start.2 < view.height
    · have hd : destOutOfBounds view (some dest) := by
        rcases hor with h | h
        · exact absurd hs h
        · exact h
      constructor <;>
        · show pathfind_core view start (some dest) nb cost_func _ = _
          rw [pathfind_core, if_neg (by simpa using hs), if_pos hd]
    · constructor <;>
        · show pathfind_core view start (some dest) nb cost_func _ = _
          rw [pathfind_core, if_pos hs]
  · intro hs
    show pathfind_core view start none nb cost_func _ = _
    rw [pathfind_core, if_pos hs]
  · intro hp
    rw [flood_fill, if_pos (by omega)]

/-- Witness for C7: a 2 × 2 grid with start (5, 5) out of bounds. -/
theorem out_of_bounds_spec_witness :
    (¬ (((5, 5) : Nat × Nat).1 < (⟨2, 2, fun _ => 0⟩ : BidiView Nat).width ∧
        ((5, 5) : Nat × Nat).2 < (⟨2, 2, fun _ => 0⟩ : BidiView Nat).height) ∨
      ¬ (((0, 0) : Nat × Nat).1 < (⟨2, 2, fun _ => 0⟩ : BidiView Nat).width ∧
        ((0, 0) : Nat × Nat).2 < (⟨2, 2, fun _ => 0⟩ : BidiView Nat).height)) ∧
    pathfind_to_dest (⟨2, 2, fun _ => 0⟩ : BidiView Nat) (5, 5) (0, 0)
      BidiNeighbours.Adjacent (fun _ _ _ _ => some 1) =
        Except.error BidiError.OutOfBounds ∧
    pathfind_to_dest_heuristic (⟨2, 2, fun _ => 0⟩ : BidiView Nat) (5, 5) (0, 0)
      BidiNeighbours.Adjacent (fun _ _ _ _ => some 1) (fun _ _ => 0) =
        Except.error BidiError.OutOfBounds ∧
    pathfind_to_whole (⟨2, 2, fun _ => 0⟩ : BidiView Nat) (5, 5)
      BidiNeighbours.Adjacent (fun _ _ _ _ => some 1) =
        Except.error BidiError.OutOfBounds ∧
    flood_fill (⟨2, 2, fun _ => 0⟩ : BidiView Nat) (5, 5)
      BidiNeighbours.Adjacent (fun _ _ _ => true) (fun v _ => v) =
        (Except.error BidiError.OutOfBounds, (⟨2, 2, fun _ => 0⟩ : BidiView Nat)) := by
  have hor : ¬ (((5, 5) : Nat × Nat).1 < (⟨2, 2, fun _ => 0⟩ : BidiView Nat).width ∧
      ((5, 5) : Nat × Nat).2 < (⟨2, 2, fun _ => 0⟩ : BidiView Nat).height) := by decide
  obtain ⟨h1, h2, h3⟩ := out_of_bounds_spec (⟨2, 2, fun _ => 0⟩ : BidiView Nat)
    (5, 5) (0, 0) BidiNeighbours.Adjacent (fun _ _ _ _ => some 1) (fun _ _ => 0)
    (⟨2, 2, fun _ => 0⟩ : BidiView Nat) (5, 5) (fun _ _ _ => true) (fun v _ => v)
  exact ⟨Or.inl hor, (h1 (Or.inl hor)).1, (h1 (Or.inl hor)).2, h2 hor, h3 hor⟩

/-- Membership in the pushed entries of one expansion step, characterized by
the push filter of the source: a valid normalized edge cost and either an
unrecorded neighbour or an edge cost strictly below the recorded cost. -/
theorem mem_expandEntries_iff (cm : CostModel C) (view : BidiView T)
    (nb : BidiNeighbours)
    (cost_func : T → (Nat × Nat) → T → (Nat × Nat) → Option C)
    (heuristic : (Nat × Nat) → (Nat × Nat) → C) (dest : Option (Nat × Nat))
    (tiles : (Nat × Nat) → PathFindDataTile C) (position : Nat × Nat)
    (cur_cost : C) (e : Adjacency C) :
    e ∈ expandEntries cm view nb cost_func heuristic dest tiles position cur_cost ↔
      ∃ neighbour ∈ nb.generate_points_on position view.width view.height,
        ∃ c, (cost_func (view.get position) position (view.get neighbour) neighbour).bind
            cm.normalize = some c ∧
          (match (tiles neighbour).cost with
           | none => True
           | some old_cost => cm.blt c old_cost = true) ∧
          e = ⟨(match dest with
                | some d => cm.add (cm.add cur_cost c)
                    ((cm.normalize (heuristic neighbour d)).getD cm.dflt)
                | none => cm.add cur_cost c),
               cm.add cur_cost c, neighbour, position⟩ := by
  rw [expandEntries, List.mem_filterMap]
  constructor
  · rintro ⟨n, hn, hf⟩
    refine ⟨n, List.mem_reverse.mp hn, ?_⟩
    rcases hcf : cost_func (view.get position) position (view.get n) n with _ | c0
    · rw [hcf] at hf; dsimp only at hf; exact absurd hf (by simp)
    · rw [hcf] at hf; dsimp only at hf
      rcases hnorm : cm.normalize c0 with _ | c
      · rw [hnorm] at hf; exact absurd hf (by simp)
      · rw [hnorm] at hf; dsimp only at hf
        refine ⟨c, by simpa using hnorm, ?_⟩
        rcases hold : (tiles n).cost with _ | old
        · rw [hold] at hf
          dsimp only at hf
          rw [if_pos rfl] at hf
          injection hf with hf
          exact ⟨trivial, hf.symm⟩
        · rw [hold] at hf
          dsimp only at hf
          by_cases hblt : cm.blt c old = true
          · rw [if_pos hblt] at hf
            injection hf with hf
            exact ⟨hblt, hf.symm⟩
          · rw [if_neg hblt] at hf
            exact absurd hf (by simp)
  · rintro ⟨n, hn, c, hc, hcond, he⟩
    refine ⟨n, List.mem_reverse.mpr hn, ?_⟩
    rw [Option.bind_eq_some] at hc
    obtain ⟨c0, hcf, hnorm⟩ := hc
    rw [hcf]
    dsimp only
    rw [hnorm]
    dsimp only
    rcases hold : (tiles n).cost with _ | old
    · dsimp only
      rw [if_pos rfl, he]
    · rw [hold] at hcond
      dsimp only at hcond
      rw [if_pos hcond, he]

/-- C2 (amended): during expansion of a finalized cell, a frontier entry is
pushed for a bounded neighbour exactly when the cost function returns an
edge cost that survives normalization and either no cost is recorded yet
for that neighbour or the normalized edge cost itself (not the accumulated
total) is strictly below the recorded cost; the pushed entry carries the
accumulated total as its actual cost. -/
theorem expand_push_characterization (cm : CostModel C) (view : BidiView T)
    (nb : BidiNeighbours)
    (cost_func : T → (Nat × Nat) → T → (Nat × Nat) → Option C)
    (heuristic : (Nat × Nat) → (Nat × Nat) → C) (dest : Option (Nat × Nat))
    (tiles : (Nat × Nat) → PathFindDataTile C) (position : Nat × Nat)
    (cur_cost : C) (e : Adjacency C) :
    e ∈ expandEntries cm view nb cost_func heuristic dest tiles position cur_cost ↔
      ∃ neighbour ∈ nb.generate_points_on position view.width view.height,
        ∃ c, (cost_func (view.get position) position (view.get neighbour) neighbour).bind
            cm.normalize = some c ∧
          (match (tiles neighbour).cost with
           | none => True
           | some old_cost => cm.blt c old_cost = true) ∧
          e = ⟨(match dest with
                | some d => cm.add (cm.add cur_cost c)
                    ((cm.normalize (heuristic neighbour d)).getD cm.dflt)
                | none => cm.add cur_cost c),
               cm.add cur_cost c, neighbour, position⟩ :=
  mem_expandEntries_iff cm view nb cost_func heuristic dest tiles position cur_cost e

/-- The 3 × 1 grid used to refute the strict-improvement push claim; the
cell values are irrelevant, the cost function below keys on positions. -/
def cexGrid13 : BidiView Nat := ⟨3, 1, fun _ => 0⟩

/-- Cost function for the push counterexample: (0,0)→(1,0) costs 5,
(1,0)→(2,0) costs 5, and the reverse edge (2,0)→(1,0) costs 3; every other
step is a wall. -/
def cexCost : Nat → (Nat × Nat) → Nat → (Nat × Nat) → Option Nat :=
  fun _ fromPos _ toPos =>
    if fromPos = (0, 0) ∧ toPos = (1, 0) then some 5
    else if fromPos = (1, 0) ∧ toPos = (2, 0) then some 5
    else if fromPos = (2, 0) ∧ toPos = (1, 0) then some 3
    else none

/-- The initial loop state of pathfind_to_whole on cexGrid13 from (0, 0):
one start entry at cost zero, no recorded tiles. -/
def cexS0 : PFState Nat :=
  { heap := [⟨0, 0, (0, 0), (0, 0)⟩],
    result := PathFindDataResult.MultipleDestinations,
    tiles := fun _ => ⟨none, none, false⟩ }

/-- C2 (counterexample): running the search loop of pathfind_to_whole on
cexGrid13 for three iterations finalizes (1,0) at cost 5 and (2,0) at cost
10, and during the expansion of (2,0) pushes a frontier entry for (1,0)
with accumulated cost 13, because the push filter compares the edge cost 3
— not the total 13 — against the recorded cost 5; the resulting total 13 is
not strictly better than the recorded 5, refuting both the claimed push
condition and the claim that every push strictly improves the recorded best
cost. -/
theorem push_not_improving_counterexample :
    ((⟨13, 13, (1, 0), (2, 0)⟩ : Adjacency Nat) ∈
      (pathfindLoop natCostModel cexGrid13 BidiNeighbours.Adjacent cexCost
        (fun _ _ => natCostModel.dflt) none 3 cexS0).heap) ∧
    ((pathfindLoop natCostModel cexGrid13 BidiNeighbours.Adjacent cexCost
        (fun _ _ => natCostModel.dflt) none 3 cexS0).tiles (1, 0)).cost = some 5 ∧
    ¬ (13 < 5) := by
  refine ⟨?_, ?_, by decide⟩ <;> decide

/-- C10: in single-destination expansion, a heuristic value whose
normalization fails contributes the cost type's default: whenever the
default is a right identity of addition, the pushed entry's estimated cost
equals its accumulated actual cost. Moreover the set of pushed neighbours
and their actual costs never depends on the heuristic at all, so a
non-normalizable heuristic value is never treated as a missing edge and
cannot suppress a push. -/
theorem heuristic_normalize_failure_spec (cm : CostModel C) (view : BidiView T)
    (nb : BidiNeighbours)
    (cost_func : T → (Nat × Nat) → T → (Nat × Nat) → Option C)
    (heuristic heuristic' : (Nat × Nat) → (Nat × Nat) → C) (d : Nat × Nat)
    (tiles : (Nat × Nat) → PathFindDataTile C) (position : Nat × Nat)
    (cur_cost : C) (e : Adjacency C)
    (hadd : ∀ x, cm.add x cm.dflt = x)
    (he : e ∈ expandEntries cm view nb cost_func heuristic (some d) tiles
      position cur_cost)
    (hfail : cm.normalize (heuristic e.position d) = none) :
    e.estimated_cost = e.actual_cost ∧
    (expandEntries cm view nb cost_func heuristic (some d) tiles position
        cur_cost).map (fun a => (a.position, a.actual_cost)) =
      (expandEntries cm view nb cost_func heuristic' (some d) tiles position
        cur_cost).map (fun a => (a.position, a.actual_cost)) := by
  constructor
  · rw [mem_expandEntries_iff] at he
    obtain ⟨n, hn, c, hc, hcond, hee⟩ := he
    have hpos : e.position = n := by rw [hee]
    rw [hee]
    dsimp only
    rw [hpos] at hfail
    rw [hfail]
    exact hadd _
  · rw [expandEntries, expandEntries]
    induction (nb.generate_points_on position view.width view.height).reverse with
    | nil => rfl
    | cons n rest ih =>
      simp only [List.filterMap_cons]
      rcases hev : (match cost_func (view.get position) position (view.get n) n with
                    | none => none
                    | some c => cm.normalize c) with _ | c
      · rw [hev]
        exact ih
      · rw [hev]
        dsimp only
        by_cases hcnd : (match (tiles n).cost with
                         | none => true
                         | some old_cost => cm.blt c old_cost) = true
        · rw [if_pos hcnd, if_pos hcnd]
          simp only [List.map_cons]
          rw [ih]
        · rw [if_neg hcnd, if_neg hcnd]
          exact ih

/-- A cost model used only to exercise a failing heuristic normalization:
integer costs whose negative values are unreachable, mirroring the
rejection rule the crate uses for floats. -/
def signedCostModel : CostModel Int :=
  ⟨0, Int.add, fun a b => decide (a < b),
    fun c => if c < 0 then none else some c⟩

/-- Witness for C10: a 2 × 1 grid whose heuristic returns -1 (normalization
fails), with the unit edge (0,0)→(1,0); the pushed entry for (1,0) has
estimated cost equal to its actual cost 1. -/
theorem heuristic_normalize_failure_spec_witness :
    (∀ x : Int, signedCostModel.add x signedCostModel.dflt = x) ∧
    ((⟨1, 1, (1, 0), (0, 0)⟩ : Adjacency Int) ∈
      expandEntries signedCostModel (⟨2, 1, fun _ => 0⟩ : BidiView Nat)
        BidiNeighbours.Adjacent (fun _ _ _ _ => some 1) (fun _ _ => -1)
        (some (1, 0)) (fun _ => ⟨none, none, false⟩) (0, 0) 0) ∧
    signedCostModel.normalize
      ((fun (_ _ : Nat × Nat) => (-1 : Int)) ((⟨1, 1, (1, 0), (0, 0)⟩ :
        Adjacency Int).position) (1, 0)) = none ∧
    ((⟨1, 1, (1, 0), (0, 0)⟩ : Adjacency Int).estimated_cost =
      (⟨1, 1, (1, 0), (0, 0)⟩ : Adjacency Int).actual_cost ∧
    (expandEntries signedCostModel (⟨2, 1, fun _ => 0⟩ : BidiView Nat)
        BidiNeighbours.Adjacent (fun _ _ _ _ => some 1) (fun _ _ => -1)
        (some (1, 0)) (fun _ => ⟨none, none, false⟩) (0, 0) 0).map
        (fun a => (a.position, a.actual_cost)) =
      (expandEntries signedCostModel (⟨2, 1, fun _ => 0⟩ : BidiView Nat)
        BidiNeighbours.Adjacent (fun _ _ _ _ => some 1) (fun _ _ => 7)
        (some (1, 0)) (fun _ => ⟨none, none, false⟩) (0, 0) 0).map
        (fun a => (a.position, a.actual_cost))) :=
  ⟨fun x => Int.add_zero x, by decide, by decide,
    heuristic_normalize_failure_spec signedCostModel
      (⟨2, 1, fun _ => 0⟩ : BidiView Nat) BidiNeighbours.Adjacent
      (fun _ _ _ _ => some 1) (fun _ _ => -1) (fun _ _ => 7) (1, 0)
      (fun _ => ⟨none, none, false⟩) (0, 0) 0 ⟨1, 1, (1, 0), (0, 0)⟩
      (fun x => Int.add_zero x) (by decide) (by decide)⟩


/-! Reconstruction correctness for the zero-heuristic (Dijkstra) search. -/

/-- The normalized edge cost between two cells, as pathfind_core computes
it: the cost function's answer fed through normalize. -/
def edgeCostN (view : BidiView T)
    (cost_func : T → (Nat × Nat) → T → (Nat × Nat) → Option Nat)
    (q p : Nat × Nat) : Option Nat :=
  match cost_func (view.get q) q (view.get p) p with
  | none => none
  | some c => natCostModel.normalize c

theorem popMin_eq_none (cm : CostModel C) :
    ∀ l : List (Adjacency C), popMin cm l = none ↔ l = [] := by
  intro l
  cases l with
  | nil => simp [popMin]
  | cons x xs =>
    simp only [popMin]
    rcases h : popMin cm xs with _ | ⟨b, r⟩
    · simp
    · dsimp only; split_ifs <;> simp

theorem popMin_perm (cm : CostModel C) :
    ∀ (l : List (Adjacency C)) (a : Adjacency C) (rest : List (Adjacency C)),
      popMin cm l = some (a, rest) → l.Perm (a :: rest) := by
  intro l
  induction l with
  | nil => intro a rest h; simp [popMin] at h
  | cons x xs ih =>
    intro a rest h
    simp only [popMin] at h
    rcases hxs : popMin cm xs with _ | ⟨b, r⟩
    · rw [hxs] at h
      dsimp only at h
      injection h with h
      have h1 : x = a := congrArg Prod.fst h
      have h2 : ([] : List (Adjacency C)) = rest := congrArg Prod.snd h
      have hxs' : xs = [] := (popMin_eq_none cm xs).mp hxs
      subst h1
      rw [← h2, hxs']
    · rw [hxs] at h
      dsimp only at h
      split_ifs at h with hlt
      · injection h with h
        have h1 : b = a := congrArg Prod.fst h
        have h2 : x :: r = rest := congrArg Prod.snd h
        subst h1; rw [← h2]
        exact (ih b r hxs |>.cons x).trans (List.Perm.swap b x r)
      · injection h with h
        have h1 : x = a := congrArg Prod.fst h
        have h2 : xs = rest := congrArg Prod.snd h
        subst h1; rw [← h2]

theorem popMin_mem (cm : CostModel C) (l : List (Adjacency C)) (a : Adjacency C)
    (rest : List (Adjacency C)) (h : popMin cm l = some (a, rest)) : a ∈ l :=
  (popMin_perm cm l a rest h).mem_iff.mpr (List.mem_cons_self _ _)

theorem popMin_rest_mem (cm : CostModel C) (l : List (Adjacency C))
    (a : Adjacency C) (rest : List (Adjacency C))
    (h : popMin cm l = some (a, rest)) : ∀ x ∈ rest, x ∈ l :=
  fun x hx => (popMin_perm cm l a rest h).mem_iff.mpr (List.mem_cons_of_mem _ hx)

theorem natCostModel_blt (u v : Nat) : natCostModel.blt u v = true ↔ u < v := by
  simp [natCostModel]

theorem popMin_min (l : List (Adjacency Nat)) :
    ∀ (a : Adjacency Nat) (rest : List (Adjacency Nat)),
    popMin natCostModel l = some (a, rest) →
    ∀ x ∈ l, a.estimated_cost ≤ x.estimated_cost := by
  induction l with
  | nil => intro a rest h; simp [popMin] at h
  | cons x xs ih =>
    intro a rest h y hy
    simp only [popMin] at h
    rcases hxs : popMin natCostModel xs with _ | ⟨b, r⟩
    · rw [hxs] at h
      dsimp only at h
      injection h with h
      have h1 : x = a := congrArg Prod.fst h
      have hxs' : xs = [] := (popMin_eq_none natCostModel xs).mp hxs
      subst h1
      rw [hxs'] at hy
      rcases List.mem_cons.mp hy with hy | hy
      · rw [hy]
      · simp at hy
    · rw [hxs] at h
      dsimp only at h
      split_ifs at h with hlt
      · injection h with h
        have h1 : b = a := congrArg Prod.fst h
        subst h1
        rw [natCostModel_blt] at hlt
        rcases List.mem_cons.mp hy with hy | hy
        · rw [hy]; exact Nat.le_of_lt hlt
        · exact ih b r hxs y hy
      · injection h with h
        have h1 : x = a := congrArg Prod.fst h
        subst h1
        rw [natCostModel_blt] at hlt
        rcases List.mem_cons.mp hy with hy | hy
        · rw [hy]
        · exact Nat.le_trans (Nat.le_of_not_lt hlt) (ih b r hxs y hy)

theorem mem_foldl_cons (entries : List (Adjacency C)) :
    ∀ (init : List (Adjacency C)) (x : Adjacency C),
      x ∈ entries.foldl (fun hp e => e :: hp) init ↔ x ∈ entries ∨ x ∈ init := by
  induction entries with
  | nil => intro init x; simp
  | cons e es ih =>
    intro init x
    simp only [List.foldl_cons, ih, List.mem_cons]
    tauto

/-- Membership in the expansion entries of the zero-heuristic search at the
Nat cost model: the estimated cost coincides with the accumulated actual
cost. -/
theorem mem_expand_nat_zero (view : BidiView T) (nb : BidiNeighbours)
    (cf : T → (Nat × Nat) → T → (Nat × Nat) → Option Nat)
    (d : Nat × Nat) (tiles : (Nat × Nat) → PathFindDataTile Nat)
    (position : Nat × Nat) (cur : Nat) (e : Adjacency Nat) :
    e ∈ expandEntries natCostModel view nb cf (fun _ _ => natCostModel.dflt)
        (some d) tiles position cur ↔
      ∃ n ∈ nb.generate_points_on position view.width view.height,
        ∃ c, edgeCostN view cf position n = some c ∧
          (match (tiles n).cost with
           | none => True
           | some old_cost => c < old_cost) ∧
          e = ⟨cur + c, cur + c, n, position⟩ := by
  rw [mem_expandEntries_iff]
  constructor
  · rintro ⟨n, hn, c, hc, hcond, he⟩
    refine ⟨n, hn, c, ?_, ?_, ?_⟩
    · rw [edgeCostN]
      rcases hcf : cf (view.get position) position (view.get n) n with _ | c0
      · rw [hcf] at hc; exact absurd hc (by simp)
      · rw [hcf] at hc; simpa using hc
    · rcases hold : (tiles n).cost with _ | old
      · trivial
      · rw [hold] at hcond
        exact (natCostModel_blt c old).mp hcond
    · exact he
  · rintro ⟨n, hn, c, hc, hcond, he⟩
    refine ⟨n, hn, c, ?_, ?_, ?_⟩
    · rw [edgeCostN] at hc
      rcases hcf : cf (view.get position) position (view.get n) n with _ | c0
      · rw [hcf] at hc; exact absurd hc (by simp)
      · rw [hcf] at hc; simpa using hc
    · rcases hold : (tiles n).cost with _ | old
      · trivial
      · rw [hold] at hcond
        exact (natCostModel_blt c old).mpr hcond
    · exact he

theorem indexOf_append_left {l₁ l₂ : List (Nat × Nat)} {a : Nat × Nat}
    (h : a ∈ l₁) : (l₁ ++ l₂).indexOf a = l₁.indexOf a := by
  induction l₁ with
  | nil => simp at h
  | cons x xs ih =>
    by_cases hax : x = a
    · simp [List.indexOf_cons, hax]
    · rcases List.mem_cons.mp h with h | h
      · exact absurd h.symm hax
      · simp [List.indexOf_cons, hax, ih h]

theorem indexOf_append_self {l : List (Nat × Nat)} {a : Nat × Nat}
    (h : a ∉ l) : (l ++ [a]).indexOf a = l.length := by
  induction l with
  | nil => simp [List.indexOf_cons]
  | cons x xs ih =>
    have hax : x ≠ a := fun he => h (he ▸ List.mem_cons_self _ _)
    simp only [List.cons_append, List.indexOf_cons]
    rw [ih (fun hm => h (List.mem_cons_of_mem _ hm))]
    have hb : (x == a) = false := beq_eq_false_iff_ne.mpr hax
    rw [hb, cond_false]
    simp

theorem head?_append_of_ne_nil {α : Type} {l l₂ : List α} (h : l ≠ []) :
    (l ++ l₂).head? = l.head? := by
  cases l with
  | nil => exact absurd rfl h
  | cons x xs => rfl

theorem mem_of_head?_eq_some {α : Type} {l : List α} {a : α}
    (h : l.head? = some a) : a ∈ l := by
  cases l with
  | nil => exact absurd h (by simp)
  | cons x xs =>
    simp only [List.head?_cons, Option.some.injEq] at h
    rw [← h]
    exact List.mem_cons_self _ _

/-- The part of the Dijkstra loop invariant that concerns only the tile
table: the finalized cells listed in finalization order beginning with the
start, each non-start cell's origin pointing to a strictly earlier
finalized neighbour with an exact cost sum along the recorded edge. -/
def ChainTable (view : BidiView T) (nb : BidiNeighbours)
    (cf : T → (Nat × Nat) → T → (Nat × Nat) → Option Nat) (start : Nat × Nat)
    (finOrder : List (Nat × Nat))
    (tiles : (Nat × Nat) → PathFindDataTile Nat) : Prop :=
  finOrder.Nodup ∧
  (∀ p ∈ finOrder, p.1 < view.width ∧ p.2 < view.height) ∧
  (finOrder ≠ [] → finOrder.head? = some start ∧
    (tiles start).origin = some start ∧ (tiles start).cost = some 0) ∧
  (∀ p ∈ finOrder, p ≠ start →
    ∃ q cq e, (tiles p).origin = some q ∧ q ∈ finOrder ∧
      finOrder.indexOf q < finOrder.indexOf p ∧
      p ∈ nb.generate_points_on q view.width view.height ∧
      edgeCostN view cf q p = some e ∧
      (tiles q).cost = some cq ∧ (tiles p).cost = some (cq + e))

/-- Loop invariant of the zero-heuristic single-destination search: the
ghost list finOrder records the cells finalized so far in order; recorded
costs exist exactly on finOrder, every frontier entry has estimated equal
to actual cost, no entry is cheaper than a finalized cost, and every entry
either is the initial start entry or extends a finalized cell by one
normalized edge. -/
structure DijkInv (view : BidiView T) (nb : BidiNeighbours)
    (cf : T → (Nat × Nat) → T → (Nat × Nat) → Option Nat) (start : Nat × Nat)
    (finOrder : List (Nat × Nat)) (s : PFState Nat) : Prop where
  result_eq : s.result = PathFindDataResult.PathNotFound
  chain : ChainTable view nb cf start finOrder s.tiles
  tiles_unrecorded : ∀ p, p ∉ finOrder → s.tiles p = ⟨none, none, false⟩
  flags_false : ∀ p, (s.tiles p).in_shortest_path = false
  tiles_cost : ∀ p ∈ finOrder, ∃ c, (s.tiles p).cost = some c
  heap_est : ∀ a ∈ s.heap, a.estimated_cost = a.actual_cost
  heap_inB : ∀ a ∈ s.heap, a.position.1 < view.width ∧ a.position.2 < view.height
  heap_lb : ∀ a ∈ s.heap, ∀ p ∈ finOrder, ∀ cp,
    (s.tiles p).cost = some cp → cp ≤ a.actual_cost
  heap_origin : ∀ a ∈ s.heap,
    (a.position = start ∧ a.origin = start ∧ a.actual_cost = 0) ∨
    (∃ cq e, a.origin ∈ finOrder ∧ (s.tiles a.origin).cost = some cq ∧
      a.position ∈ nb.generate_points_on a.origin view.width view.height ∧
      edgeCostN view cf a.origin a.position = some e ∧ a.actual_cost = cq + e)

theorem indexOf_lt_length_of_mem {l : List (Nat × Nat)} {a : Nat × Nat}
    (h : a ∈ l) : l.indexOf a < l.length := by
  induction l with
  | nil => simp at h
  | cons x xs ih =>
    by_cases hax : x = a
    · simp [List.indexOf_cons, hax]
    · rcases List.mem_cons.mp h with h | h
      · exact absurd h.symm hax
      · have hb : (x == a) = false := beq_eq_false_iff_ne.mpr hax
        simp only [List.indexOf_cons, hb, cond_false, List.length_cons]
        exact Nat.succ_lt_succ (ih h)

/-- The tile table after finalizing a popped entry: the popped cell records
the entry's origin and accumulated cost, every other cell is unchanged. -/
def updTiles (s : PFState C) (a : Adjacency C) (p : Nat × Nat) :
    PathFindDataTile C :=
  if p = a.position then
    ⟨some a.origin, some a.actual_cost, (s.tiles a.position).in_shortest_path⟩
  else s.tiles p

/-- The improvement test applied to a popped entry: true when the entry's
cell has no recorded cost yet or the entry's accumulated cost is strictly
below the recorded one. -/
def improves (cm : CostModel C) (s : PFState C) (a : Adjacency C) : Bool :=
  match (s.tiles a.position).cost with
  | none => true
  | some cost => cm.blt a.actual_cost cost

theorem pathfindStep_found (cm : CostModel C) (view : BidiView T)
    (nb : BidiNeighbours)
    (cost_func : T → (Nat × Nat) → T → (Nat × Nat) → Option C)
    (heuristic : (Nat × Nat) → (Nat × Nat) → C) (dest : Option (Nat × Nat))
    (s : PFState C) (a : Adjacency C) (rest : List (Adjacency C))
    (hpop : popMin cm s.heap = some (a, rest))
    (himp : improves cm s a = true) (hdest : dest = some a.position) :
    pathfindStep cm view nb cost_func heuristic dest s =
      Sum.inl ⟨rest, PathFindDataResult.ShortestPathFound a.actual_cost,
        fun p => if p = a.position then
          ⟨some a.origin, some a.actual_cost,
            (s.tiles a.position).in_shortest_path⟩
        else s.tiles p⟩ := by
  rw [pathfindStep, hpop]
  dsimp only
  rw [improves] at himp
  rcases hcost : (s.tiles a.position).cost with _ | cold
  · dsimp only
    rw [if_pos rfl, if_pos hdest]
  · rw [hcost] at himp
    dsimp only at himp ⊢
    rw [if_pos himp, if_pos hdest]

theorem pathfindStep_expand (cm : CostModel C) (view : BidiView T)
    (nb : BidiNeighbours)
    (cost_func : T → (Nat × Nat) → T → (Nat × Nat) → Option C)
    (heuristic : (Nat × Nat) → (Nat × Nat) → C) (dest : Option (Nat × Nat))
    (s : PFState C) (a : Adjacency C) (rest : List (Adjacency C))
    (hpop : popMin cm s.heap = some (a, rest))
    (himp : improves cm s a = true) (hdest : ¬ dest = some a.position) :
    pathfindStep cm view nb cost_func heuristic dest s =
      Sum.inr ⟨(expandEntries cm view nb cost_func heuristic dest
          (fun p => if p = a.position then
            ⟨some a.origin, some a.actual_cost,
              (s.tiles a.position).in_shortest_path⟩
          else s.tiles p) a.position a.actual_cost).foldl
          (fun hp e => e :: hp) rest,
        s.result,
        fun p => if p = a.position then
          ⟨some a.origin, some a.actual_cost,
            (s.tiles a.position).in_shortest_path⟩
        else s.tiles p⟩ := by
  rw [pathfindStep, hpop]
  dsimp only
  rw [improves] at himp
  rcases hcost : (s.tiles a.position).cost with _ | cold
  · dsimp only
    rw [if_pos rfl, if_neg hdest]
  · rw [hcost] at himp
    dsimp only at himp ⊢
    rw [if_pos himp, if_neg hdest]

theorem pathfindStep_discard (cm : CostModel C) (view : BidiView T)
    (nb : BidiNeighbours)
    (cost_func : T → (Nat × Nat) → T → (Nat × Nat) → Option C)
    (heuristic : (Nat × Nat) → (Nat × Nat) → C) (dest : Option (Nat × Nat))
    (s : PFState C) (a : Adjacency C) (rest : List (Adjacency C))
    (hpop : popMin cm s.heap = some (a, rest))
    (himp : improves cm s a = false) :
    pathfindStep cm view nb cost_func heuristic dest s =
      Sum.inr ⟨rest, s.result, s.tiles⟩ := by
  rw [pathfindStep, hpop]
  dsimp only
  rw [improves] at himp
  rcases hcost : (s.tiles a.position).cost with _ | cold
  · rw [hcost] at himp
    dsimp only at himp
    exact absurd himp (by simp)
  · rw [hcost] at himp
    dsimp only at himp ⊢
    rw [if_neg (by simp [himp])]

theorem dijk_finalize (view : BidiView T) (nb : BidiNeighbours)
    (cf : T → (Nat × Nat) → T → (Nat × Nat) → Option Nat)
    (start d : Nat × Nat) (finOrder : List (Nat × Nat)) (s : PFState Nat)
    (a : Adjacency Nat) (rest : List (Adjacency Nat))
    (hinv : DijkInv view nb cf start finOrder s)
    (hpop : popMin natCostModel s.heap = some (a, rest))
    (himp : improves natCostModel s a = true) :
    a.position ∉ finOrder ∧ (s.tiles a.position).cost = none ∧
    DijkInv view nb cf start (finOrder ++ [a.position])
      { heap := (expandEntries natCostModel view nb cf
          (fun _ _ => natCostModel.dflt) (some d) (updTiles s a) a.position
          a.actual_cost).foldl (fun hp e => e :: hp) rest,
        result := s.result,
        tiles := updTiles s a } := by
  have hmem : a ∈ s.heap := popMin_mem natCostModel s.heap a rest hpop
  obtain ⟨hnodup, hinB, hhead, hchain⟩ := hinv.chain
  -- the popped cell cannot already be finalized
  have hnotin : a.position ∉ finOrder := by
    intro hin
    obtain ⟨cp, hcp⟩ := hinv.tiles_cost a.position hin
    rw [improves, hcp] at himp
    dsimp only at himp
    rw [natCostModel_blt] at himp
    have := hinv.heap_lb a hmem a.position hin cp hcp
    omega
  have hcostnone : (s.tiles a.position).cost = none := by
    have := hinv.tiles_unrecorded a.position hnotin
    rw [this]
  have htp0 : updTiles s a a.position = ⟨some a.origin, some a.actual_cost,
      (s.tiles a.position).in_shortest_path⟩ := by
    rw [updTiles, if_pos rfl]
  have htother : ∀ p, p ≠ a.position → updTiles s a p = s.tiles p := by
    intro p hp
    rw [updTiles, if_neg hp]
  have horigin := hinv.heap_origin a hmem
  -- the two shapes of the popped entry
  have hstart_case : (a.position = start ∧ a.origin = start ∧ a.actual_cost = 0) →
      finOrder = [] := by
    rintro ⟨hps, _, _⟩
    by_contra hne
    obtain ⟨hh, _, _⟩ := hhead hne
    refine hnotin ?_
    rw [hps]
    exact mem_of_head?_eq_some hh
  have hexp_case : (∃ cq e, a.origin ∈ finOrder ∧
      (s.tiles a.origin).cost = some cq ∧
      a.position ∈ nb.generate_points_on a.origin view.width view.height ∧
      edgeCostN view cf a.origin a.position = some e ∧ a.actual_cost = cq + e) →
      finOrder ≠ [] := by
    rintro ⟨cq, e, hq, _⟩ hnil
    rw [hnil] at hq
    exact absurd hq (List.not_mem_nil _)
  -- the new chain table
  have hchain' : ChainTable view nb cf start (finOrder ++ [a.position])
      (updTiles s a) := by
    refine ⟨?_, ?_, ?_, ?_⟩
    · simp [List.nodup_append, hnodup, hnotin]
    · intro p hp
      rcases List.mem_append.mp hp with hp | hp
      · exact hinB p hp
      · simp only [List.mem_singleton] at hp
        rw [hp]
        exact hinv.heap_inB a hmem
    · intro _
      rcases horigin with hcase | hcase
      · obtain ⟨hps, hos, hac⟩ := hcase
        have hnil := hstart_case ⟨hps, hos, hac⟩
        rw [hnil]
        refine ⟨?_, ?_, ?_⟩
        · simp only [List.nil_append, List.head?_cons]
          rw [hps]
        · rw [← hps, htp0]
          dsimp only
          rw [hos, hps]
        · rw [← hps, htp0]
          dsimp only
          rw [hac]
      · have hne := hexp_case hcase
        obtain ⟨hh, ho, hc⟩ := hhead hne
        have hsmem : start ∈ finOrder := mem_of_head?_eq_some hh
        have hsne : start ≠ a.position := fun he => hnotin (he ▸ hsmem)
        refine ⟨?_, ?_, ?_⟩
        · rw [head?_append_of_ne_nil hne, hh]
        · rw [htother start hsne]; exact ho
        · rw [htother start hsne]; exact hc
    · intro p hp hpstart
      rcases List.mem_append.mp hp with hp | hp
      · obtain ⟨q, cq, e, h1, h2, h3, h4, h5, h6, h7⟩ := hchain p hp hpstart
        have hpne : p ≠ a.position := fun he => hnotin (he ▸ hp)
        have hqne : q ≠ a.position := fun he => hnotin (he ▸ h2)
        refine ⟨q, cq, e, ?_, List.mem_append_left _ h2, ?_, h4, h5, ?_, ?_⟩
        · rw [htother p hpne]; exact h1
        · rw [indexOf_append_left h2, indexOf_append_left hp]
          exact h3
        · rw [htother q hqne]; exact h6
        · rw [htother p hpne]; exact h7
      · simp only [List.mem_singleton] at hp
        subst hp
        rcases horigin with hcase | hcase
        · exact absurd hcase.1 hpstart
        · obtain ⟨cq, e, hq, hcq, hgen, hedge, hac⟩ := hcase
          have hqne : a.origin ≠ a.position := fun he => hnotin (he ▸ hq)
          refine ⟨a.origin, cq, e, ?_, List.mem_append_left _ hq, ?_, hgen, hedge, ?_, ?_⟩
          · rw [htp0]
          · rw [indexOf_append_left hq, indexOf_append_self hnotin]
            exact indexOf_lt_length_of_mem hq
          · rw [htother a.origin hqne]; exact hcq
          · rw [htp0, hac]
  -- entry facts for newly pushed entries
  have hentry : ∀ x ∈ expandEntries natCostModel view nb cf
      (fun _ _ => natCostModel.dflt) (some d) (updTiles s a) a.position
      a.actual_cost,
      ∃ n c, n ∈ nb.generate_points_on a.position view.width view.height ∧
        edgeCostN view cf a.position n = some c ∧
        x = ⟨a.actual_cost + c, a.actual_cost + c, n, a.position⟩ := by
    intro x hx
    rw [mem_expand_nat_zero] at hx
    obtain ⟨n, hn, c, hc, _, he⟩ := hx
    exact ⟨n, c, hn, hc, he⟩
  have hp0inB : a.position.1 < view.width ∧ a.position.2 < view.height :=
    hinv.heap_inB a hmem
  refine ⟨hnotin, hcostnone, ?_⟩
  refine ⟨hinv.result_eq, hchain', ?_, ?_, ?_, ?_, ?_, ?_, ?_⟩
  · intro p hp
    dsimp only
    have hp1 : p ∉ finOrder := fun hm => hp (List.mem_append_left _ hm)
    have hp2 : p ≠ a.position := by
      intro he
      exact hp (he ▸ List.mem_append_right _ (List.mem_singleton.mpr rfl))
    rw [htother p hp2]
    exact hinv.tiles_unrecorded p hp1
  · intro p
    dsimp only
    by_cases hp : p = a.position
    · rw [hp, htp0]
      exact hinv.flags_false a.position
    · rw [htother p hp]
      exact hinv.flags_false p
  · intro p hp
    dsimp only
    rcases List.mem_append.mp hp with hp | hp
    · have hpne : p ≠ a.position := fun he => hnotin (he ▸ hp)
      rw [htother p hpne]
      exact hinv.tiles_cost p hp
    · simp only [List.mem_singleton] at hp
      rw [hp, htp0]
      exact ⟨a.actual_cost, rfl⟩
  · intro x hx
    dsimp only at hx
    rcases (mem_foldl_cons _ _ _).mp hx with hx | hx
    · obtain ⟨n, c, _, _, he⟩ := hentry x hx
      rw [he]
    · exact hinv.heap_est x (popMin_rest_mem natCostModel s.heap a rest hpop x hx)
  · intro x hx
    dsimp only at hx
    rcases (mem_foldl_cons _ _ _).mp hx with hx | hx
    · obtain ⟨n, c, hn, _, he⟩ := hentry x hx
      rw [he]
      exact generate_points_inB nb view.width view.height a.position n hp0inB hn
    · exact hinv.heap_inB x (popMin_rest_mem natCostModel s.heap a rest hpop x hx)
  · intro x hx p hp cp hcp
    dsimp only at hx hcp
    have hxa : a.actual_cost ≤ x.actual_cost ∨ x ∈ expandEntries natCostModel
        view nb cf (fun _ _ => natCostModel.dflt) (some d) (updTiles s a)
        a.position a.actual_cost := by
      rcases (mem_foldl_cons _ _ _).mp hx with hx | hx
      · exact Or.inr hx
      · left
        have hxheap := popMin_rest_mem natCostModel s.heap a rest hpop x hx
        have := popMin_min s.heap a rest hpop x hxheap
        rw [hinv.heap_est a hmem, hinv.heap_est x hxheap] at this
        exact this
    have hcple : cp ≤ a.actual_cost := by
      rcases List.mem_append.mp hp with hp | hp
      · have hpne : p ≠ a.position := fun he => hnotin (he ▸ hp)
        rw [htother p hpne] at hcp
        exact hinv.heap_lb a hmem p hp cp hcp
      · simp only [List.mem_singleton] at hp
        subst hp
        rw [htp0] at hcp
        dsimp only at hcp
        simp only [Option.some.injEq] at hcp
        omega
    rcases hxa with hxa | hxa
    · omega
    · obtain ⟨n, c, _, _, he⟩ := hentry x hxa
      rw [he]
      dsimp only
      omega
  · intro x hx
    dsimp only at hx ⊢
    rcases (mem_foldl_cons _ _ _).mp hx with hx | hx
    · obtain ⟨n, c, hn, hc, he⟩ := hentry x hx
      right
      refine ⟨a.actual_cost, c, ?_, ?_, ?_, ?_, ?_⟩
      · rw [he]
        exact List.mem_append_right _ (List.mem_singleton.mpr rfl)
      · rw [he]
        dsimp only
        rw [htp0]
      · rw [he]
        exact hn
      · rw [he]
        exact hc
      · rw [he]
    · have hxheap := popMin_rest_mem natCostModel s.heap a rest hpop x hx
      rcases hinv.heap_origin x hxheap with hcase | hcase
      · exact Or.inl hcase
      · obtain ⟨cq, e, hq, hcq, hgen, hedge, hac⟩ := hcase
        have hqne : x.origin ≠ a.position := fun he => hnotin (he ▸ hq)
        right
        refine ⟨cq, e, List.mem_append_left _ hq, ?_, hgen, hedge, hac⟩
        rw [htother x.origin hqne]
        exact hcq

theorem dijk_discard (view : BidiView T) (nb : BidiNeighbours)
    (cf : T → (Nat × Nat) → T → (Nat × Nat) → Option Nat)
    (start : Nat × Nat) (finOrder : List (Nat × Nat)) (s : PFState Nat)
    (a : Adjacency Nat) (rest : List (Adjacency Nat))
    (hinv : DijkInv view nb cf start finOrder s)
    (hpop : popMin natCostModel s.heap = some (a, rest)) :
    DijkInv view nb cf start finOrder { s with heap := rest } := by
  refine ⟨hinv.result_eq, hinv.chain, hinv.tiles_unrecorded, hinv.flags_false,
    hinv.tiles_cost, ?_, ?_, ?_, ?_⟩
  · intro x hx
    exact hinv.heap_est x (popMin_rest_mem natCostModel s.heap a rest hpop x hx)
  · intro x hx
    exact hinv.heap_inB x (popMin_rest_mem natCostModel s.heap a rest hpop x hx)
  · intro x hx p hp cp hcp
    exact hinv.heap_lb x (popMin_rest_mem natCostModel s.heap a rest hpop x hx)
      p hp cp hcp
  · intro x hx
    exact hinv.heap_origin x (popMin_rest_mem natCostModel s.heap a rest hpop x hx)

/-- The conclusion drawn from a finished run of the zero-heuristic search
loop: the in_shortest_path flags are still all clear, and a ShortestPathFound
result is certified by a finalization-order chain table in which the
destination is recorded at the reported cost. -/
def DijkPost (view : BidiView T) (nb : BidiNeighbours)
    (cf : T → (Nat × Nat) → T → (Nat × Nat) → Option Nat)
    (start d : Nat × Nat) (s : PFState Nat) : Prop :=
  (∀ p, (s.tiles p).in_shortest_path = false) ∧
  ∀ c, s.result = PathFindDataResult.ShortestPathFound c →
    ∃ fo, ChainTable view nb cf start fo s.tiles ∧ d ∈ fo ∧
      (s.tiles d).cost = some c

theorem dijkLoop_chain (view : BidiView T) (nb : BidiNeighbours)
    (cf : T → (Nat × Nat) → T → (Nat × Nat) → Option Nat)
    (start d : Nat × Nat) :
    ∀ (fuel : Nat) (s : PFState Nat) (finOrder : List (Nat × Nat)),
      DijkInv view nb cf start finOrder s →
      DijkPost view nb cf start d
        (pathfindLoop natCostModel view nb cf (fun _ _ => natCostModel.dflt)
          (some d) fuel s) := by
  intro fuel
  induction fuel with
  | zero =>
    intro s finOrder hinv
    refine ⟨hinv.flags_false, ?_⟩
    intro c hc
    rw [show pathfindLoop natCostModel view nb cf (fun _ _ => natCostModel.dflt)
        (some d) 0 s = s from rfl] at hc
    rw [hinv.result_eq] at hc
    exact absurd hc (by simp)
  | succ fuel ih =>
    intro s finOrder hinv
    rcases hpop : popMin natCostModel s.heap with _ | ⟨a, rest⟩
    · have hstep : pathfindStep natCostModel view nb cf
          (fun _ _ => natCostModel.dflt) (some d) s = Sum.inl s := by
        rw [pathfindStep, hpop]
      have hloop : pathfindLoop natCostModel view nb cf
          (fun _ _ => natCostModel.dflt) (some d) (fuel + 1) s = s := by
        rw [pathfindLoop, hstep]
      rw [hloop]
      refine ⟨hinv.flags_false, ?_⟩
      intro c hc
      rw [hinv.result_eq] at hc
      exact absurd hc (by simp)
    · rcases himp : improves natCostModel s a with _ | _
      · -- non-improving entry: discarded
        have hloop : pathfindLoop natCostModel view nb cf
            (fun _ _ => natCostModel.dflt) (some d) (fuel + 1) s =
            pathfindLoop natCostModel view nb cf
              (fun _ _ => natCostModel.dflt) (some d) fuel
              ⟨rest, s.result, s.tiles⟩ := by
          rw [pathfindLoop, pathfindStep_discard natCostModel view nb cf
            (fun _ _ => natCostModel.dflt) (some d) s a rest hpop himp]
        rw [hloop]
        exact ih _ finOrder (dijk_discard view nb cf start finOrder s a rest hinv hpop)
      · by_cases hdest : (some d : Option (Nat × Nat)) = some a.position
        · -- destination reached: the loop ends with a found result
          obtain ⟨hnotin, hcostnone, hinv'⟩ :=
            dijk_finalize view nb cf start d finOrder s a rest hinv hpop himp
          have hloop : pathfindLoop natCostModel view nb cf
              (fun _ _ => natCostModel.dflt) (some d) (fuel + 1) s =
              ⟨rest, PathFindDataResult.ShortestPathFound a.actual_cost,
                fun p => if p = a.position then
                  ⟨some a.origin, some a.actual_cost,
                    (s.tiles a.position).in_shortest_path⟩
                else s.tiles p⟩ := by
            rw [pathfindLoop, pathfindStep_found natCostModel view nb cf
              (fun _ _ => natCostModel.dflt) (some d) s a rest hpop himp hdest]
          rw [hloop]
          have hd : d = a.position := by injection hdest
          constructor
          · intro p
            exact hinv'.flags_false p
          · intro c hc
            dsimp only at hc
            have hc2 : a.actual_cost = c := by injection hc
            refine ⟨finOrder ++ [a.position], hinv'.chain, ?_, ?_⟩
            · rw [hd]
              exact List.mem_append_right _ (List.mem_singleton.mpr rfl)
            · show (updTiles s a d).cost = some c
              rw [hd, updTiles, if_pos rfl]
              rw [hc2]
        · -- expansion step: recurse on the extended invariant
          obtain ⟨hnotin, hcostnone, hinv'⟩ :=
            dijk_finalize view nb cf start d finOrder s a rest hinv hpop himp
          have hloop : pathfindLoop natCostModel view nb cf
              (fun _ _ => natCostModel.dflt) (some d) (fuel + 1) s =
              pathfindLoop natCostModel view nb cf
                (fun _ _ => natCostModel.dflt) (some d) fuel
                ⟨(expandEntries natCostModel view nb cf
                    (fun _ _ => natCostModel.dflt) (some d)
                    (fun p => if p = a.position then
                      ⟨some a.origin, some a.actual_cost,
                        (s.tiles a.position).in_shortest_path⟩
                    else s.tiles p) a.position a.actual_cost).foldl
                    (fun hp e => e :: hp) rest,
                  s.result,
                  fun p => if p = a.position then
                    ⟨some a.origin, some a.actual_cost,
                      (s.tiles a.position).in_shortest_path⟩
                  else s.tiles p⟩ := by
            rw [pathfindLoop, pathfindStep_expand natCostModel view nb cf
              (fun _ _ => natCostModel.dflt) (some d) s a rest hpop himp hdest]
          rw [hloop]
          exact ih _ (finOrder ++ [a.position]) hinv'

/-- A predecessor chain recorded in a tile table: the list holds the cells
from an endpoint back to the start (endpoint first), every non-start cell's
recorded origin is the next list element, each step is a neighbour
transition whose normalized edge cost is recorded exactly, and the recorded
cost of the endpoint is the sum of the edge costs along the chain. -/
inductive ValidChain (view : BidiView T) (nb : BidiNeighbours)
    (cf : T → (Nat × Nat) → T → (Nat × Nat) → Option Nat) (start : Nat × Nat)
    (tiles : (Nat × Nat) → PathFindDataTile Nat) :
    (Nat × Nat) → Nat → List (Nat × Nat) → Prop
  | base :
      (tiles start).origin = some start →
      (tiles start).cost = some 0 →
      ValidChain view nb cf start tiles start 0 [start]
  | step : ∀ (p q : Nat × Nat) (cq e : Nat) (l : List (Nat × Nat)),
      ValidChain view nb cf start tiles q cq l →
      p ≠ start →
      p ∉ l →
      (tiles p).origin = some q →
      p ∈ nb.generate_points_on q view.width view.height →
      edgeCostN view cf q p = some e →
      (tiles p).cost = some (cq + e) →
      ValidChain view nb cf start tiles p (cq + e) (p :: l)

theorem validChain_congr {view : BidiView T} {nb : BidiNeighbours}
    {cf : T → (Nat × Nat) → T → (Nat × Nat) → Option Nat} {start : Nat × Nat}
    {tiles tiles2 : (Nat × Nat) → PathFindDataTile Nat}
    (hagree : ∀ r, (tiles2 r).origin = (tiles r).origin ∧
      (tiles2 r).cost = (tiles r).cost) :
    ∀ {p c l}, ValidChain view nb cf start tiles p c l →
      ValidChain view nb cf start tiles2 p c l := by
  intro p c l h
  induction h with
  | base h1 h2 =>
    exact ValidChain.base ((hagree start).1.trans h1) ((hagree start).2.trans h2)
  | step p q cq e l hvc hne hnotin h1 h2 h3 h4 ih =>
    exact ValidChain.step p q cq e l ih hne hnotin ((hagree p).1.trans h1) h2 h3
      ((hagree p).2.trans h4)

theorem validChain_ne_nil {view : BidiView T} {nb : BidiNeighbours}
    {cf : T → (Nat × Nat) → T → (Nat × Nat) → Option Nat} {start : Nat × Nat}
    {tiles : (Nat × Nat) → PathFindDataTile Nat} {p c l}
    (h : ValidChain view nb cf start tiles p c l) : l ≠ [] := by
  cases h <;> simp

theorem validChain_head {view : BidiView T} {nb : BidiNeighbours}
    {cf : T → (Nat × Nat) → T → (Nat × Nat) → Option Nat} {start : Nat × Nat}
    {tiles : (Nat × Nat) → PathFindDataTile Nat} {p c l}
    (h : ValidChain view nb cf start tiles p c l) : l.head? = some p := by
  cases h <;> rfl

theorem validChain_last {view : BidiView T} {nb : BidiNeighbours}
    {cf : T → (Nat × Nat) → T → (Nat × Nat) → Option Nat} {start : Nat × Nat}
    {tiles : (Nat × Nat) → PathFindDataTile Nat} {p c l}
    (h : ValidChain view nb cf start tiles p c l) : l.getLast? = some start := by
  induction h with
  | base _ _ => rfl
  | step p q cq e l hvc _ _ _ _ _ _ ih =>
    cases l with
    | nil => exact absurd rfl (validChain_ne_nil hvc)
    | cons x xs =>
      rw [List.getLast?_cons_cons]
      exact ih

theorem validChain_nodup {view : BidiView T} {nb : BidiNeighbours}
    {cf : T → (Nat × Nat) → T → (Nat × Nat) → Option Nat} {start : Nat × Nat}
    {tiles : (Nat × Nat) → PathFindDataTile Nat} {p c l}
    (h : ValidChain view nb cf start tiles p c l) : l.Nodup := by
  induction h with
  | base _ _ => simp
  | step p q cq e l hvc _ hnotin _ _ _ _ ih =>
    exact List.nodup_cons.mpr ⟨hnotin, ih⟩

theorem validChain_cost {view : BidiView T} {nb : BidiNeighbours}
    {cf : T → (Nat × Nat) → T → (Nat × Nat) → Option Nat} {start : Nat × Nat}
    {tiles : (Nat × Nat) → PathFindDataTile Nat} {p c l}
    (h : ValidChain view nb cf start tiles p c l) : (tiles p).cost = some c := by
  cases h with
  | base h1 h2 => exact h2
  | step p q cq e l hvc hne hnotin h1 h2 h3 h4 => exact h4

/-- The sum of the recorded edge costs along a chain list (endpoint first),
none when some consecutive pair has no normalized edge cost. -/
def chainCostSum (view : BidiView T)
    (cf : T → (Nat × Nat) → T → (Nat × Nat) → Option Nat) :
    List (Nat × Nat) → Option Nat
  | [] => some 0
  | [_] => some 0
  | p :: q :: rest =>
    match chainCostSum view cf (q :: rest), edgeCostN view cf q p with
    | some s, some e => some (s + e)
    | _, _ => none

/-- Every consecutive pair of a chain list (endpoint first) is a neighbour
transition under the chosen policy. -/
def chainSteps (view : BidiView T) (nb : BidiNeighbours) :
    List (Nat × Nat) → Prop
  | [] => True
  | [_] => True
  | p :: q :: rest =>
    p ∈ nb.generate_points_on q view.width view.height ∧
      chainSteps view nb (q :: rest)

/-- Every cell of a chain list except the last records the next cell as its
origin. -/
def chainOrigins (tiles : (Nat × Nat) → PathFindDataTile Nat) :
    List (Nat × Nat) → Prop
  | [] => True
  | [_] => True
  | p :: q :: rest => (tiles p).origin = some q ∧ chainOrigins tiles (q :: rest)

theorem validChain_sum {view : BidiView T} {nb : BidiNeighbours}
    {cf : T → (Nat × Nat) → T → (Nat × Nat) → Option Nat} {start : Nat × Nat}
    {tiles : (Nat × Nat) → PathFindDataTile Nat} {p c l}
    (h : ValidChain view nb cf start tiles p c l) :
    chainCostSum view cf l = some c := by
  induction h with
  | base _ _ => rfl
  | step p q cq e l hvc hne hnotin h1 h2 h3 h4 ih =>
    have hh := validChain_head hvc
    cases l with
    | nil => exact absurd rfl (validChain_ne_nil hvc)
    | cons x xs =>
      simp only [List.head?_cons, Option.some.injEq] at hh
      subst hh
      rw [show chainCostSum view cf (p :: x :: xs) =
        (match chainCostSum view cf (x :: xs), edgeCostN view cf x p with
         | some s, some e => some (s + e)
         | _, _ => none) from rfl]
      rw [ih, h3]

theorem validChain_steps {view : BidiView T} {nb : BidiNeighbours}
    {cf : T → (Nat × Nat) → T → (Nat × Nat) → Option Nat} {start : Nat × Nat}
    {tiles : (Nat × Nat) → PathFindDataTile Nat} {p c l}
    (h : ValidChain view nb cf start tiles p c l) : chainSteps view nb l := by
  induction h with
  | base _ _ => trivial
  | step p q cq e l hvc hne hnotin h1 h2 h3 h4 ih =>
    have hh := validChain_head hvc
    cases l with
    | nil => exact absurd rfl (validChain_ne_nil hvc)
    | cons x xs =>
      simp only [List.head?_cons, Option.some.injEq] at hh
      subst hh
      exact ⟨h2, ih⟩

theorem validChain_origins {view : BidiView T} {nb : BidiNeighbours}
    {cf : T → (Nat × Nat) → T → (Nat × Nat) → Option Nat} {start : Nat × Nat}
    {tiles : (Nat × Nat) → PathFindDataTile Nat} {p c l}
    (h : ValidChain view nb cf start tiles p c l) : chainOrigins tiles l := by
  induction h with
  | base _ _ => trivial
  | step p q cq e l hvc hne hnotin h1 h2 h3 h4 ih =>
    have hh := validChain_head hvc
    cases l with
    | nil => exact absurd rfl (validChain_ne_nil hvc)
    | cons x xs =>
      simp only [List.head?_cons, Option.some.injEq] at hh
      subst hh
      exact ⟨h1, ih⟩

theorem chain_extract {view : BidiView T} {nb : BidiNeighbours}
    {cf : T → (Nat × Nat) → T → (Nat × Nat) → Option Nat} {start : Nat × Nat}
    {fo : List (Nat × Nat)} {tiles : (Nat × Nat) → PathFindDataTile Nat}
    (hct : ChainTable view nb cf start fo tiles) :
    ∀ (n : Nat), ∀ p ∈ fo, fo.indexOf p ≤ n →
      ∃ c l, ValidChain view nb cf start tiles p c l ∧
        (tiles p).cost = some c ∧
        ∀ x ∈ l, x ∈ fo ∧ fo.indexOf x ≤ fo.indexOf p := by
  obtain ⟨hnodup, hinB, hhead, hchain⟩ := hct
  intro n
  induction n with
  | zero =>
    intro p hp hle
    by_cases hps : p = start
    · subst hps
      obtain ⟨_, ho, hc⟩ := hhead (List.ne_nil_of_mem hp)
      refine ⟨0, [p], ValidChain.base ho hc, hc, ?_⟩
      intro x hx
      simp only [List.mem_singleton] at hx
      subst hx
      exact ⟨hp, Nat.le_refl _⟩
    · obtain ⟨q, cq, e, h1, h2, h3, h4, h5, h6, h7⟩ := hchain p hp hps
      omega
  | succ n ih =>
    intro p hp hle
    by_cases hps : p = start
    · subst hps
      obtain ⟨_, ho, hc⟩ := hhead (List.ne_nil_of_mem hp)
      refine ⟨0, [p], ValidChain.base ho hc, hc, ?_⟩
      intro x hx
      simp only [List.mem_singleton] at hx
      subst hx
      exact ⟨hp, Nat.le_refl _⟩
    · obtain ⟨q, cq, e, h1, h2, h3, h4, h5, h6, h7⟩ := hchain p hp hps
      obtain ⟨cq', l', hvc', hcost', hbound'⟩ := ih q h2 (by omega)
      have hcq : cq' = cq := by
        rw [hcost'] at h6
        injection h6
      subst hcq
      have hnotin : p ∉ l' := by
        intro hmem
        have := (hbound' p hmem).2
        omega
      refine ⟨cq' + e, p :: l',
        ValidChain.step p q cq' e l' hvc' hps hnotin h1 h4 h5 h7, h7, ?_⟩
      intro x hx
      rcases List.mem_cons.mp hx with hx | hx
      · subst hx
        exact ⟨hp, Nat.le_refl _⟩
      · obtain ⟨hxf, hxle⟩ := hbound' x hx
        exact ⟨hxf, by omega⟩

theorem nodup_inB_length_le (w h : Nat) (l : List (Nat × Nat)) (hnd : l.Nodup)
    (hB : ∀ p ∈ l, p.1 < w ∧ p.2 < h) : l.length ≤ w * h := by
  have h1 : l.toFinset.card = l.length := List.toFinset_card_of_nodup hnd
  have h2 : l.toFinset ⊆ Finset.range w ×ˢ Finset.range h := by
    intro p hp
    rw [List.mem_toFinset] at hp
    obtain ⟨h3, h4⟩ := hB p hp
    exact Finset.mem_product.mpr ⟨Finset.mem_range.mpr h3, Finset.mem_range.mpr h4⟩
  have h3 := Finset.card_le_card h2
  rw [h1, Finset.card_product, Finset.card_range, Finset.card_range] at h3
  exact h3

theorem reconstructLoop_marks {view : BidiView T} {nb : BidiNeighbours}
    {cf : T → (Nat × Nat) → T → (Nat × Nat) → Option Nat} {start : Nat × Nat} :
    ∀ (fuel : Nat) (p : Nat × Nat) (c : Nat) (l : List (Nat × Nat))
      (tiles : (Nat × Nat) → PathFindDataTile Nat),
      ValidChain view nb cf start tiles p c l →
      l.length ≤ fuel →
      reconstructLoop start fuel (some p) tiles =
        fun q => if q ∈ l then ⟨(tiles q).origin, (tiles q).cost, true⟩
        else tiles q := by
  intro fuel
  induction fuel with
  | zero =>
    intro p c l tiles hvc hlen
    cases l with
    | nil => exact absurd rfl (validChain_ne_nil hvc)
    | cons x xs => simp at hlen
  | succ fuel ih =>
    intro p c l tiles hvc hlen
    cases hvc with
    | base h1 h2 =>
      rw [reconstructLoop]
      dsimp only
      rw [if_pos rfl]
      funext q
      by_cases hq : q = start
      · subst hq
        rw [if_pos rfl, if_pos (List.mem_singleton.mpr rfl)]
      · rw [if_neg hq, if_neg (by simp [hq])]
    | step p q cq e l' hvc' hne hnotin h1 h2 h3 h4 =>
      rw [reconstructLoop]
      dsimp only
      rw [if_neg hne]
      have horig : ((fun r => if r = p then
          ({ tiles p with in_shortest_path := true } : PathFindDataTile Nat)
          else tiles r) p).origin = some q := by
        simp [h1]
      rw [horig]
      have hagree : ∀ r, (((fun r => if r = p then
          ({ tiles p with in_shortest_path := true } : PathFindDataTile Nat)
          else tiles r) r).origin = (tiles r).origin) ∧
          (((fun r => if r = p then
          ({ tiles p with in_shortest_path := true } : PathFindDataTile Nat)
          else tiles r) r).cost = (tiles r).cost) := by
        intro r
        by_cases hr : r = p
        · subst hr
          simp
        · simp [hr]
      have hvc1 := validChain_congr hagree hvc'
      have hlen' : l'.length ≤ fuel := by
        simp only [List.length_cons] at hlen
        omega
      rw [ih q cq l' _ hvc1 hlen']
      funext r
      dsimp only
      by_cases hrl : r ∈ l'
      · have hrp : r ≠ p := fun he => hnotin (he ▸ hrl)
        rw [if_pos hrl, if_pos (List.mem_cons_of_mem _ hrl), if_neg hrp]
      · by_cases hrp : r = p
        · subst hrp
          rw [if_neg hrl, if_pos (List.mem_cons_self _ _), if_pos rfl]
        · rw [if_neg hrl, if_neg hrp,
            if_neg (show r ∉ p :: l' by simp [hrp, hrl])]

theorem pathfind_to_dest_post (view : BidiView T) (start dest : Nat × Nat)
    (nb : BidiNeighbours)
    (cf : T → (Nat × Nat) → T → (Nat × Nat) → Option Nat)
    (hs : start.1 < view.width ∧ start.2 < view.height)
    (hd : ¬ destOutOfBounds view (some dest)) :
    ∃ sfin, DijkPost view nb cf start dest sfin ∧
      pathfind_to_dest view start dest nb cf = Except.ok ⟨sfin.result,
        match sfin.result with
        | PathFindDataResult.ShortestPathFound _ =>
          reconstructLoop start (view.width * view.height + 1) (some dest)
            sfin.tiles
        | _ => sfin.tiles⟩ := by
  have hinv0 : DijkInv view nb cf start []
      ⟨[⟨natCostModel.dflt, natCostModel.dflt, start, start⟩],
        PathFindDataResult.PathNotFound, fun _ => ⟨none, none, false⟩⟩ := by
    refine ⟨rfl, ⟨List.nodup_nil, ?_, ?_, ?_⟩, ?_, ?_, ?_, ?_, ?_, ?_, ?_⟩
    · intro p hp
      simp at hp
    · intro h
      exact absurd rfl h
    · intro p hp
      simp at hp
    · intro p _
      rfl
    · intro p
      rfl
    · intro p hp
      simp at hp
    · intro x hx
      simp only [List.mem_singleton] at hx
      subst hx
      rfl
    · intro x hx
      simp only [List.mem_singleton] at hx
      subst hx
      exact hs
    · intro x hx p hp cp hcp
      simp at hp
    · intro x hx
      simp only [List.mem_singleton] at hx
      subst hx
      exact Or.inl ⟨rfl, rfl, rfl⟩
  refine ⟨pathfindLoop natCostModel view nb cf (fun _ _ => natCostModel.dflt)
      (some dest) (pathfindFuel view cf)
      ⟨[⟨natCostModel.dflt, natCostModel.dflt, start, start⟩],
        PathFindDataResult.PathNotFound, fun _ => ⟨none, none, false⟩⟩,
    dijkLoop_chain view nb cf start dest (pathfindFuel view cf) _ [] hinv0, ?_⟩
  rw [pathfind_to_dest, pathfind_core, if_neg (not_not_intro hs), if_neg hd]

/-- C5 (amended): for the zero-heuristic single-destination search, a
ShortestPathFound(c) outcome comes with a predecessor chain from the
destination back to the start — each cell's recorded origin is the next
chain cell, each step a neighbour transition under the chosen policy, the
recorded edge costs summing exactly to c — and in_shortest_path is set on
exactly the chain's cells; any other outcome leaves every in_shortest_path
flag clear. -/
theorem dijkstra_reconstruction_spec (view : BidiView T) (start dest : Nat × Nat)
    (nb : BidiNeighbours)
    (cf : T → (Nat × Nat) → T → (Nat × Nat) → Option Nat)
    (data : PathFindData Nat)
    (hrun : pathfind_to_dest view start dest nb cf = Except.ok data) :
    (∀ c, data.result = PathFindDataResult.ShortestPathFound c →
      ∃ l, ValidChain view nb cf start data.tiles dest c l ∧
        l.head? = some dest ∧ l.getLast? = some start ∧ l.Nodup ∧
        chainOrigins data.tiles l ∧ chainSteps view nb l ∧
        chainCostSum view cf l = some c ∧
        ∀ p, ((data.tiles p).in_shortest_path = true ↔ p ∈ l)) ∧
    ((∀ c, data.result ≠ PathFindDataResult.ShortestPathFound c) →
      ∀ p, (data.tiles p).in_shortest_path = false) := by
  by_cases hs : start.1 < view.width ∧ start.2 < view.height
  case neg =>
    rw [pathfind_to_dest, pathfind_core, if_pos hs] at hrun
    exact absurd hrun (by simp)
  case pos =>
  by_cases hd : destOutOfBounds view (some dest)
  case pos =>
    rw [pathfind_to_dest, pathfind_core, if_neg (not_not_intro hs),
      if_pos hd] at hrun
    exact absurd hrun (by simp)
  case neg =>
  obtain ⟨sfin, hpost, heq⟩ := pathfind_to_dest_post view start dest nb cf hs hd
  obtain ⟨hflags, hfound⟩ := hpost
  rw [heq] at hrun
  injection hrun with hdata
  rw [← hdata]
  dsimp only
  rcases hres : sfin.result with _ | c0 | _
  · constructor
    · intro c hc
      exact absurd hc (by simp)
    · intro _ p
      dsimp only
      exact hflags p
  · constructor
    · intro c hc
      have hc2 : c0 = c := by injection hc
      subst hc2
      obtain ⟨fo, hct, hdfo, hdcost⟩ := hfound c0 hres
      obtain ⟨c', l, hvc, hcost, hbound⟩ :=
        chain_extract hct (fo.indexOf dest) dest hdfo (Nat.le_refl _)
      have hcc : c' = c0 := by
        rw [hdcost] at hcost
        injection hcost with hcc
        exact hcc.symm
      subst hcc
      obtain ⟨hfonodup, hfoinB, _, _⟩ := hct
      have hlnodup := validChain_nodup hvc
      have hlen : l.length ≤ view.width * view.height :=
        nodup_inB_length_le _ _ l hlnodup (fun p hp => hfoinB p (hbound p hp).1)
      have hmarks := reconstructLoop_marks (view.width * view.height + 1)
        dest c' l _ hvc (by omega)
      dsimp only
      rw [hmarks]
      have hagree : ∀ r, (((fun q => if q ∈ l then
          (⟨(sfin.tiles q).origin, (sfin.tiles q).cost, true⟩ :
            PathFindDataTile Nat) else sfin.tiles q) r).origin =
            (sfin.tiles r).origin) ∧
          (((fun q => if q ∈ l then
          (⟨(sfin.tiles q).origin, (sfin.tiles q).cost, true⟩ :
            PathFindDataTile Nat) else sfin.tiles q) r).cost =
            (sfin.tiles r).cost) := by
        intro r
        by_cases hr : r ∈ l <;> simp [hr]
      refine ⟨l, validChain_congr hagree hvc, validChain_head hvc,
        validChain_last hvc, hlnodup,
        validChain_origins (validChain_congr hagree hvc),
        validChain_steps hvc, validChain_sum hvc, ?_⟩
      intro p
      dsimp only
      by_cases hp : p ∈ l
      · simp [hp]
      · simp [hp, hflags p]
    · intro hne
      exact absurd rfl (hne c0)
  · constructor
    · intro c hc
      exact absurd hc (by simp)
    · intro _ p
      dsimp only
      exact hflags p

/-- Witness for C5 (amended): the 2 × 1 grid with the unit edge
(0,0) → (1,0); the found cost is certified by a concrete chain. -/
theorem dijkstra_reconstruction_spec_witness :
    ∃ data, pathfind_to_dest (⟨2, 1, fun _ => 0⟩ : BidiView Nat) (0, 0) (1, 0)
        BidiNeighbours.Adjacent (fun _ _ _ _ => some 1) = Except.ok data ∧
      ((∀ c, data.result = PathFindDataResult.ShortestPathFound c →
        ∃ l, ValidChain (⟨2, 1, fun _ => 0⟩ : BidiView Nat)
            BidiNeighbours.Adjacent (fun _ _ _ _ => some 1) (0, 0)
            data.tiles (1, 0) c l ∧
          l.head? = some (1, 0) ∧ l.getLast? = some (0, 0) ∧ l.Nodup ∧
          chainOrigins data.tiles l ∧
          chainSteps (⟨2, 1, fun _ => 0⟩ : BidiView Nat)
            BidiNeighbours.Adjacent l ∧
          chainCostSum (⟨2, 1, fun _ => 0⟩ : BidiView Nat)
            (fun _ _ _ _ => some 1) l = some c ∧
          ∀ p, ((data.tiles p).in_shortest_path = true ↔ p ∈ l)) ∧
      ((∀ c, data.result ≠ PathFindDataResult.ShortestPathFound c) →
        ∀ p, (data.tiles p).in_shortest_path = false)) :=
  ⟨_, rfl, dijkstra_reconstruction_spec (⟨2, 1, fun _ => 0⟩ : BidiView Nat)
    (0, 0) (1, 0) BidiNeighbours.Adjacent (fun _ _ _ _ => some 1) _ rfl⟩

/-- Walks through the grid as the search sees them: from the origin cell,
repeatedly move to a neighbour under the chosen policy whose normalized edge
cost exists, accumulating the normalized costs. -/
inductive Reaches (view : BidiView T) (nb : BidiNeighbours)
    (cf : T → (Nat × Nat) → T → (Nat × Nat) → Option Nat) (v0 : Nat × Nat) :
    (Nat × Nat) → Nat → Prop
  | refl : Reaches view nb cf v0 v0 0
  | step : ∀ {q c p e}, Reaches view nb cf v0 q c →
      p ∈ nb.generate_points_on q view.width view.height →
      edgeCostN view cf q p = some e →
      Reaches view nb cf v0 p (c + e)

theorem nat_exists_least {P : Nat → Prop} (h : ∃ n, P n) :
    ∃ n, P n ∧ ∀ m, P m → n ≤ m := by
  classical
  obtain ⟨n, hn⟩ := h
  induction n using Nat.strong_induction_on with
  | _ n ih =>
    by_cases hbelow : ∃ m, m < n ∧ P m
    · obtain ⟨m, hm, hpm⟩ := hbelow
      exact ih m hm hpm
    · push_neg at hbelow
      exact ⟨n, hn, fun m hpm => Nat.le_of_not_lt (fun hlt => hbelow m hlt hpm)⟩

/-- Neighbour generation never returns the centre cell itself. -/
theorem mem_generate_ne {nb : BidiNeighbours} {w h : Nat} {p q : Nat × Nat}
    (hp : p.1 < w ∧ p.2 < h) (hq : q ∈ nb.generate_points_on p w h) :
    q ≠ p := by
  obtain ⟨x, y⟩ := p
  cases nb with
  | Adjacent =>
    have hc := (mem_generate_adjacent w h x y hp.1 hp.2 q).mp hq
    have hd := hc.2.2
    intro he
    rw [he, manhattanDist, Nat.dist_self, Nat.dist_self] at hd
    exact absurd hd (by simp)
  | Bordering =>
    have hc := (mem_generate_bordering w h x y hp.1 hp.2 q).mp hq
    exact hc.2.2.1

/-- Any normalized edge cost between in-bounds cells is bounded by
maxEdgeCost. -/
theorem edgeCostN_le_max (view : BidiView T)
    (cf : T → (Nat × Nat) → T → (Nat × Nat) → Option Nat)
    (q p : Nat × Nat) (e : Nat)
    (hq : q.1 < view.width ∧ q.2 < view.height)
    (hp : p.1 < view.width ∧ p.2 < view.height)
    (he : edgeCostN view cf q p = some e) :
    e ≤ maxEdgeCost view cf := by
  have hraw : cf (view.get q) q (view.get p) p = some e := by
    rw [edgeCostN] at he
    rcases hcf : cf (view.get q) q (view.get p) p with _ | c0
    · rw [hcf] at he
      exact absurd he (by simp)
    · rw [hcf] at he
      simp only [natCostModel] at he
      injection he with he
      rw [he]
  have hmemq : q ∈ (List.range view.width).product (List.range view.height) := by
    obtain ⟨a, b⟩ := q
    exact List.pair_mem_product.mpr
      ⟨List.mem_range.mpr hq.1, List.mem_range.mpr hq.2⟩
  have hmemp : p ∈ (List.range view.width).product (List.range view.height) := by
    obtain ⟨a, b⟩ := p
    exact List.pair_mem_product.mpr
      ⟨List.mem_range.mpr hp.1, List.mem_range.mpr hp.2⟩
  have hmem : (q, p) ∈ ((List.range view.width).product (List.range view.height)).product
      ((List.range view.width).product (List.range view.height)) :=
    List.pair_mem_product.mpr ⟨hmemq, hmemp⟩
  rw [maxEdgeCost]
  -- foldl over a list containing (q, p) dominates the value at (q, p)
  have hgen : ∀ (l : List ((Nat × Nat) × (Nat × Nat))) (init : Nat),
      (q, p) ∈ l ∨ e ≤ init →
      e ≤ l.foldl (fun m pq =>
        match cf (view.get pq.1) pq.1 (view.get pq.2) pq.2 with
        | none => m
        | some c => max m c) init := by
    intro l
    induction l with
    | nil =>
      intro init hm
      rcases hm with hm | hm
      · simp at hm
      · exact hm
    | cons x xs ih =>
      intro init hm
      simp only [List.foldl_cons]
      rcases hm with hm | hm
      · rcases List.mem_cons.mp hm with hm | hm
        · subst hm
          refine ih _ (Or.inr ?_)
          rw [hraw]
          exact Nat.le_max_right _ _
        · exact ih _ (Or.inl hm)
      · refine ih _ (Or.inr ?_)
        rcases hcf : cf (view.get x.1) x.1 (view.get x.2) x.2 with _ | c0
        · exact hm
        · exact Nat.le_trans hm (Nat.le_max_left _ _)
  exact hgen _ 0 (Or.inl hmem)

/-- One link of the fixed reference path: the second cell is a neighbour of
the first, with a recorded normalized edge cost accounting for the
difference of the accumulated optimal costs. -/
def RelayStep (view : BidiView T) (nb : BidiNeighbours)
    (cf : T → (Nat × Nat) → T → (Nat × Nat) → Option Nat)
    (a b : (Nat × Nat) × Nat) : Prop :=
  b.1 ∈ nb.generate_points_on a.1 view.width view.height ∧
  ∃ e, edgeCostN view cf a.1 b.1 = some e ∧ b.2 = a.2 + e

/-- The fixed reference path used by the search correctness argument: a
walk from the start to the destination, annotated with accumulated costs,
every annotation being the least walk cost of its cell and the rest of the
path completing it to a walk of the least destination cost. -/
def RelayPath (view : BidiView T) (nb : BidiNeighbours)
    (cf : T → (Nat × Nat) → T → (Nat × Nat) → Option Nat)
    (start dest : Nat × Nat) (W : Nat)
    (π : List ((Nat × Nat) × Nat)) : Prop :=
  π.head? = some (start, 0) ∧
  π.getLast? = some (dest, W) ∧
  List.Chain' (RelayStep view nb cf) π ∧
  ∀ pw ∈ π, Reaches view nb cf start pw.1 pw.2 ∧
    (∀ c, Reaches view nb cf start pw.1 c → pw.2 ≤ c) ∧
    Reaches view nb cf pw.1 dest (W - pw.2) ∧ pw.2 ≤ W

/-- Existence of the reference path: any least-cost walk to the destination
refines to a path whose every accumulated cost is itself least. -/
theorem relayPath_exists (view : BidiView T) (nb : BidiNeighbours)
    (cf : T → (Nat × Nat) → T → (Nat × Nat) → Option Nat)
    (start dest : Nat × Nat) (W : Nat)
    (hr : Reaches view nb cf start dest W)
    (hmin : ∀ c, Reaches view nb cf start dest c → W ≤ c) :
    ∃ π, RelayPath view nb cf start dest W π := by
  -- generalized: build the annotated prefix path for any minimal walk
  suffices hgen : ∀ (v : Nat × Nat) (c : Nat),
      Reaches view nb cf start v c →
      (∀ c', Reaches view nb cf start v c' → c ≤ c') →
      ∃ π, π.head? = some (start, 0) ∧ π.getLast? = some (v, c) ∧
        List.Chain' (RelayStep view nb cf) π ∧
        ∀ pw ∈ π, Reaches view nb cf start pw.1 pw.2 ∧
          (∀ c', Reaches view nb cf start pw.1 c' → pw.2 ≤ c') ∧
          Reaches view nb cf pw.1 v (c - pw.2) ∧ pw.2 ≤ c by
    obtain ⟨π, h1, h2, h3, h4⟩ := hgen dest W hr hmin
    exact ⟨π, h1, h2, h3, h4⟩
  intro v c hr
  induction hr with
  | refl =>
    intro _
    refine ⟨[(start, 0)], rfl, rfl, List.chain'_singleton _, ?_⟩
    intro pw hpw
    simp only [List.mem_singleton] at hpw
    subst hpw
    exact ⟨Reaches.refl, fun c' _ => Nat.zero_le c',
      by simpa using Reaches.refl, Nat.zero_le _⟩
  | step hq hgen hedge ih =>
    rename_i q cq p e
    intro hmin
    have hqmin : ∀ c', Reaches view nb cf start q c' → cq ≤ c' := by
      intro c' hc'
      have h1 : Reaches view nb cf start p (c' + e) :=
        Reaches.step hc' hgen hedge
      have h2 := hmin _ h1
      omega
    obtain ⟨π, h1, h2, h3, h4⟩ := ih hqmin
    have hπne : π ≠ [] := by
      intro hnil
      rw [hnil] at h1
      exact absurd h1 (by simp)
    refine ⟨π ++ [(p, cq + e)], ?_, ?_, ?_, ?_⟩
    · rw [head?_append_of_ne_nil hπne]
      exact h1
    · simp
    · -- chain: append one step at the end
      rw [List.chain'_append]
      refine ⟨h3, List.chain'_singleton _, ?_⟩
      intro x hx y hy
      rw [Option.mem_def] at hx hy
      rw [List.head?_cons] at hy
      injection hy with hy
      subst hy
      rw [h2] at hx
      injection hx with hx
      subst hx
      exact ⟨hgen, e, hedge, rfl⟩
    · intro pw hpw
      rcases List.mem_append.mp hpw with hpw | hpw
      · obtain ⟨hA, hB, hC, hD⟩ := h4 pw hpw
        refine ⟨hA, hB, ?_, by omega⟩
        have : cq + e - pw.2 = (cq - pw.2) + e := by omega
        rw [this]
        exact Reaches.step hC hgen hedge
      · simp only [List.mem_singleton] at hpw
        subst hpw
        refine ⟨Reaches.step hq hgen hedge, ?_, by simpa using Reaches.refl,
          Nat.le_refl _⟩
        intro c' hc'
        exact hmin c' hc'

theorem improves_true_cases {cm : CostModel C} {s : PFState C} {a : Adjacency C}
    (h : improves cm s a = true) :
    (s.tiles a.position).cost = none ∨
    ∃ r, (s.tiles a.position).cost = some r ∧ cm.blt a.actual_cost r = true := by
  rw [improves] at h
  rcases hc : (s.tiles a.position).cost with _ | r
  · exact Or.inl rfl
  · rw [hc] at h
    dsimp only at h
    exact Or.inr ⟨r, rfl, h⟩

theorem improves_false_cases {cm : CostModel C} {s : PFState C} {a : Adjacency C}
    (h : improves cm s a = false) :
    ∃ r, (s.tiles a.position).cost = some r ∧ cm.blt a.actual_cost r = false := by
  rw [improves] at h
  rcases hc : (s.tiles a.position).cost with _ | r
  · rw [hc] at h
    dsimp only at h
    exact absurd h (by simp)
  · rw [hc] at h
    dsimp only at h
    exact ⟨r, rfl, h⟩

/-- Membership in the expansion entries at the Nat cost model with a real
destination: the estimated cost is the accumulated cost plus the raw
heuristic value (Nat normalization never fails). -/
theorem mem_expand_nat (view : BidiView T) (nb : BidiNeighbours)
    (cf : T → (Nat × Nat) → T → (Nat × Nat) → Option Nat)
    (hr : (Nat × Nat) → (Nat × Nat) → Nat)
    (d : Nat × Nat) (tiles : (Nat × Nat) → PathFindDataTile Nat)
    (position : Nat × Nat) (cur : Nat) (e : Adjacency Nat) :
    e ∈ expandEntries natCostModel view nb cf hr (some d) tiles position cur ↔
      ∃ n ∈ nb.generate_points_on position view.width view.height,
        ∃ c, edgeCostN view cf position n = some c ∧
          (match (tiles n).cost with
           | none => True
           | some old_cost => c < old_cost) ∧
          e = ⟨cur + c + hr n d, cur + c, n, position⟩ := by
  rw [mem_expandEntries_iff]
  constructor
  · rintro ⟨n, hn, c, hc, hcond, he⟩
    refine ⟨n, hn, c, ?_, ?_, ?_⟩
    · rw [edgeCostN]
      rcases hcf : cf (view.get position) position (view.get n) n with _ | c0
      · rw [hcf] at hc
        exact absurd hc (by simp)
      · rw [hcf] at hc
        simpa using hc
    · rcases hold : (tiles n).cost with _ | old
      · trivial
      · rw [hold] at hcond
        exact (natCostModel_blt c old).mp hcond
    · exact he
  · rintro ⟨n, hn, c, hc, hcond, he⟩
    refine ⟨n, hn, c, ?_, ?_, ?_⟩
    · rw [edgeCostN] at hc
      rcases hcf : cf (view.get position) position (view.get n) n with _ | c0
      · rw [hcf] at hc
        exact absurd hc (by simp)
      · rw [hcf] at hc
        simpa using hc
    · rcases hold : (tiles n).cost with _ | old
      · trivial
      · rw [hold] at hcond
        exact (natCostModel_blt c old).mpr hcond
    · exact he

theorem length_generate_le (nb : BidiNeighbours) (pos : Nat × Nat)
    (w h : Nat) : (nb.generate_points_on pos w h).length ≤ 8 := by
  have hif : ∀ (c : Prop) (inst : Decidable c) (x : Nat × Nat),
      (if c then [x] else []).length ≤ 1 := by
    intro c inst x
    split_ifs <;> simp
  cases nb with
  | Adjacent =>
    dsimp only [BidiNeighbours.generate_points_on]
    simp only [List.length_append]
    have h1 := hif (0 < pos.1) inferInstance (pos.1 - 1, pos.2)
    have h2 := hif (pos.2 < h - 1) inferInstance (pos.1, pos.2 + 1)
    have h3 := hif (pos.1 < w - 1) inferInstance (pos.1 + 1, pos.2)
    have h4 := hif (0 < pos.2) inferInstance (pos.1, pos.2 - 1)
    omega
  | Bordering =>
    dsimp only [BidiNeighbours.generate_points_on]
    simp only [List.length_append]
    have h1 := hif (0 < pos.2 ∧ 0 < pos.1) inferInstance (pos.1 - 1, pos.2 - 1)
    have h2 := hif (0 < pos.1) inferInstance (pos.1 - 1, pos.2)
    have h3 := hif (pos.2 < h - 1 ∧ 0 < pos.1) inferInstance (pos.1 - 1, pos.2 + 1)
    have h4 := hif (pos.2 < h - 1) inferInstance (pos.1, pos.2 + 1)
    have h5 := hif (pos.2 < h - 1 ∧ pos.1 < w - 1) inferInstance (pos.1 + 1, pos.2 + 1)
    have h6 := hif (pos.1 < w - 1) inferInstance (pos.1 + 1, pos.2)
    have h7 := hif (0 < pos.2 ∧ pos.1 < w - 1) inferInstance (pos.1 + 1, pos.2 - 1)
    have h8 := hif (0 < pos.2) inferInstance (pos.1, pos.2 - 1)
    omega

theorem length_expand_le (cm : CostModel C) (view : BidiView T)
    (nb : BidiNeighbours)
    (cost_func : T → (Nat × Nat) → T → (Nat × Nat) → Option C)
    (heuristic : (Nat × Nat) → (Nat × Nat) → C) (dest : Option (Nat × Nat))
    (tiles : (Nat × Nat) → PathFindDataTile C)
    (position : Nat × Nat) (cur_cost : C) :
    (expandEntries cm view nb cost_func heuristic dest tiles position
      cur_cost).length ≤ 8 := by
  rw [expandEntries]
  refine Nat.le_trans (List.length_filterMap_le _ _) ?_
  rw [List.length_reverse]
  exact length_generate_le nb position view.width view.height

theorem popMin_length (cm : CostModel C) (l : List (Adjacency C))
    (a : Adjacency C) (rest : List (Adjacency C))
    (h : popMin cm l = some (a, rest)) : l.length = rest.length + 1 := by
  have := (popMin_perm cm l a rest h).length_eq
  simpa using this

theorem mem_rest_of_popMin {cm : CostModel C} {l : List (Adjacency C)}
    {a : Adjacency C} {rest : List (Adjacency C)}
    (h : popMin cm l = some (a, rest)) {e : Adjacency C}
    (he : e ∈ l) (hne : e ≠ a) : e ∈ rest := by
  have := (popMin_perm cm l a rest h).mem_iff.mp he
  rcases List.mem_cons.mp this with h1 | h1
  · exact absurd h1 hne
  · exact h1

/-- Two consecutive elements of a list. -/
def AdjPair (π : List ((Nat × Nat) × Nat)) (a b : (Nat × Nat) × Nat) : Prop :=
  ∃ l1 l2, π = l1 ++ a :: b :: l2

theorem adjPair_mem {π : List ((Nat × Nat) × Nat)} {a b : (Nat × Nat) × Nat}
    (h : AdjPair π a b) : a ∈ π ∧ b ∈ π := by
  obtain ⟨l1, l2, rfl⟩ := h
  constructor
  · exact List.mem_append_right _ (List.mem_cons_self _ _)
  · exact List.mem_append_right _ (List.mem_cons_of_mem _ (List.mem_cons_self _ _))

theorem chain'_adjPair {R : (Nat × Nat) × Nat → (Nat × Nat) × Nat → Prop}
    {π : List ((Nat × Nat) × Nat)} {a b : (Nat × Nat) × Nat}
    (hc : List.Chain' R π) (h : AdjPair π a b) : R a b := by
  obtain ⟨l1, l2, rfl⟩ := h
  induction l1 with
  | nil =>
    exact (List.chain'_cons.mp hc).1
  | cons x xs ih =>
    exact ih (List.Chain'.tail hc)

/-- The invariant components of the single-destination search loop that do
not mention the reference path: the running result is still PathNotFound,
the destination is unrecorded, every recorded cost and frontier entry is
realized by a walk from the start, positions are in bounds, and every
frontier entry's estimate adds the raw heuristic value to its accumulated
cost (the sole exception being the initial start entry). -/
structure ASound (view : BidiView T) (nb : BidiNeighbours)
    (cf : T → (Nat × Nat) → T → (Nat × Nat) → Option Nat)
    (hr : (Nat × Nat) → (Nat × Nat) → Nat) (start dest : Nat × Nat)
    (s : PFState Nat) : Prop where
  result_eq : s.result = PathFindDataResult.PathNotFound
  dest_unrec : (s.tiles dest).cost = none
  flags_false : ∀ p, (s.tiles p).in_shortest_path = false
  sound_tiles : ∀ p c, (s.tiles p).cost = some c → Reaches view nb cf start p c
  tiles_inB : ∀ p c, (s.tiles p).cost = some c →
    p.1 < view.width ∧ p.2 < view.height
  sound_heap : ∀ e ∈ s.heap, Reaches view nb cf start e.position e.actual_cost
  heap_inB : ∀ e ∈ s.heap, e.position.1 < view.width ∧ e.position.2 < view.height
  heap_est : ∀ e ∈ s.heap,
    e.estimated_cost = e.actual_cost + hr e.position dest ∨
    (e.position = start ∧ e.actual_cost = 0 ∧ e.estimated_cost = 0)

theorem asound_discard {view : BidiView T} {nb : BidiNeighbours}
    {cf : T → (Nat × Nat) → T → (Nat × Nat) → Option Nat}
    {hr : (Nat × Nat) → (Nat × Nat) → Nat} {start dest : Nat × Nat}
    {s : PFState Nat} {a : Adjacency Nat} {rest : List (Adjacency Nat)}
    (hs : ASound view nb cf hr start dest s)
    (hpop : popMin natCostModel s.heap = some (a, rest)) :
    ASound view nb cf hr start dest ⟨rest, s.result, s.tiles⟩ := by
  refine ⟨hs.result_eq, hs.dest_unrec, hs.flags_false, hs.sound_tiles,
    hs.tiles_inB, ?_, ?_, ?_⟩
  · intro e he
    exact hs.sound_heap e (popMin_rest_mem natCostModel s.heap a rest hpop e he)
  · intro e he
    exact hs.heap_inB e (popMin_rest_mem natCostModel s.heap a rest hpop e he)
  · intro e he
    exact hs.heap_est e (popMin_rest_mem natCostModel s.heap a rest hpop e he)

theorem asound_expand {view : BidiView T} {nb : BidiNeighbours}
    {cf : T → (Nat × Nat) → T → (Nat × Nat) → Option Nat}
    {hr : (Nat × Nat) → (Nat × Nat) → Nat} {start dest : Nat × Nat}
    {s : PFState Nat} {a : Adjacency Nat} {rest : List (Adjacency Nat)}
    (hs : ASound view nb cf hr start dest s)
    (hpop : popMin natCostModel s.heap = some (a, rest))
    (hnd : a.position ≠ dest) :
    ASound view nb cf hr start dest
      ⟨(expandEntries natCostModel view nb cf hr (some dest) (updTiles s a)
          a.position a.actual_cost).foldl (fun hp e => e :: hp) rest,
        s.result, updTiles s a⟩ := by
  have hmem : a ∈ s.heap := popMin_mem natCostModel s.heap a rest hpop
  have haB := hs.heap_inB a hmem
  have hupd_other : ∀ p, p ≠ a.position → updTiles s a p = s.tiles p := by
    intro p hp
    rw [updTiles, if_neg hp]
  have hupd_self : updTiles s a a.position =
      ⟨some a.origin, some a.actual_cost,
        (s.tiles a.position).in_shortest_path⟩ := by
    rw [updTiles, if_pos rfl]
  refine ⟨hs.result_eq, ?_, ?_, ?_, ?_, ?_, ?_, ?_⟩
  · show (updTiles s a dest).cost = none
    rw [hupd_other dest (fun he => hnd he.symm)]
    exact hs.dest_unrec
  · intro p
    show (updTiles s a p).in_shortest_path = false
    by_cases hp : p = a.position
    · rw [hp, hupd_self]
      exact hs.flags_false a.position
    · rw [hupd_other p hp]
      exact hs.flags_false p
  · intro p c hc
    dsimp only at hc
    by_cases hp : p = a.position
    · subst hp
      rw [hupd_self] at hc
      dsimp only at hc
      injection hc with hc
      rw [← hc]
      exact hs.sound_heap a hmem
    · rw [hupd_other p hp] at hc
      exact hs.sound_tiles p c hc
  · intro p c hc
    dsimp only at hc
    by_cases hp : p = a.position
    · subst hp
      exact haB
    · rw [hupd_other p hp] at hc
      exact hs.tiles_inB p c hc
  · intro e he
    rcases (mem_foldl_cons _ _ _).mp he with he | he
    · rw [mem_expand_nat] at he
      obtain ⟨n, hn, c, hc, _, hee⟩ := he
      rw [hee]
      exact Reaches.step (hs.sound_heap a hmem) hn hc
    · exact hs.sound_heap e (popMin_rest_mem natCostModel s.heap a rest hpop e he)
  · intro e he
    rcases (mem_foldl_cons _ _ _).mp he with he | he
    · rw [mem_expand_nat] at he
      obtain ⟨n, hn, c, hc, _, hee⟩ := he
      rw [hee]
      exact generate_points_inB nb view.width view.height a.position n haB hn
    · exact hs.heap_inB e (popMin_rest_mem natCostModel s.heap a rest hpop e he)
  · intro e he
    rcases (mem_foldl_cons _ _ _).mp he with he | he
    · rw [mem_expand_nat] at he
      obtain ⟨n, hn, c, hc, _, hee⟩ := he
      rw [hee]
      exact Or.inl rfl
    · exact hs.heap_est e (popMin_rest_mem natCostModel s.heap a rest hpop e he)

theorem natCostModel_blt_false (u v : Nat) :
    natCostModel.blt u v = false ↔ v ≤ u := by
  simp [natCostModel]

/-- A reference-path cell recorded at its optimal cost. -/
def Ropt (s : PFState Nat) (pw : (Nat × Nat) × Nat) : Prop :=
  (s.tiles pw.1).cost = some pw.2

/-- A frontier entry pending for a reference-path cell at its optimal
accumulated cost. -/
def RelayPend (s : PFState Nat) (pw : (Nat × Nat) × Nat) : Prop :=
  ∃ e ∈ s.heap, e.position = pw.1 ∧ e.actual_cost = pw.2

/-- The relay invariant: the start of the reference path is recorded at
cost zero or pending, and whenever a path cell is recorded at its optimal
cost, its successor on the path is recorded at its optimal cost or pending
at it. -/
structure ARelay (start : Nat × Nat) (π : List ((Nat × Nat) × Nat))
    (s : PFState Nat) : Prop where
  base : Ropt s (start, 0) ∨ RelayPend s (start, 0)
  step : ∀ a b, AdjPair π a b → Ropt s a → Ropt s b ∨ RelayPend s b

/-- A popped improving entry never sits on a cell already recorded at an
optimal reference cost. -/
theorem ropt_no_improve {view : BidiView T} {nb : BidiNeighbours}
    {cf : T → (Nat × Nat) → T → (Nat × Nat) → Option Nat}
    {hr : (Nat × Nat) → (Nat × Nat) → Nat} {start dest : Nat × Nat} {W : Nat}
    {π : List ((Nat × Nat) × Nat)} {s : PFState Nat} {a : Adjacency Nat}
    {rest : List (Adjacency Nat)}
    (hπ : RelayPath view nb cf start dest W π)
    (hs : ASound view nb cf hr start dest s)
    (hpop : popMin natCostModel s.heap = some (a, rest))
    (himp : improves natCostModel s a = true)
    {pw : (Nat × Nat) × Nat} (hpw : pw ∈ π) (hropt : Ropt s pw) :
    a.position ≠ pw.1 := by
  intro he
  rw [Ropt, ← he] at hropt
  rcases improves_true_cases himp with hc | ⟨r, hc, hblt⟩
  · rw [hropt] at hc
    exact absurd hc (by simp)
  · rw [hropt] at hc
    injection hc with hc
    rw [natCostModel_blt] at hblt
    have hmin := (hπ.2.2.2 pw hpw).2.1
    have hreach : Reaches view nb cf start pw.1 a.actual_cost := by
      rw [← he]
      exact hs.sound_heap a (popMin_mem natCostModel s.heap a rest hpop)
    have := hmin _ hreach
    omega

theorem arelay_discard {view : BidiView T} {nb : BidiNeighbours}
    {cf : T → (Nat × Nat) → T → (Nat × Nat) → Option Nat}
    {hr : (Nat × Nat) → (Nat × Nat) → Nat} {start dest : Nat × Nat} {W : Nat}
    {π : List ((Nat × Nat) × Nat)} {s : PFState Nat} {a : Adjacency Nat}
    {rest : List (Adjacency Nat)}
    (hπ : RelayPath view nb cf start dest W π)
    (hs : ASound view nb cf hr start dest s)
    (hrel : ARelay start π s)
    (hpop : popMin natCostModel s.heap = some (a, rest))
    (himpf : improves natCostModel s a = false) :
    ARelay start π ⟨rest, s.result, s.tiles⟩ := by
  obtain ⟨r0, hr0, hblt⟩ := improves_false_cases himpf
  rw [natCostModel_blt_false] at hblt
  have hkey : ∀ pw, pw ∈ π → RelayPend s pw →
      Ropt s pw ∨ RelayPend (⟨rest, s.result, s.tiles⟩ : PFState Nat) pw := by
    rintro pw hpwπ ⟨e, he, hp, ha⟩
    by_cases hea : e = a
    · subst hea
      left
      rw [ha] at hblt
      have hmin := (hπ.2.2.2 pw hpwπ).2.1
      have hr0reach : Reaches view nb cf start pw.1 r0 := by
        rw [← hp]
        exact hs.sound_tiles _ _ hr0
      have h1 := hmin _ hr0reach
      have h2 : r0 = pw.2 := by omega
      show (s.tiles pw.1).cost = some pw.2
      rw [← hp, hr0, h2]
    · right
      exact ⟨e, mem_rest_of_popMin hpop he hea, hp, ha⟩
  have hhead : (start, 0) ∈ π := by
    have h1 := hπ.1
    exact mem_of_head?_eq_some h1
  constructor
  · rcases hrel.base with h | h
    · exact Or.inl h
    · exact hkey (start, 0) hhead h
  · intro a0 b hadj hropt
    have hropt0 : Ropt s a0 := hropt
    rcases hrel.step a0 b hadj hropt0 with h | h
    · exact Or.inl h
    · exact hkey b (adjPair_mem hadj).2 h

theorem arelay_expand {view : BidiView T} {nb : BidiNeighbours}
    {cf : T → (Nat × Nat) → T → (Nat × Nat) → Option Nat}
    {hr : (Nat × Nat) → (Nat × Nat) → Nat} {start dest : Nat × Nat} {W : Nat}
    {π : List ((Nat × Nat) × Nat)} {s : PFState Nat} {a : Adjacency Nat}
    {rest : List (Adjacency Nat)}
    (hπ : RelayPath view nb cf start dest W π)
    (hs : ASound view nb cf hr start dest s)
    (hrel : ARelay start π s)
    (hpop : popMin natCostModel s.heap = some (a, rest))
    (himp : improves natCostModel s a = true) :
    ARelay start π
      ⟨(expandEntries natCostModel view nb cf hr (some dest) (updTiles s a)
          a.position a.actual_cost).foldl (fun hp e => e :: hp) rest,
        s.result, updTiles s a⟩ := by
  have hmem : a ∈ s.heap := popMin_mem natCostModel s.heap a rest hpop
  have haB := hs.heap_inB a hmem
  have hupd_other : ∀ p, p ≠ a.position → updTiles s a p = s.tiles p := by
    intro p hp
    rw [updTiles, if_neg hp]
  have hupd_self : updTiles s a a.position =
      ⟨some a.origin, some a.actual_cost,
        (s.tiles a.position).in_shortest_path⟩ := by
    rw [updTiles, if_pos rfl]
  have hkeep : ∀ pw, pw ∈ π → Ropt s pw →
      (updTiles s a pw.1).cost = some pw.2 := by
    intro pw hpwπ hro
    rw [hupd_other pw.1 (fun he => ropt_no_improve hπ hs hpop himp hpwπ hro he.symm)]
    exact hro
  have hpend : ∀ pw, pw ∈ π → RelayPend s pw →
      (updTiles s a pw.1).cost = some pw.2 ∨
      RelayPend ⟨(expandEntries natCostModel view nb cf hr (some dest)
          (updTiles s a) a.position a.actual_cost).foldl (fun hp e => e :: hp)
          rest, s.result, updTiles s a⟩ pw := by
    rintro pw hpwπ ⟨e, he, hp, ha⟩
    by_cases hea : e = a
    · subst hea
      left
      rw [← hp, hupd_self]
      dsimp only
      rw [ha]
    · right
      refine ⟨e, ?_, hp, ha⟩
      exact (mem_foldl_cons _ _ _).mpr
        (Or.inr (mem_rest_of_popMin hpop he hea))
  have hheadπ : (start, 0) ∈ π := mem_of_head?_eq_some hπ.1
  constructor
  · rcases hrel.base with h | h
    · exact Or.inl (hkeep (start, 0) hheadπ h)
    · exact hpend (start, 0) hheadπ h
  · intro a0 b hadj hropt
    have hbπ := (adjPair_mem hadj).2
    have ha0π := (adjPair_mem hadj).1
    by_cases h0 : a0.1 = a.position
    · -- a0 was finalized by this very step at its optimal cost
      have hval : a0.2 = a.actual_cost := by
        have : (updTiles s a a0.1).cost = some a0.2 := hropt
        rw [h0, hupd_self] at this
        dsimp only at this
        injection this with h
        exact h.symm
      obtain ⟨hgen, e0, hedge, hbsum⟩ := chain'_adjPair hπ.2.2.1 hadj
      rw [h0] at hgen hedge
      have hbne : b.1 ≠ a.position :=
        mem_generate_ne haB hgen
      rcases hold : (s.tiles b.1).cost with _ | old
      · -- no recorded cost at the successor: the push filter passes
        right
        refine ⟨⟨a.actual_cost + e0 + hr b.1 dest, a.actual_cost + e0, b.1,
          a.position⟩, ?_, rfl, ?_⟩
        · refine (mem_foldl_cons _ _ _).mpr (Or.inl ?_)
          rw [mem_expand_nat]
          refine ⟨b.1, hgen, e0, hedge, ?_, rfl⟩
          rw [hupd_other b.1 hbne, hold]
          trivial
        · dsimp only
          rw [hbsum, hval]
      · by_cases hlt : e0 < old
        · right
          refine ⟨⟨a.actual_cost + e0 + hr b.1 dest, a.actual_cost + e0, b.1,
            a.position⟩, ?_, rfl, ?_⟩
          · refine (mem_foldl_cons _ _ _).mpr (Or.inl ?_)
            rw [mem_expand_nat]
            refine ⟨b.1, hgen, e0, hedge, ?_, rfl⟩
            rw [hupd_other b.1 hbne, hold]
            dsimp only
            exact hlt
          · dsimp only
            rw [hbsum, hval]
        · -- push blocked: the successor is already recorded optimally
          left
          have hmin := (hπ.2.2.2 b hbπ).2.1
          have holdreach := hs.sound_tiles _ _ hold
          have h1 := hmin _ holdreach
          have h2 : old = b.2 := by omega
          show (updTiles s a b.1).cost = some b.2
          rw [hupd_other b.1 hbne, hold, h2]
    · have hropt0 : Ropt s a0 := by
        have : (updTiles s a a0.1).cost = some a0.2 := hropt
        rw [hupd_other a0.1 h0] at this
        exact this
      rcases hrel.step a0 b hadj hropt0 with h | h
      · exact Or.inl (hkeep b hbπ h)
      · exact hpend b hbπ h

theorem length_foldl_cons (l : List (Adjacency C)) :
    ∀ init : List (Adjacency C),
      (l.foldl (fun hp e => e :: hp) init).length = l.length + init.length := by
  induction l with
  | nil => intro init; simp
  | cons x xs ih =>
    intro init
    simp only [List.foldl_cons, ih, List.length_cons]
    omega

theorem mem_of_getLast?_eq_some {α : Type} :
    ∀ {l : List α} {a : α}, l.getLast? = some a → a ∈ l := by
  intro l
  induction l with
  | nil => intro a h; exact absurd h (by simp)
  | cons x xs ih =>
    intro a h
    cases xs with
    | nil =>
      simp only [List.getLast?_singleton, Option.some.injEq] at h
      subst h
      exact List.mem_singleton.mpr rfl
    | cons y ys =>
      rw [List.getLast?_cons_cons] at h
      exact List.mem_cons_of_mem _ (ih h)

/-- The set of cells with a recorded cost. -/
def recSet (view : BidiView T) (s : PFState Nat) : Finset (Nat × Nat) :=
  (Finset.range view.width ×ˢ Finset.range view.height).filter
    (fun p => (s.tiles p).cost ≠ none)

/-- Cost bounds maintained by the search loop: recorded costs are bounded
in terms of the number of recorded cells, frontier entries one edge
further. -/
structure BoundInv (view : BidiView T)
    (cf : T → (Nat × Nat) → T → (Nat × Nat) → Option Nat)
    (s : PFState Nat) : Prop where
  tiles_inB : ∀ p c, (s.tiles p).cost = some c →
    p.1 < view.width ∧ p.2 < view.height
  tiles_le : ∀ p c, (s.tiles p).cost = some c →
    c ≤ ((recSet view s).card - 1) * maxEdgeCost view cf
  heap_inB : ∀ e ∈ s.heap, e.position.1 < view.width ∧ e.position.2 < view.height
  heap_le : ∀ e ∈ s.heap,
    e.actual_cost ≤ (recSet view s).card * maxEdgeCost view cf

/-- The per-cell contribution to the loop measure. -/
def cellWeight (B : Nat) (t : PathFindDataTile Nat) : Nat :=
  match t.cost with
  | none => 10 * (B + 2)
  | some c => 10 * (c + 1)

/-- The loop measure: the heap size plus a weight for every cell, which
drops by at least ten whenever a cost is recorded or improved. -/
def pfMeasure (view : BidiView T)
    (cf : T → (Nat × Nat) → T → (Nat × Nat) → Option Nat)
    (s : PFState Nat) : Nat :=
  s.heap.length +
    Finset.sum (Finset.range view.width ×ˢ Finset.range view.height)
      (fun p => cellWeight (view.width * view.height * maxEdgeCost view cf)
        (s.tiles p))

theorem recSet_card_le (view : BidiView T) (s : PFState Nat) :
    (recSet view s).card ≤ view.width * view.height := by
  refine Nat.le_trans (Finset.card_le_card (Finset.filter_subset _ _)) ?_
  rw [Finset.card_product, Finset.card_range, Finset.card_range]

theorem bound_discard {view : BidiView T}
    {cf : T → (Nat × Nat) → T → (Nat × Nat) → Option Nat}
    {s : PFState Nat} {a : Adjacency Nat} {rest : List (Adjacency Nat)}
    (hb : BoundInv view cf s)
    (hpop : popMin natCostModel s.heap = some (a, rest)) :
    BoundInv view cf ⟨rest, s.result, s.tiles⟩ := by
  refine ⟨hb.tiles_inB, ?_, ?_, ?_⟩
  · intro p c hc
    exact hb.tiles_le p c hc
  · intro e he
    exact hb.heap_inB e (popMin_rest_mem natCostModel s.heap a rest hpop e he)
  · intro e he
    exact hb.heap_le e (popMin_rest_mem natCostModel s.heap a rest hpop e he)

theorem measure_discard {view : BidiView T}
    {cf : T → (Nat × Nat) → T → (Nat × Nat) → Option Nat}
    {s : PFState Nat} {a : Adjacency Nat} {rest : List (Adjacency Nat)}
    (hpop : popMin natCostModel s.heap = some (a, rest)) :
    pfMeasure view cf (⟨rest, s.result, s.tiles⟩ : PFState Nat) + 1 =
      pfMeasure view cf s := by
  rw [pfMeasure, pfMeasure]
  dsimp only
  have := popMin_length natCostModel s.heap a rest hpop
  omega

theorem recSet_expand {view : BidiView T} {s : PFState Nat} {a : Adjacency Nat}
    (haB : a.position.1 < view.width ∧ a.position.2 < view.height) :
    ∀ heap' res,
    recSet view (⟨heap', res, updTiles s a⟩ : PFState Nat) =
      insert a.position (recSet view s) := by
  intro heap' res
  ext p
  simp only [recSet, Finset.mem_filter, Finset.mem_insert]
  constructor
  · rintro ⟨h1, h2⟩
    by_cases hp : p = a.position
    · exact Or.inl hp
    · right
      refine ⟨h1, ?_⟩
      rw [updTiles, if_neg hp] at h2
      exact h2
  · rintro (hp | ⟨h1, h2⟩)
    · subst hp
      refine ⟨?_, ?_⟩
      · rw [Finset.mem_product, Finset.mem_range, Finset.mem_range]
        exact haB
      · rw [updTiles, if_pos rfl]
        simp
    · refine ⟨h1, ?_⟩
      by_cases hp : p = a.position
      · subst hp
        rw [updTiles, if_pos rfl]
        simp
      · rw [updTiles, if_neg hp]
        exact h2

theorem bound_expand {view : BidiView T} {nb : BidiNeighbours}
    {cf : T → (Nat × Nat) → T → (Nat × Nat) → Option Nat}
    {hr : (Nat × Nat) → (Nat × Nat) → Nat} {dest : Nat × Nat}
    {s : PFState Nat} {a : Adjacency Nat} {rest : List (Adjacency Nat)}
    (hb : BoundInv view cf s)
    (hpop : popMin natCostModel s.heap = some (a, rest))
    (himp : improves natCostModel s a = true) :
    BoundInv view cf
      ⟨(expandEntries natCostModel view nb cf hr (some dest) (updTiles s a)
          a.position a.actual_cost).foldl (fun hp e => e :: hp) rest,
        s.result, updTiles s a⟩ := by
  have hmem : a ∈ s.heap := popMin_mem natCostModel s.heap a rest hpop
  have haB := hb.heap_inB a hmem
  have hupd_other : ∀ p, p ≠ a.position → updTiles s a p = s.tiles p := by
    intro p hp
    rw [updTiles, if_neg hp]
  have hrec := recSet_expand (s := s) (a := a) haB
  have hk' : (recSet view (⟨(expandEntries natCostModel view nb cf hr
      (some dest) (updTiles s a) a.position a.actual_cost).foldl
      (fun hp e => e :: hp) rest, s.result, updTiles s a⟩ : PFState Nat)).card =
      (insert a.position (recSet view s)).card := by
    rw [hrec]
  have hk1 : (recSet view s).card ≤ (insert a.position (recSet view s)).card :=
    Finset.card_le_card (Finset.subset_insert _ _)
  have hk2 : (insert a.position (recSet view s)).card ≤ (recSet view s).card + 1 :=
    Finset.card_insert_le _ _
  have hk3 : 1 ≤ (insert a.position (recSet view s)).card :=
    Finset.card_pos.mpr ⟨a.position, Finset.mem_insert_self _ _⟩
  -- the bound on the newly recorded cost
  have hnew : a.actual_cost ≤
      ((insert a.position (recSet view s)).card - 1) * maxEdgeCost view cf := by
    by_cases hin : a.position ∈ recSet view s
    · rcases improves_true_cases himp with hnone | ⟨r, hrc, hblt⟩
      · exfalso
        simp only [recSet, Finset.mem_filter] at hin
        exact hin.2 hnone
      · rw [natCostModel_blt] at hblt
        have hold := hb.tiles_le _ _ hrc
        rw [Finset.card_insert_of_mem hin]
        omega
    · rw [Finset.card_insert_of_not_mem hin]
      have h1 := hb.heap_le a hmem
      simpa using h1
  refine ⟨?_, ?_, ?_, ?_⟩
  · intro p c hc
    dsimp only at hc
    by_cases hp : p = a.position
    · subst hp
      exact haB
    · rw [hupd_other p hp] at hc
      exact hb.tiles_inB p c hc
  · intro p c hc
    dsimp only at hc
    rw [hk']
    by_cases hp : p = a.position
    · subst hp
      rw [updTiles, if_pos rfl] at hc
      dsimp only at hc
      injection hc with hc
      rw [← hc]
      exact hnew
    · rw [hupd_other p hp] at hc
      have h2 := hb.tiles_le p c hc
      refine Nat.le_trans h2 (Nat.mul_le_mul_right _ ?_)
      omega
  · intro e he
    dsimp only at he
    rcases (mem_foldl_cons _ _ _).mp he with he | he
    · rw [mem_expand_nat] at he
      obtain ⟨n, hn, c, hcn, _, hee⟩ := he
      rw [hee]
      exact generate_points_inB nb view.width view.height a.position n haB hn
    · exact hb.heap_inB e (popMin_rest_mem natCostModel s.heap a rest hpop e he)
  · intro e he
    dsimp only at he
    rw [hk']
    rcases (mem_foldl_cons _ _ _).mp he with he | he
    · rw [mem_expand_nat] at he
      obtain ⟨n, hn, c, hcn, _, hee⟩ := he
      have hnB := generate_points_inB nb view.width view.height a.position n haB hn
      have hce : c ≤ maxEdgeCost view cf :=
        edgeCostN_le_max view cf a.position n c haB hnB hcn
      rw [hee]
      dsimp only
      have h9 : ((insert a.position (recSet view s)).card - 1) * maxEdgeCost view cf
          + maxEdgeCost view cf =
          ((insert a.position (recSet view s)).card - 1 + 1) * maxEdgeCost view cf := by
        ring
      have h10 : (insert a.position (recSet view s)).card - 1 + 1 =
          (insert a.position (recSet view s)).card := by omega
      calc a.actual_cost + c
          ≤ ((insert a.position (recSet view s)).card - 1) * maxEdgeCost view cf
            + maxEdgeCost view cf := Nat.add_le_add hnew hce
        _ = (insert a.position (recSet view s)).card * maxEdgeCost view cf := by
            rw [h9, h10]
    · have h2 := hb.heap_le e (popMin_rest_mem natCostModel s.heap a rest hpop e he)
      refine Nat.le_trans h2 (Nat.mul_le_mul_right _ ?_)
      omega

theorem measure_expand {view : BidiView T} {nb : BidiNeighbours}
    {cf : T → (Nat × Nat) → T → (Nat × Nat) → Option Nat}
    {hr : (Nat × Nat) → (Nat × Nat) → Nat} {dest : Nat × Nat}
    {s : PFState Nat} {a : Adjacency Nat} {rest : List (Adjacency Nat)}
    (hb : BoundInv view cf s)
    (hpop : popMin natCostModel s.heap = some (a, rest))
    (himp : improves natCostModel s a = true) :
    pfMeasure view cf
      ⟨(expandEntries natCostModel view nb cf hr (some dest) (updTiles s a)
          a.position a.actual_cost).foldl (fun hp e => e :: hp) rest,
        s.result, updTiles s a⟩ < pfMeasure view cf s := by
  have hmem : a ∈ s.heap := popMin_mem natCostModel s.heap a rest hpop
  have haB := hb.heap_inB a hmem
  have hupd_other : ∀ p, p ≠ a.position → updTiles s a p = s.tiles p := by
    intro p hp
    rw [updTiles, if_neg hp]
  have hcells : a.position ∈ Finset.range view.width ×ˢ Finset.range view.height := by
    rw [Finset.mem_product, Finset.mem_range, Finset.mem_range]
    exact haB
  -- the actual cost is globally bounded
  have hglob : a.actual_cost ≤ view.width * view.height * maxEdgeCost view cf := by
    have h1 := hb.heap_le a hmem
    have h2 := recSet_card_le view s
    exact Nat.le_trans h1 (Nat.mul_le_mul_right _ h2)
  -- weight strictly drops at the finalized cell
  have hdrop : cellWeight (view.width * view.height * maxEdgeCost view cf)
        (updTiles s a a.position) + 10 ≤
      cellWeight (view.width * view.height * maxEdgeCost view cf)
        (s.tiles a.position) := by
    have hupd : (updTiles s a a.position).cost = some a.actual_cost := by
      rw [updTiles, if_pos rfl]
    rcases improves_true_cases himp with hnone | ⟨r, hrc, hblt⟩
    · rw [cellWeight, cellWeight, hupd, hnone]
      dsimp only
      omega
    · rw [natCostModel_blt] at hblt
      rw [cellWeight, cellWeight, hupd, hrc]
      dsimp only
      omega
  -- weights elsewhere unchanged
  have hsum : Finset.sum ((Finset.range view.width ×ˢ Finset.range view.height).erase
        a.position) (fun p => cellWeight
          (view.width * view.height * maxEdgeCost view cf) (updTiles s a p)) =
      Finset.sum ((Finset.range view.width ×ˢ Finset.range view.height).erase
        a.position) (fun p => cellWeight
          (view.width * view.height * maxEdgeCost view cf) (s.tiles p)) := by
    refine Finset.sum_congr rfl ?_
    intro p hp
    rw [hupd_other p (Finset.ne_of_mem_erase hp)]
  have hsplit1 : Finset.sum (Finset.range view.width ×ˢ Finset.range view.height)
        (fun p => cellWeight (view.width * view.height * maxEdgeCost view cf)
          (updTiles s a p)) =
      Finset.sum ((Finset.range view.width ×ˢ Finset.range view.height).erase
        a.position) (fun p => cellWeight
          (view.width * view.height * maxEdgeCost view cf) (updTiles s a p)) +
        cellWeight (view.width * view.height * maxEdgeCost view cf)
          (updTiles s a a.position) :=
    (Finset.sum_erase_add _ _ hcells).symm
  have hsplit2 : Finset.sum (Finset.range view.width ×ˢ Finset.range view.height)
        (fun p => cellWeight (view.width * view.height * maxEdgeCost view cf)
          (s.tiles p)) =
      Finset.sum ((Finset.range view.width ×ˢ Finset.range view.height).erase
        a.position) (fun p => cellWeight
          (view.width * view.height * maxEdgeCost view cf) (s.tiles p)) +
        cellWeight (view.width * view.height * maxEdgeCost view cf)
          (s.tiles a.position) :=
    (Finset.sum_erase_add _ _ hcells).symm
  have hlen : ((expandEntries natCostModel view nb cf hr (some dest)
      (updTiles s a) a.position a.actual_cost).foldl
      (fun hp e => e :: hp) rest).length = (expandEntries natCostModel view nb
      cf hr (some dest) (updTiles s a) a.position a.actual_cost).length +
      rest.length := length_foldl_cons _ _
  have hexp8 := length_expand_le natCostModel view nb cf hr (some dest)
    (updTiles s a) a.position a.actual_cost
  have hpoplen := popMin_length natCostModel s.heap a rest hpop
  rw [pfMeasure, pfMeasure]
  dsimp only
  rw [hsplit1, hsplit2, hsum, hlen]
  omega

theorem adjPair_cons {x : (Nat × Nat) × Nat} {π : List ((Nat × Nat) × Nat)}
    {a b : (Nat × Nat) × Nat} (h : AdjPair π a b) : AdjPair (x :: π) a b := by
  obtain ⟨l1, l2, rfl⟩ := h
  exact ⟨x :: l1, l2, rfl⟩

theorem exists_failing_pair {P : ((Nat × Nat) × Nat) → Prop} :
    ∀ (π : List ((Nat × Nat) × Nat)) (x y : (Nat × Nat) × Nat),
      π.head? = some x → π.getLast? = some y → P x → ¬ P y →
      ∃ a b, AdjPair π a b ∧ P a ∧ ¬ P b := by
  intro π
  induction π with
  | nil =>
    intro x y hx
    exact absurd hx (by simp)
  | cons z zs ih =>
    intro x y hx hy hpx hny
    rw [List.head?_cons] at hx
    injection hx with hx
    subst hx
    cases zs with
    | nil =>
      simp only [List.getLast?_singleton, Option.some.injEq] at hy
      subst hy
      exact absurd hpx hny
    | cons w ws =>
      rw [List.getLast?_cons_cons] at hy
      by_cases hpw : P w
      · obtain ⟨a, b, hab, h1, h2⟩ := ih w y rfl hy hpw hny
        exact ⟨a, b, adjPair_cons hab, h1, h2⟩
      · exact ⟨z, w, ⟨[], ws, rfl⟩, hpx, hpw⟩

/-- While the destination is unrecorded, some reference-path cell has its
optimal entry pending on the frontier. -/
theorem arelay_gap {view : BidiView T} {nb : BidiNeighbours}
    {cf : T → (Nat × Nat) → T → (Nat × Nat) → Option Nat}
    {hr : (Nat × Nat) → (Nat × Nat) → Nat} {start dest : Nat × Nat} {W : Nat}
    {π : List ((Nat × Nat) × Nat)} {s : PFState Nat}
    (hπ : RelayPath view nb cf start dest W π)
    (hs : ASound view nb cf hr start dest s)
    (hrel : ARelay start π s) :
    ∃ pw, pw ∈ π ∧ RelayPend s pw := by
  have hdne : ¬ Ropt s (dest, W) := by
    intro h
    have h2 : (s.tiles dest).cost = some W := h
    rw [hs.dest_unrec] at h2
    exact absurd h2 (by simp)
  rcases hrel.base with hb | hb
  · obtain ⟨a, b, hab, h1, h2⟩ :=
      exists_failing_pair π (start, 0) (dest, W) hπ.1 hπ.2.1 hb hdne
    rcases hrel.step a b hab h1 with h | h
    · exact absurd h h2
    · exact ⟨b, (adjPair_mem hab).2, h⟩
  · exact ⟨(start, 0), mem_of_head?_eq_some hπ.1, hb⟩

/-- The master run lemma for the single-destination search with an
admissible heuristic, along a reference path to the destination: any found
cost is the optimal one, and a PathNotFound outcome means the iteration
budget was smaller than the loop measure. -/
theorem astar_loop (view : BidiView T) (nb : BidiNeighbours)
    (cf : T → (Nat × Nat) → T → (Nat × Nat) → Option Nat)
    (hr : (Nat × Nat) → (Nat × Nat) → Nat) (start dest : Nat × Nat) (W : Nat)
    (π : List ((Nat × Nat) × Nat))
    (hπ : RelayPath view nb cf start dest W π)
    (hadm : ∀ v c, Reaches view nb cf v dest c → hr v dest ≤ c) :
    ∀ (fuel : Nat) (s : PFState Nat),
      ASound view nb cf hr start dest s →
      ARelay start π s →
      BoundInv view cf s →
      (∃ c, (pathfindLoop natCostModel view nb cf hr (some dest) fuel s).result
          = PathFindDataResult.ShortestPathFound c ∧ c = W) ∨
      ((pathfindLoop natCostModel view nb cf hr (some dest) fuel s).result
          = PathFindDataResult.PathNotFound ∧
        ¬ pfMeasure view cf s < fuel) := by
  intro fuel
  induction fuel with
  | zero =>
    intro s hs hrel hb
    right
    exact ⟨hs.result_eq, by omega⟩
  | succ fuel ih =>
    intro s hs hrel hb
    rcases hpop : popMin natCostModel s.heap with _ | ⟨a, rest⟩
    · exfalso
      obtain ⟨pw, hpwπ, e, he, _⟩ := arelay_gap hπ hs hrel
      rw [(popMin_eq_none natCostModel s.heap).mp hpop] at he
      exact absurd he (List.not_mem_nil _)
    · have hmem : a ∈ s.heap := popMin_mem natCostModel s.heap a rest hpop
      rcases himp : improves natCostModel s a with _ | _
      · -- discard
        have hloop : pathfindLoop natCostModel view nb cf hr (some dest)
            (fuel + 1) s = pathfindLoop natCostModel view nb cf hr (some dest)
            fuel ⟨rest, s.result, s.tiles⟩ := by
          rw [pathfindLoop, pathfindStep_discard natCostModel view nb cf hr
            (some dest) s a rest hpop himp]
        rw [hloop]
        have hm : pfMeasure view cf (⟨rest, s.result, s.tiles⟩ : PFState Nat) + 1 =
            pfMeasure view cf s := measure_discard hpop
        rcases ih ⟨rest, s.result, s.tiles⟩ (asound_discard hs hpop)
          (arelay_discard hπ hs hrel hpop himp) (bound_discard hb hpop) with
          h | ⟨h1, h2⟩
        · exact Or.inl h
        · right
          refine ⟨h1, ?_⟩
          omega
      · by_cases hdest : (some dest : Option (Nat × Nat)) = some a.position
        · -- destination reached: the found cost is the optimal one
          have hloop : pathfindLoop natCostModel view nb cf hr (some dest)
              (fuel + 1) s =
              ⟨rest, PathFindDataResult.ShortestPathFound a.actual_cost,
                fun p => if p = a.position then
                  ⟨some a.origin, some a.actual_cost,
                    (s.tiles a.position).in_shortest_path⟩
                else s.tiles p⟩ := by
            rw [pathfindLoop, pathfindStep_found natCostModel view nb cf hr
              (some dest) s a rest hpop himp hdest]
          rw [hloop]
          left
          refine ⟨a.actual_cost, rfl, ?_⟩
          have hda : dest = a.position := by injection hdest
          have hreach : Reaches view nb cf start dest a.actual_cost := by
            rw [hda]
            exact hs.sound_heap a hmem
          have hWmem : (dest, W) ∈ π := mem_of_getLast?_eq_some hπ.2.1
          have hlow : W ≤ a.actual_cost :=
            (hπ.2.2.2 (dest, W) hWmem).2.1 _ hreach
          obtain ⟨pw, hpwπ, e, he, hep, hea⟩ := arelay_gap hπ hs hrel
          have hminest := popMin_min s.heap a rest hpop e he
          have hestea : a.actual_cost ≤ a.estimated_cost := by
            rcases hs.heap_est a hmem with h | ⟨_, h0, hE0⟩
            · omega
            · omega
          have heeW : e.estimated_cost ≤ W := by
            rcases hs.heap_est e he with h | ⟨_, h0, hE0⟩
            · rw [h, hea, hep]
              have hrem := (hπ.2.2.2 pw hpwπ).2.2.1
              have hle := hadm _ _ hrem
              have hpwle := (hπ.2.2.2 pw hpwπ).2.2.2
              omega
            · omega
          omega
        · -- expansion
          have hloop : pathfindLoop natCostModel view nb cf hr (some dest)
              (fuel + 1) s = pathfindLoop natCostModel view nb cf hr (some dest)
              fuel ⟨(expandEntries natCostModel view nb cf hr (some dest)
                  (fun p => if p = a.position then
                    ⟨some a.origin, some a.actual_cost,
                      (s.tiles a.position).in_shortest_path⟩
                  else s.tiles p) a.position a.actual_cost).foldl
                  (fun hp e => e :: hp) rest,
                s.result,
                fun p => if p = a.position then
                  ⟨some a.origin, some a.actual_cost,
                    (s.tiles a.position).in_shortest_path⟩
                else s.tiles p⟩ := by
            rw [pathfindLoop, pathfindStep_expand natCostModel view nb cf hr
              (some dest) s a rest hpop himp hdest]
          rw [hloop]
          have hnd : a.position ≠ dest := fun he => hdest (by rw [he])
          have hm : pfMeasure view cf
              ⟨(expandEntries natCostModel view nb cf hr (some dest)
                  (updTiles s a) a.position a.actual_cost).foldl
                  (fun hp e => e :: hp) rest,
                s.result, updTiles s a⟩ < pfMeasure view cf s :=
            measure_expand hb hpop himp
          rcases ih _ (asound_expand hs hpop hnd)
            (arelay_expand hπ hs hrel hpop himp) (bound_expand hb hpop himp) with
            h | ⟨h1, h2⟩
          · exact Or.inl h
          · right
            refine ⟨h1, ?_⟩
            intro hcon
            exact h2 (by omega)

/-- Soundness of the single-destination search loop regardless of the
heuristic: the result stays PathNotFound or reports the cost of an actual
walk to the destination. -/
theorem astar_loop_sound (view : BidiView T) (nb : BidiNeighbours)
    (cf : T → (Nat × Nat) → T → (Nat × Nat) → Option Nat)
    (hr : (Nat × Nat) → (Nat × Nat) → Nat) (start dest : Nat × Nat) :
    ∀ (fuel : Nat) (s : PFState Nat),
      ASound view nb cf hr start dest s →
      (pathfindLoop natCostModel view nb cf hr (some dest) fuel s).result =
        PathFindDataResult.PathNotFound ∨
      ∃ c, (pathfindLoop natCostModel view nb cf hr (some dest) fuel s).result =
          PathFindDataResult.ShortestPathFound c ∧
        Reaches view nb cf start dest c := by
  intro fuel
  induction fuel with
  | zero =>
    intro s hs
    exact Or.inl hs.result_eq
  | succ fuel ih =>
    intro s hs
    rcases hpop : popMin natCostModel s.heap with _ | ⟨a, rest⟩
    · have hloop : pathfindLoop natCostModel view nb cf hr (some dest)
          (fuel + 1) s = s := by
        rw [pathfindLoop, show pathfindStep natCostModel view nb cf hr
          (some dest) s = Sum.inl s from by rw [pathfindStep, hpop]]
      rw [hloop]
      exact Or.inl hs.result_eq
    · have hmem : a ∈ s.heap := popMin_mem natCostModel s.heap a rest hpop
      rcases himp : improves natCostModel s a with _ | _
      · have hloop : pathfindLoop natCostModel view nb cf hr (some dest)
            (fuel + 1) s = pathfindLoop natCostModel view nb cf hr (some dest)
            fuel ⟨rest, s.result, s.tiles⟩ := by
          rw [pathfindLoop, pathfindStep_discard natCostModel view nb cf hr
            (some dest) s a rest hpop himp]
        rw [hloop]
        exact ih _ (asound_discard hs hpop)
      · by_cases hdest : (some dest : Option (Nat × Nat)) = some a.position
        · have hloop : pathfindLoop natCostModel view nb cf hr (some dest)
              (fuel + 1) s =
              ⟨rest, PathFindDataResult.ShortestPathFound a.actual_cost,
                fun p => if p = a.position then
                  ⟨some a.origin, some a.actual_cost,
                    (s.tiles a.position).in_shortest_path⟩
                else s.tiles p⟩ := by
            rw [pathfindLoop, pathfindStep_found natCostModel view nb cf hr
              (some dest) s a rest hpop himp hdest]
          rw [hloop]
          right
          refine ⟨a.actual_cost, rfl, ?_⟩
          have hda : dest = a.position := by injection hdest
          rw [hda]
          exact hs.sound_heap a hmem
        · have hloop : pathfindLoop natCostModel view nb cf hr (some dest)
              (fuel + 1) s = pathfindLoop natCostModel view nb cf hr (some dest)
              fuel ⟨(expandEntries natCostModel view nb cf hr (some dest)
                  (fun p => if p = a.position then
                    ⟨some a.origin, some a.actual_cost,
                      (s.tiles a.position).in_shortest_path⟩
                  else s.tiles p) a.position a.actual_cost).foldl
                  (fun hp e => e :: hp) rest,
                s.result,
                fun p => if p = a.position then
                  ⟨some a.origin, some a.actual_cost,
                    (s.tiles a.position).in_shortest_path⟩
                else s.tiles p⟩ := by
            rw [pathfindLoop, pathfindStep_expand natCostModel view nb cf hr
              (some dest) s a rest hpop himp hdest]
          rw [hloop]
          have hnd : a.position ≠ dest := fun he => hdest (by rw [he])
          exact ih _ (asound_expand hs hpop hnd)

/-- The state in which pathfind_core starts its search loop (with a
destination): one start entry at cost zero, no recorded tiles. -/
def initPF (start : Nat × Nat) : PFState Nat :=
  ⟨[⟨natCostModel.dflt, natCostModel.dflt, start, start⟩],
    PathFindDataResult.PathNotFound, fun _ => ⟨none, none, false⟩⟩

theorem asound_init (view : BidiView T) (nb : BidiNeighbours)
    (cf : T → (Nat × Nat) → T → (Nat × Nat) → Option Nat)
    (hrf : (Nat × Nat) → (Nat × Nat) → Nat) (start dest : Nat × Nat)
    (hs : start.1 < view.width ∧ start.2 < view.height) :
    ASound view nb cf hrf start dest (initPF start) := by
  refine ⟨rfl, rfl, fun p => rfl, ?_, ?_, ?_, ?_, ?_⟩
  · intro p c hc
    exact absurd hc (by simp [initPF])
  · intro p c hc
    exact absurd hc (by simp [initPF])
  · intro e he
    simp only [initPF, List.mem_singleton] at he
    subst he
    exact Reaches.refl
  · intro e he
    simp only [initPF, List.mem_singleton] at he
    subst he
    exact hs
  · intro e he
    simp only [initPF, List.mem_singleton] at he
    subst he
    exact Or.inr ⟨rfl, rfl, rfl⟩

theorem arelay_init (start : Nat × Nat) (π : List ((Nat × Nat) × Nat)) :
    ARelay start π (initPF start) := by
  constructor
  · exact Or.inr ⟨⟨natCostModel.dflt, natCostModel.dflt, start, start⟩,
      List.mem_singleton.mpr rfl, rfl, rfl⟩
  · intro a0 b _ h
    exact absurd h (by simp [Ropt, initPF])

theorem bound_init (view : BidiView T)
    (cf : T → (Nat × Nat) → T → (Nat × Nat) → Option Nat) (start : Nat × Nat)
    (hs : start.1 < view.width ∧ start.2 < view.height) :
    BoundInv view cf (initPF start) := by
  refine ⟨?_, ?_, ?_, ?_⟩
  · intro p c hc
    exact absurd hc (by simp [initPF])
  · intro p c hc
    exact absurd hc (by simp [initPF])
  · intro e he
    simp only [initPF, List.mem_singleton] at he
    subst he
    exact hs
  · intro e he
    simp only [initPF, List.mem_singleton] at he
    subst he
    exact Nat.zero_le _

theorem measure_init (view : BidiView T)
    (cf : T → (Nat × Nat) → T → (Nat × Nat) → Option Nat) (start : Nat × Nat) :
    pfMeasure view cf (initPF start) < pathfindFuel view cf := by
  rw [pfMeasure, pathfindFuel]
  have hconst : (fun p => cellWeight
      (view.width * view.height * maxEdgeCost view cf) ((initPF start).tiles p)) =
      (fun _ : Nat × Nat =>
        10 * (view.width * view.height * maxEdgeCost view cf + 2)) := rfl
  rw [hconst, Finset.sum_const, Finset.card_product, Finset.card_range,
    Finset.card_range, smul_eq_mul]
  have hh : (initPF start).heap.length = 1 := rfl
  rw [hh]
  have hring : view.width * view.height *
      (10 * (view.width * view.height * maxEdgeCost view cf + 2)) =
      10 * (view.width * view.height) *
        (view.width * view.height * maxEdgeCost view cf + 2) := by
    ring
  omega

theorem pathfind_core_reduce (view : BidiView T) (start dest : Nat × Nat)
    (nb : BidiNeighbours)
    (cf : T → (Nat × Nat) → T → (Nat × Nat) → Option Nat)
    (hrf : (Nat × Nat) → (Nat × Nat) → Nat)
    (hs : start.1 < view.width ∧ start.2 < view.height)
    (hd : ¬ destOutOfBounds view (some dest)) :
    pathfind_core view start (some dest) nb cf hrf = Except.ok
      ⟨(pathfindLoop natCostModel view nb cf hrf (some dest)
          (pathfindFuel view cf) (initPF start)).result,
        match (pathfindLoop natCostModel view nb cf hrf (some dest)
            (pathfindFuel view cf) (initPF start)).result with
        | PathFindDataResult.ShortestPathFound _ =>
          reconstructLoop start (view.width * view.height + 1) (some dest)
            (pathfindLoop natCostModel view nb cf hrf (some dest)
              (pathfindFuel view cf) (initPF start)).tiles
        | _ => (pathfindLoop natCostModel view nb cf hrf (some dest)
            (pathfindFuel view cf) (initPF start)).tiles⟩ := by
  rw [pathfind_core, if_neg (not_not_intro hs), if_neg hd]
  rfl

/-- C4: with an admissible heuristic — one that never overestimates the
cost of any remaining walk to the destination — the heuristic search
returns exactly the same outcome (error, PathNotFound, or
ShortestPathFound with the same optimal cost) as the zero-heuristic
search. -/
theorem astar_admissible_spec (view : BidiView T) (start dest : Nat × Nat)
    (nb : BidiNeighbours)
    (cf : T → (Nat × Nat) → T → (Nat × Nat) → Option Nat)
    (heuristic : (Nat × Nat) → (Nat × Nat) → Nat)
    (hadm : ∀ v c, Reaches view nb cf v dest c → heuristic v dest ≤ c) :
    Except.map (fun data => data.result)
      (pathfind_to_dest_heuristic view start dest nb cf heuristic) =
    Except.map (fun data => data.result)
      (pathfind_to_dest view start dest nb cf) := by
  by_cases hs : start.1 < view.width ∧ start.2 < view.height
  case neg =>
    rw [pathfind_to_dest_heuristic, pathfind_to_dest, pathfind_core,
      if_pos hs, pathfind_core, if_pos hs]
  case pos =>
  by_cases hd : destOutOfBounds view (some dest)
  case pos =>
    rw [pathfind_to_dest_heuristic, pathfind_to_dest, pathfind_core,
      if_neg (not_not_intro hs), if_pos hd, pathfind_core,
      if_neg (not_not_intro hs), if_pos hd]
  case neg =>
  rw [pathfind_to_dest_heuristic, pathfind_to_dest,
    pathfind_core_reduce view start dest nb cf heuristic hs hd,
    pathfind_core_reduce view start dest nb cf (fun _ _ => natCostModel.dflt)
      hs hd]
  simp only [Except.map]
  by_cases hreach : ∃ c, Reaches view nb cf start dest c
  · obtain ⟨W, hW, hWmin⟩ := nat_exists_least hreach
    obtain ⟨π, hπ⟩ := relayPath_exists view nb cf start dest W hW hWmin
    have hadm0 : ∀ v c, Reaches view nb cf v dest c →
        (fun _ _ : Nat × Nat => natCostModel.dflt) v dest ≤ c :=
      fun v c _ => Nat.zero_le c
    rcases astar_loop view nb cf heuristic start dest W π hπ hadm
        (pathfindFuel view cf) (initPF start)
        (asound_init view nb cf heuristic start dest hs)
        (arelay_init start π) (bound_init view cf start hs) with
      ⟨cA, hA, hAW⟩ | ⟨_, hnm⟩
    · rcases astar_loop view nb cf (fun _ _ => natCostModel.dflt) start dest W
          π hπ hadm0 (pathfindFuel view cf) (initPF start)
          (asound_init view nb cf _ start dest hs)
          (arelay_init start π) (bound_init view cf start hs) with
        ⟨cD, hD, hDW⟩ | ⟨_, hnm⟩
      · rw [hA, hD, hAW, hDW]
      · exact absurd (measure_init view cf start) hnm
    · exact absurd (measure_init view cf start) hnm
  · rcases astar_loop_sound view nb cf heuristic start dest
        (pathfindFuel view cf) (initPF start)
        (asound_init view nb cf heuristic start dest hs) with hA | ⟨cA, _, hrA⟩
    · rcases astar_loop_sound view nb cf (fun _ _ => natCostModel.dflt) start
          dest (pathfindFuel view cf) (initPF start)
          (asound_init view nb cf _ start dest hs) with hD | ⟨cD, _, hrD⟩
      · rw [hA, hD]
      · exact absurd ⟨cD, hrD⟩ hreach
    · exact absurd ⟨cA, hrA⟩ hreach

/-- Witness for C4: the 2 × 1 grid with unit edges and the zero heuristic,
which is admissible. -/
theorem astar_admissible_spec_witness :
    (∀ v c, Reaches (⟨2, 1, fun _ => 0⟩ : BidiView Nat) BidiNeighbours.Adjacent
        (fun _ _ _ _ => some 1) v (1, 0) c → (fun _ _ : Nat × Nat => 0) v (1, 0) ≤ c) ∧
    Except.map (fun data => data.result)
      (pathfind_to_dest_heuristic (⟨2, 1, fun _ => 0⟩ : BidiView Nat) (0, 0)
        (1, 0) BidiNeighbours.Adjacent (fun _ _ _ _ => some 1) (fun _ _ => 0)) =
    Except.map (fun data => data.result)
      (pathfind_to_dest (⟨2, 1, fun _ => 0⟩ : BidiView Nat) (0, 0) (1, 0)
        BidiNeighbours.Adjacent (fun _ _ _ _ => some 1)) :=
  ⟨fun v c _ => Nat.zero_le c,
    astar_admissible_spec (⟨2, 1, fun _ => 0⟩ : BidiView Nat) (0, 0) (1, 0)
      BidiNeighbours.Adjacent (fun _ _ _ _ => some 1) (fun _ _ => 0)
      (fun v c _ => Nat.zero_le c)⟩

/-- Walks counted by number of steps, irrespective of the edge costs:
breadth-first reachability over the passable edges. -/
inductive StepsReach (view : BidiView T) (nb : BidiNeighbours)
    (cf : T → (Nat × Nat) → T → (Nat × Nat) → Option Nat) (v0 : Nat × Nat) :
    (Nat × Nat) → Nat → Prop
  | refl : StepsReach view nb cf v0 v0 0
  | step : ∀ {q k p}, StepsReach view nb cf v0 q k →
      p ∈ nb.generate_points_on q view.width view.height →
      (∃ e, edgeCostN view cf q p = some e) →
      StepsReach view nb cf v0 p (k + 1)

theorem unit_cost_reaches_iff (view : BidiView T) (nb : BidiNeighbours)
    (cf : T → (Nat × Nat) → T → (Nat × Nat) → Option Nat)
    (hunit : ∀ a pa b pb, cf a pa b pb = some 1 ∨ cf a pa b pb = none)
    (v0 p : Nat × Nat) (c : Nat) :
    Reaches view nb cf v0 p c ↔ StepsReach view nb cf v0 p c := by
  have hedge1 : ∀ q p e, edgeCostN view cf q p = some e → e = 1 := by
    intro q p e he
    rw [edgeCostN] at he
    rcases hunit (view.get q) q (view.get p) p with h | h
    · rw [h] at he
      simp only [natCostModel] at he
      injection he with he
      omega
    · rw [h] at he
      exact absurd he (by simp)
  constructor
  · intro h
    induction h with
    | refl => exact StepsReach.refl
    | step hq hgen hedge ih =>
      rename_i q cq p2 e
      have he1 := hedge1 _ _ _ hedge
      subst he1
      exact StepsReach.step ih hgen ⟨1, hedge⟩
  · intro h
    induction h with
    | refl => exact Reaches.refl
    | step hq hgen hedge ih =>
      rename_i q k p2
      obtain ⟨e, he⟩ := hedge
      have he1 := hedge1 _ _ _ he
      subst he1
      exact Reaches.step ih hgen he

/-- C3: with a unit cost function (Some 1 on passable edges, None on
walls), the zero-heuristic search reports exactly the breadth-first
distance, the least number of neighbour steps from the start to the
destination. -/
theorem bfs_unit_cost_spec (view : BidiView T) (start dest : Nat × Nat)
    (nb : BidiNeighbours)
    (cf : T → (Nat × Nat) → T → (Nat × Nat) → Option Nat)
    (hunit : ∀ a pa b pb, cf a pa b pb = some 1 ∨ cf a pa b pb = none)
    (hs : start.1 < view.width ∧ start.2 < view.height)
    (hd : dest.1 < view.width ∧ dest.2 < view.height)
    (k : Nat) (hk : StepsReach view nb cf start dest k)
    (hkmin : ∀ j, StepsReach view nb cf start dest j → k ≤ j) :
    ∃ data, pathfind_to_dest view start dest nb cf = Except.ok data ∧
      data.result = PathFindDataResult.ShortestPathFound k := by
  have hdo : ¬ destOutOfBounds view (some dest) := not_not_intro hd
  have hre : Reaches view nb cf start dest k :=
    (unit_cost_reaches_iff view nb cf hunit start dest k).mpr hk
  have hremin : ∀ c, Reaches view nb cf start dest c → k ≤ c :=
    fun c hc => hkmin c ((unit_cost_reaches_iff view nb cf hunit start dest c).mp hc)
  obtain ⟨π, hπ⟩ := relayPath_exists view nb cf start dest k hre hremin
  have hadm0 : ∀ v c, Reaches view nb cf v dest c →
      (fun _ _ : Nat × Nat => natCostModel.dflt) v dest ≤ c :=
    fun v c _ => Nat.zero_le c
  rcases astar_loop view nb cf (fun _ _ => natCostModel.dflt) start dest k π hπ
      hadm0 (pathfindFuel view cf) (initPF start)
      (asound_init view nb cf _ start dest hs)
      (arelay_init start π) (bound_init view cf start hs) with
    ⟨c, hc, hck⟩ | ⟨_, hnm⟩
  · refine ⟨_, by
      rw [pathfind_to_dest]
      exact pathfind_core_reduce view start dest nb cf
        (fun _ _ => natCostModel.dflt) hs hdo, ?_⟩
    dsimp only
    rw [hc, hck]
  · exact absurd (measure_init view cf start) hnm

theorem stepsReach_zero {view : BidiView T} {nb : BidiNeighbours}
    {cf : T → (Nat × Nat) → T → (Nat × Nat) → Option Nat} {v0 p : Nat × Nat}
    (h : StepsReach view nb cf v0 p 0) : p = v0 := by
  cases h
  rfl

/-- Witness for C3: the 2 × 1 grid with unit edges; the breadth-first
distance from (0,0) to (1,0) is 1. -/
theorem bfs_unit_cost_spec_witness :
    ∃ data, pathfind_to_dest (⟨2, 1, fun _ => 0⟩ : BidiView Nat) (0, 0) (1, 0)
        BidiNeighbours.Adjacent (fun _ _ _ _ => some 1) = Except.ok data ∧
      data.result = PathFindDataResult.ShortestPathFound 1 := by
  refine bfs_unit_cost_spec (⟨2, 1, fun _ => 0⟩ : BidiView Nat) (0, 0) (1, 0)
    BidiNeighbours.Adjacent (fun _ _ _ _ => some 1)
    (fun _ _ _ _ => Or.inl rfl) (by decide) (by decide) 1 ?_ ?_
  · exact StepsReach.step StepsReach.refl (by decide) ⟨1, by decide⟩
  · intro j hj
    cases j with
    | zero => exact absurd (stepsReach_zero hj) (by decide)
    | succ n => omega

/-! Reconstruction correctness for arbitrary heuristics: a step-indexed
trace of the search loop of pathfind_core. -/

/-- One iteration of the search loop as a total function on states: a
terminating step keeps its state unchanged. -/
def stepTot (view : BidiView T) (nb : BidiNeighbours)
    (cf : T → (Nat × Nat) → T → (Nat × Nat) → Option Nat)
    (hr : (Nat × Nat) → (Nat × Nat) → Nat) (dest : Option (Nat × Nat))
    (s : PFState Nat) : PFState Nat :=
  match pathfindStep natCostModel view nb cf hr dest s with
  | Sum.inl _ => s
  | Sum.inr s' => s'

/-- The loop state after k iterations of pathfindStep from s0. -/
def runPF (view : BidiView T) (nb : BidiNeighbours)
    (cf : T → (Nat × Nat) → T → (Nat × Nat) → Option Nat)
    (hr : (Nat × Nat) → (Nat × Nat) → Nat) (dest : Option (Nat × Nat))
    (s0 : PFState Nat) : Nat → PFState Nat
  | 0 => s0
  | k + 1 => stepTot view nb cf hr dest (runPF view nb cf hr dest s0 k)

/-- Step k of the run does not terminate the loop. -/
def ContinuesAt (view : BidiView T) (nb : BidiNeighbours)
    (cf : T → (Nat × Nat) → T → (Nat × Nat) → Option Nat)
    (hr : (Nat × Nat) → (Nat × Nat) → Nat) (dest : Option (Nat × Nat))
    (s0 : PFState Nat) (k : Nat) : Prop :=
  ∃ s', pathfindStep natCostModel view nb cf hr dest
    (runPF view nb cf hr dest s0 k) = Sum.inr s'

/-- The entry finalized at step k: the popped entry when the pop improves
its cell, none otherwise. -/
def finEntry (view : BidiView T) (nb : BidiNeighbours)
    (cf : T → (Nat × Nat) → T → (Nat × Nat) → Option Nat)
    (hr : (Nat × Nat) → (Nat × Nat) → Nat) (dest : Option (Nat × Nat))
    (s0 : PFState Nat) (k : Nat) : Option (Adjacency Nat) :=
  match popMin natCostModel (runPF view nb cf hr dest s0 k).heap with
  | none => none
  | some (a, _) =>
    if improves natCostModel (runPF view nb cf hr dest s0 k) a then some a
    else none

/-- The cell finalized at step k, if any. -/
def finPos (view : BidiView T) (nb : BidiNeighbours)
    (cf : T → (Nat × Nat) → T → (Nat × Nat) → Option Nat)
    (hr : (Nat × Nat) → (Nat × Nat) → Nat) (dest : Option (Nat × Nat))
    (s0 : PFState Nat) (k : Nat) : Option (Nat × Nat) :=
  (finEntry view nb cf hr dest s0 k).map (fun a => a.position)

theorem runPF_succ (view : BidiView T) (nb : BidiNeighbours)
    (cf : T → (Nat × Nat) → T → (Nat × Nat) → Option Nat)
    (hr : (Nat × Nat) → (Nat × Nat) → Nat) (dest : Option (Nat × Nat))
    (s0 : PFState Nat) (k : Nat) :
    runPF view nb cf hr dest s0 (k + 1) =
      stepTot view nb cf hr dest (runPF view nb cf hr dest s0 k) := rfl

theorem stepTot_inr {view : BidiView T} {nb : BidiNeighbours}
    {cf : T → (Nat × Nat) → T → (Nat × Nat) → Option Nat}
    {hr : (Nat × Nat) → (Nat × Nat) → Nat} {dest : Option (Nat × Nat)}
    {s s' : PFState Nat}
    (h : pathfindStep natCostModel view nb cf hr dest s = Sum.inr s') :
    stepTot view nb cf hr dest s = s' := by
  rw [stepTot, h]

/-- Case analysis of a continuing step: the pop succeeds and the step
either discards the entry or finalizes and expands its cell away from the
destination. -/
theorem run_step_cases {view : BidiView T} {nb : BidiNeighbours}
    {cf : T → (Nat × Nat) → T → (Nat × Nat) → Option Nat}
    {hr : (Nat × Nat) → (Nat × Nat) → Nat} {dest : Option (Nat × Nat)}
    {s0 : PFState Nat} {k : Nat}
    (hk : ContinuesAt view nb cf hr dest s0 k) :
    ∃ a rest,
      popMin natCostModel (runPF view nb cf hr dest s0 k).heap = some (a, rest) ∧
      ((improves natCostModel (runPF view nb cf hr dest s0 k) a = false ∧
        finEntry view nb cf hr dest s0 k = none ∧
        runPF view nb cf hr dest s0 (k + 1) =
          ⟨rest, (runPF view nb cf hr dest s0 k).result,
            (runPF view nb cf hr dest s0 k).tiles⟩) ∨
       (improves natCostModel (runPF view nb cf hr dest s0 k) a = true ∧
        finEntry view nb cf hr dest s0 k = some a ∧
        dest ≠ some a.position ∧
        runPF view nb cf hr dest s0 (k + 1) =
          ⟨(expandEntries natCostModel view nb cf hr dest
              (updTiles (runPF view nb cf hr dest s0 k) a) a.position
              a.actual_cost).foldl (fun hp e => e :: hp) rest,
            (runPF view nb cf hr dest s0 k).result,
            updTiles (runPF view nb cf hr dest s0 k) a⟩)) := by
  obtain ⟨s', hs'⟩ := hk
  rcases hpop : popMin natCostModel (runPF view nb cf hr dest s0 k).heap with
    _ | ⟨a, rest⟩
  · rw [pathfindStep, hpop] at hs'
    exact absurd hs' (by simp)
  · refine ⟨a, rest, rfl, ?_⟩
    rcases himp : improves natCostModel (runPF view nb cf hr dest s0 k) a with _ | _
    · left
      refine ⟨rfl, ?_, ?_⟩
      · rw [finEntry, hpop]
        simp [himp]
      · rw [runPF_succ,
          stepTot_inr (pathfindStep_discard natCostModel view nb cf hr dest
            _ a rest hpop himp)]
    · by_cases hdest : dest = some a.position
      · rw [pathfindStep_found natCostModel view nb cf hr dest _ a rest hpop
          himp hdest] at hs'
        exact absurd hs' (by simp)
      · right
        refine ⟨rfl, ?_, hdest, ?_⟩
        · rw [finEntry, hpop]
          simp [himp]
        · rw [runPF_succ,
            stepTot_inr (pathfindStep_expand natCostModel view nb cf hr dest
              _ a rest hpop himp hdest)]
          rfl

/-- The running result is preserved by continuing steps. -/
theorem run_result {view : BidiView T} {nb : BidiNeighbours}
    {cf : T → (Nat × Nat) → T → (Nat × Nat) → Option Nat}
    {hr : (Nat × Nat) → (Nat × Nat) → Nat} {dest : Option (Nat × Nat)}
    {s0 : PFState Nat} :
    ∀ {k : Nat}, (∀ j, j < k → ContinuesAt view nb cf hr dest s0 j) →
      (runPF view nb cf hr dest s0 k).result = s0.result := by
  intro k
  induction k with
  | zero => intro _; rfl
  | succ k ih =>
    intro hc
    obtain ⟨a, rest, hpop, hcase⟩ := run_step_cases (hc k (Nat.lt_succ_self k))
    rcases hcase with ⟨_, _, heq⟩ | ⟨_, _, _, heq⟩ <;>
      rw [heq] <;> exact ih (fun j hj => hc j (Nat.lt_succ_of_lt hj))

/-- The in_shortest_path flags are preserved by continuing steps. -/
theorem run_flag {view : BidiView T} {nb : BidiNeighbours}
    {cf : T → (Nat × Nat) → T → (Nat × Nat) → Option Nat}
    {hr : (Nat × Nat) → (Nat × Nat) → Nat} {dest : Option (Nat × Nat)}
    {s0 : PFState Nat} :
    ∀ {k : Nat}, (∀ j, j < k → ContinuesAt view nb cf hr dest s0 j) →
      ∀ p, ((runPF view nb cf hr dest s0 k).tiles p).in_shortest_path =
        (s0.tiles p).in_shortest_path := by
  intro k
  induction k with
  | zero => intro _ p; rfl
  | succ k ih =>
    intro hc p
    have ihp := ih (fun j hj => hc j (Nat.lt_succ_of_lt hj))
    obtain ⟨a, rest, hpop, hcase⟩ := run_step_cases (hc k (Nat.lt_succ_self k))
    rcases hcase with ⟨_, _, heq⟩ | ⟨_, _, _, heq⟩
    · rw [heq]
      exact ihp p
    · rw [heq]
      dsimp only
      rw [updTiles]
      by_cases hp : p = a.position
      · rw [if_pos hp, hp]
        dsimp only
        exact ihp a.position
      · rw [if_neg hp]
        exact ihp p

/-- Tile change at a continuing step: a cell's tile is unchanged unless the
step finalizes that cell, recording the popped entry's origin and cost. -/
theorem run_tiles_cases {view : BidiView T} {nb : BidiNeighbours}
    {cf : T → (Nat × Nat) → T → (Nat × Nat) → Option Nat}
    {hr : (Nat × Nat) → (Nat × Nat) → Nat} {dest : Option (Nat × Nat)}
    {s0 : PFState Nat} {k : Nat}
    (hk : ContinuesAt view nb cf hr dest s0 k) (p : Nat × Nat) :
    (runPF view nb cf hr dest s0 (k + 1)).tiles p =
      (runPF view nb cf hr dest s0 k).tiles p ∨
    ∃ a, finEntry view nb cf hr dest s0 k = some a ∧ a.position = p ∧
      (runPF view nb cf hr dest s0 (k + 1)).tiles p =
        ⟨some a.origin, some a.actual_cost,
          ((runPF view nb cf hr dest s0 k).tiles p).in_shortest_path⟩ := by
  obtain ⟨a, rest, hpop, hcase⟩ := run_step_cases hk
  rcases hcase with ⟨_, _, heq⟩ | ⟨_, hfin, _, heq⟩
  · left
    rw [heq]
  · by_cases hp : p = a.position
    · right
      refine ⟨a, hfin, hp.symm, ?_⟩
      rw [heq]
      dsimp only
      rw [updTiles, if_pos hp, hp]
    · left
      rw [heq]
      dsimp only
      rw [updTiles, if_neg hp]

/-- A step that finalizes no cell, or a different cell, leaves a tile
unchanged. -/
theorem run_tiles_unchanged {view : BidiView T} {nb : BidiNeighbours}
    {cf : T → (Nat × Nat) → T → (Nat × Nat) → Option Nat}
    {hr : (Nat × Nat) → (Nat × Nat) → Nat} {dest : Option (Nat × Nat)}
    {s0 : PFState Nat} {k : Nat}
    (hk : ContinuesAt view nb cf hr dest s0 k) {p : Nat × Nat}
    (hnf : finPos view nb cf hr dest s0 k ≠ some p) :
    (runPF view nb cf hr dest s0 (k + 1)).tiles p =
      (runPF view nb cf hr dest s0 k).tiles p := by
  rcases run_tiles_cases hk p with h | ⟨a, hfin, hap, _⟩
  · exact h
  · exfalso
    apply hnf
    rw [finPos, hfin]
    simp [hap]

/-- The tile finalized at a continuing step. -/
theorem run_tiles_fin {view : BidiView T} {nb : BidiNeighbours}
    {cf : T → (Nat × Nat) → T → (Nat × Nat) → Option Nat}
    {hr : (Nat × Nat) → (Nat × Nat) → Nat} {dest : Option (Nat × Nat)}
    {s0 : PFState Nat} {k : Nat}
    (hk : ContinuesAt view nb cf hr dest s0 k) {a : Adjacency Nat}
    (ha : finEntry view nb cf hr dest s0 k = some a) :
    (runPF view nb cf hr dest s0 (k + 1)).tiles a.position =
      ⟨some a.origin, some a.actual_cost,
        ((runPF view nb cf hr dest s0 k).tiles a.position).in_shortest_path⟩ := by
  obtain ⟨b, rest, hpop, hcase⟩ := run_step_cases hk
  rcases hcase with ⟨_, hnone, _⟩ | ⟨_, hfin, _, heq⟩
  · rw [ha] at hnone
    exact absurd hnone (by simp)
  · rw [ha] at hfin
    injection hfin with hab
    subst hab
    rw [heq]
    dsimp only
    rw [updTiles, if_pos rfl]

/-- A finalized entry was popped with the improvement test passing. -/
theorem finEntry_inv {view : BidiView T} {nb : BidiNeighbours}
    {cf : T → (Nat × Nat) → T → (Nat × Nat) → Option Nat}
    {hr : (Nat × Nat) → (Nat × Nat) → Nat} {dest : Option (Nat × Nat)}
    {s0 : PFState Nat} {k : Nat} {a : Adjacency Nat}
    (ha : finEntry view nb cf hr dest s0 k = some a) :
    ∃ rest,
      popMin natCostModel (runPF view nb cf hr dest s0 k).heap = some (a, rest) ∧
      improves natCostModel (runPF view nb cf hr dest s0 k) a = true := by
  rw [finEntry] at ha
  rcases hpop : popMin natCostModel (runPF view nb cf hr dest s0 k).heap with
    _ | ⟨b, rest⟩
  · rw [hpop] at ha
    exact absurd ha (by simp)
  · rw [hpop] at ha
    dsimp only at ha
    by_cases himp : improves natCostModel (runPF view nb cf hr dest s0 k) b = true
    · rw [if_pos himp] at ha
      injection ha with hba
      subst hba
      exact ⟨rest, rfl, himp⟩
    · rw [if_neg himp] at ha
      exact absurd ha (by simp)

/-- A finalization strictly improves the recorded cost of its cell. -/
theorem finEntry_improves {view : BidiView T} {nb : BidiNeighbours}
    {cf : T → (Nat × Nat) → T → (Nat × Nat) → Option Nat}
    {hr : (Nat × Nat) → (Nat × Nat) → Nat} {dest : Option (Nat × Nat)}
    {s0 : PFState Nat} {k : Nat} {a : Adjacency Nat}
    (ha : finEntry view nb cf hr dest s0 k = some a) {c : Nat}
    (hc : ((runPF view nb cf hr dest s0 k).tiles a.position).cost = some c) :
    a.actual_cost < c := by
  obtain ⟨rest, hpop, himp⟩ := finEntry_inv ha
  rcases improves_true_cases himp with h | ⟨r, hr0, hblt⟩
  · rw [h] at hc
    exact absurd hc (by simp)
  · rw [hr0] at hc
    injection hc with hc
    subst hc
    exact (natCostModel_blt _ _).mp hblt

/-- Recorded costs only decrease along the run. -/
theorem run_cost_mono {view : BidiView T} {nb : BidiNeighbours}
    {cf : T → (Nat × Nat) → T → (Nat × Nat) → Option Nat}
    {hr : (Nat × Nat) → (Nat × Nat) → Nat} {dest : Option (Nat × Nat)}
    {s0 : PFState Nat} :
    ∀ {k : Nat}, (∀ i, i < k → ContinuesAt view nb cf hr dest s0 i) →
      ∀ {j : Nat}, j ≤ k → ∀ {p : Nat × Nat} {c : Nat},
      ((runPF view nb cf hr dest s0 j).tiles p).cost = some c →
      ∃ c' ≤ c, ((runPF view nb cf hr dest s0 k).tiles p).cost = some c' := by
  intro k
  induction k with
  | zero =>
    intro _ j hj p c hc
    interval_cases j
    exact ⟨c, Nat.le_refl _, hc⟩
  | succ k ih =>
    intro hc j hj p c hrec
    rcases Nat.lt_or_ge j (k + 1) with hjk | hjk
    · obtain ⟨c', hc', hrec'⟩ := ih (fun i hi => hc i (Nat.lt_succ_of_lt hi))
        (Nat.lt_succ_iff.mp hjk) hrec
      rcases run_tiles_cases (hc k (Nat.lt_succ_self k)) p with h | ⟨a, ha, hap, h⟩
      · rw [h, hrec']
        exact ⟨c', hc', rfl⟩
      · have hlt : a.actual_cost < c' := by
          apply finEntry_improves ha
          rw [hap]
          exact hrec'
        rw [h]
        exact ⟨a.actual_cost, by omega, rfl⟩
    · have hjeq : j = k + 1 := Nat.le_antisymm hj hjk
      subst hjeq
      exact ⟨c, Nat.le_refl _, hrec⟩

/-- A recorded cell remains recorded along the run. -/
theorem run_recorded {view : BidiView T} {nb : BidiNeighbours}
    {cf : T → (Nat × Nat) → T → (Nat × Nat) → Option Nat}
    {hr : (Nat × Nat) → (Nat × Nat) → Nat} {dest : Option (Nat × Nat)}
    {s0 : PFState Nat} {k : Nat}
    (hc : ∀ i, i < k → ContinuesAt view nb cf hr dest s0 i)
    {j : Nat} (hj : j ≤ k) {p : Nat × Nat}
    (hrec : ((runPF view nb cf hr dest s0 j).tiles p).cost ≠ none) :
    ((runPF view nb cf hr dest s0 k).tiles p).cost ≠ none := by
  rcases hcost : ((runPF view nb cf hr dest s0 j).tiles p).cost with _ | c
  · exact absurd hcost hrec
  · obtain ⟨c', _, hrec'⟩ := run_cost_mono hc hj hcost
    rw [hrec']
    simp

/-- With no finalization of p in [j, k), the tile of p is unchanged. -/
theorem run_tiles_const {view : BidiView T} {nb : BidiNeighbours}
    {cf : T → (Nat × Nat) → T → (Nat × Nat) → Option Nat}
    {hr : (Nat × Nat) → (Nat × Nat) → Nat} {dest : Option (Nat × Nat)}
    {s0 : PFState Nat} {p : Nat × Nat} :
    ∀ {k j : Nat}, j ≤ k →
      (∀ i, j ≤ i → i < k → ContinuesAt view nb cf hr dest s0 i ∧
        finPos view nb cf hr dest s0 i ≠ some p) →
      (runPF view nb cf hr dest s0 k).tiles p =
        (runPF view nb cf hr dest s0 j).tiles p := by
  intro k
  induction k with
  | zero =>
    intro j hj _
    interval_cases j
    rfl
  | succ k ih =>
    intro j hj hcon
    rcases Nat.lt_or_ge j (k + 1) with hjk | hjk
    · have hjk' : j ≤ k := Nat.lt_succ_iff.mp hjk
      obtain ⟨hck, hnp⟩ := hcon k hjk' (Nat.lt_succ_self k)
      rw [run_tiles_unchanged hck hnp]
      exact ih hjk' (fun i hi1 hi2 => hcon i hi1 (Nat.lt_succ_of_lt hi2))
    · have hjeq : j = k + 1 := Nat.le_antisymm hj hjk
      subst hjeq
      rfl

/-- Heap evolution: every entry of the rest after a pop survives a
continuing step. -/
theorem run_heap_rest {view : BidiView T} {nb : BidiNeighbours}
    {cf : T → (Nat × Nat) → T → (Nat × Nat) → Option Nat}
    {hr : (Nat × Nat) → (Nat × Nat) → Nat} {dest : Option (Nat × Nat)}
    {s0 : PFState Nat} {k : Nat}
    (hk : ContinuesAt view nb cf hr dest s0 k) {a : Adjacency Nat}
    {rest : List (Adjacency Nat)}
    (hpop : popMin natCostModel (runPF view nb cf hr dest s0 k).heap =
      some (a, rest)) :
    ∀ e ∈ rest, e ∈ (runPF view nb cf hr dest s0 (k + 1)).heap := by
  intro e he
  obtain ⟨a', rest', hpop', hcase⟩ := run_step_cases hk
  rw [hpop] at hpop'
  injection hpop' with hpr
  cases hpr
  rcases hcase with ⟨_, _, heq⟩ | ⟨_, _, _, heq⟩
  · rw [heq]
    exact he
  · rw [heq]
    dsimp only
    rw [mem_foldl_cons]
    right
    exact he

/-- An unpopped heap entry survives a continuing step. -/
theorem run_heap_keep {view : BidiView T} {nb : BidiNeighbours}
    {cf : T → (Nat × Nat) → T → (Nat × Nat) → Option Nat}
    {hr : (Nat × Nat) → (Nat × Nat) → Nat} {dest : Option (Nat × Nat)}
    {s0 : PFState Nat} {k : Nat}
    (hk : ContinuesAt view nb cf hr dest s0 k) {a : Adjacency Nat}
    {rest : List (Adjacency Nat)}
    (hpop : popMin natCostModel (runPF view nb cf hr dest s0 k).heap =
      some (a, rest))
    {e : Adjacency Nat} (he : e ∈ (runPF view nb cf hr dest s0 k).heap)
    (hne : e ≠ a) : e ∈ (runPF view nb cf hr dest s0 (k + 1)).heap := by
  have hperm := popMin_perm natCostModel _ a rest hpop
  have he' : e ∈ a :: rest := hperm.mem_iff.mp he
  rcases List.mem_cons.mp he' with h | h
  · exact absurd h hne
  · exact run_heap_rest hk hpop e h

/-- Heap provenance over one continuing step: an entry of the next heap was
already present or was pushed by the expansion of that step. -/
theorem run_heap_from {view : BidiView T} {nb : BidiNeighbours}
    {cf : T → (Nat × Nat) → T → (Nat × Nat) → Option Nat}
    {hr : (Nat × Nat) → (Nat × Nat) → Nat} {dest : Option (Nat × Nat)}
    {s0 : PFState Nat} {k : Nat}
    (hk : ContinuesAt view nb cf hr dest s0 k) {e : Adjacency Nat}
    (he : e ∈ (runPF view nb cf hr dest s0 (k + 1)).heap) :
    e ∈ (runPF view nb cf hr dest s0 k).heap ∨
    ∃ a, finEntry view nb cf hr dest s0 k = some a ∧
      e ∈ expandEntries natCostModel view nb cf hr dest
        (updTiles (runPF view nb cf hr dest s0 k) a) a.position
        a.actual_cost := by
  obtain ⟨a, rest, hpop, hcase⟩ := run_step_cases hk
  have hrest : ∀ x ∈ rest, x ∈ (runPF view nb cf hr dest s0 k).heap :=
    fun x hx => popMin_rest_mem natCostModel _ a rest hpop x hx
  rcases hcase with ⟨_, _, heq⟩ | ⟨_, hfin, _, heq⟩
  · rw [heq] at he
    exact Or.inl (hrest e he)
  · rw [heq] at he
    dsimp only at he
    rw [mem_foldl_cons] at he
    rcases he with he | he
    · exact Or.inr ⟨a, hfin, he⟩
    · exact Or.inl (hrest e he)

/-- Heap provenance along the run: an entry present at step k was present
from the beginning, or was pushed at some earlier step and stayed in the
heap ever since. -/
theorem run_heap_provenance {view : BidiView T} {nb : BidiNeighbours}
    {cf : T → (Nat × Nat) → T → (Nat × Nat) → Option Nat}
    {hr : (Nat × Nat) → (Nat × Nat) → Nat} {dest : Option (Nat × Nat)}
    {s0 : PFState Nat} :
    ∀ {k : Nat}, (∀ j, j < k → ContinuesAt view nb cf hr dest s0 j) →
      ∀ {e : Adjacency Nat}, e ∈ (runPF view nb cf hr dest s0 k).heap →
      (∀ j, j ≤ k → e ∈ (runPF view nb cf hr dest s0 j).heap) ∨
      ∃ ρ, ρ < k ∧
        (∃ a, finEntry view nb cf hr dest s0 ρ = some a ∧
          e ∈ expandEntries natCostModel view nb cf hr dest
            (updTiles (runPF view nb cf hr dest s0 ρ) a) a.position
            a.actual_cost) ∧
        ∀ j, ρ < j → j ≤ k → e ∈ (runPF view nb cf hr dest s0 j).heap := by
  intro k
  induction k with
  | zero =>
    intro _ e he
    left
    intro j hj
    interval_cases j
    exact he
  | succ k ih =>
    intro hc e he
    rcases run_heap_from (hc k (Nat.lt_succ_self k)) he with hprev | ⟨a, hfin, hexp⟩
    · rcases ih (fun j hj => hc j (Nat.lt_succ_of_lt hj)) hprev with hall | hp
      · left
        intro j hj
        rcases Nat.lt_or_ge j (k + 1) with h | h
        · exact hall j (Nat.lt_succ_iff.mp h)
        · have : j = k + 1 := Nat.le_antisymm hj h
          subst this
          exact he
      · obtain ⟨ρ, hρ, hpush, hpend⟩ := hp
        right
        refine ⟨ρ, Nat.lt_succ_of_lt hρ, hpush, ?_⟩
        intro j hj1 hj2
        rcases Nat.lt_or_ge j (k + 1) with h | h
        · exact hpend j hj1 (Nat.lt_succ_iff.mp h)
        · have : j = k + 1 := Nat.le_antisymm hj2 h
          subst this
          exact he
    · right
      refine ⟨k, Nat.lt_succ_self k, ⟨a, hfin, hexp⟩, ?_⟩
      intro j hj1 hj2
      have : j = k + 1 := Nat.le_antisymm hj2 hj1
      subst this
      exact he

/-- The run, shifted by one step from a continued initial state. -/
theorem runPF_shift {view : BidiView T} {nb : BidiNeighbours}
    {cf : T → (Nat × Nat) → T → (Nat × Nat) → Option Nat}
    {hr : (Nat × Nat) → (Nat × Nat) → Nat} {dest : Option (Nat × Nat)}
    {s0 : PFState Nat} :
    ∀ (j : Nat),
      runPF view nb cf hr dest (stepTot view nb cf hr dest s0) j =
        runPF view nb cf hr dest s0 (j + 1) := by
  intro j
  induction j with
  | zero => rfl
  | succ j ih =>
    rw [runPF_succ, ih]
    rfl

/-- A run that terminates at step N determines the value of the fueled
loop for any larger fuel. -/
theorem run_term_loop {view : BidiView T} {nb : BidiNeighbours}
    {cf : T → (Nat × Nat) → T → (Nat × Nat) → Option Nat}
    {hr : (Nat × Nat) → (Nat × Nat) → Nat} {dest : Option (Nat × Nat)} :
    ∀ {N : Nat} {s0 final : PFState Nat} {fuel : Nat},
      (∀ j, j < N → ContinuesAt view nb cf hr dest s0 j) →
      pathfindStep natCostModel view nb cf hr dest
        (runPF view nb cf hr dest s0 N) = Sum.inl final →
      N < fuel →
      pathfindLoop natCostModel view nb cf hr dest fuel s0 = final := by
  intro N
  induction N with
  | zero =>
    intro s0 final fuel _ hterm hfuel
    rcases fuel with _ | fuel
    · omega
    · have h0 : runPF view nb cf hr dest s0 0 = s0 := rfl
      rw [h0] at hterm
      rw [pathfindLoop, hterm]
  | succ N ih =>
    intro s0 final fuel hc hterm hfuel
    rcases fuel with _ | fuel
    · omega
    · obtain ⟨s', hs'⟩ := hc 0 (Nat.succ_pos N)
      have h0 : runPF view nb cf hr dest s0 0 = s0 := rfl
      rw [h0] at hs'
      rw [pathfindLoop, hs']
      have hshift : ∀ j, runPF view nb cf hr dest s' j =
          runPF view nb cf hr dest s0 (j + 1) := by
        intro j
        rw [← stepTot_inr hs', runPF_shift]
      apply ih
      · intro j hj
        rw [ContinuesAt, hshift]
        exact hc (j + 1) (Nat.succ_lt_succ hj)
      · rw [hshift]
        exact hterm
      · omega

/-- With a concrete destination, the destination cell is never recorded by
continuing steps. -/
theorem run_dest_unrec {view : BidiView T} {nb : BidiNeighbours}
    {cf : T → (Nat × Nat) → T → (Nat × Nat) → Option Nat}
    {hr : (Nat × Nat) → (Nat × Nat) → Nat} {d : Nat × Nat}
    {s0 : PFState Nat} (hs0 : ((s0.tiles d)).cost = none) :
    ∀ {k : Nat}, (∀ j, j < k → ContinuesAt view nb cf hr (some d) s0 j) →
      ((runPF view nb cf hr (some d) s0 k).tiles d).cost = none := by
  intro k
  induction k with
  | zero => intro _; exact hs0
  | succ k ih =>
    intro hc
    have ihd := ih (fun j hj => hc j (Nat.lt_succ_of_lt hj))
    obtain ⟨a, rest, hpop, hcase⟩ := run_step_cases (hc k (Nat.lt_succ_self k))
    rcases hcase with ⟨_, _, heq⟩ | ⟨_, _, hdne, heq⟩
    · rw [heq]
      exact ihd
    · rw [heq]
      dsimp only
      rw [updTiles, if_neg (fun h => hdne (by rw [h]))]
      exact ihd

/-- The soundness invariant holds along the whole run from the initial
state. -/
theorem run_asound {view : BidiView T} {nb : BidiNeighbours}
    {cf : T → (Nat × Nat) → T → (Nat × Nat) → Option Nat}
    {hr : (Nat × Nat) → (Nat × Nat) → Nat} {start d : Nat × Nat}
    (hsB : start.1 < view.width ∧ start.2 < view.height) :
    ∀ {k : Nat},
      (∀ j, j < k → ContinuesAt view nb cf hr (some d) (initPF start) j) →
      ASound view nb cf hr start d
        (runPF view nb cf hr (some d) (initPF start) k) := by
  intro k
  induction k with
  | zero => intro _; exact asound_init view nb cf hr start d hsB
  | succ k ih =>
    intro hc
    have ihs := ih (fun j hj => hc j (Nat.lt_succ_of_lt hj))
    obtain ⟨a, rest, hpop, hcase⟩ := run_step_cases (hc k (Nat.lt_succ_self k))
    rcases hcase with ⟨_, _, heq⟩ | ⟨_, _, hdne, heq⟩
    · rw [heq]
      exact asound_discard ihs hpop
    · rw [heq]
      exact asound_expand ihs hpop (fun h => hdne (by rw [h]))

/-- The chain of recorded origins in a tile table, from an endpoint. -/
def origChain (tiles : (Nat × Nat) → PathFindDataTile Nat)
    (dflt p : Nat × Nat) : Nat → (Nat × Nat)
  | 0 => p
  | i + 1 => ((tiles (origChain tiles dflt p i)).origin).getD dflt

/-- The tile table at the end of a single-destination search that pops the
entry ed at its final step. -/
def finalTiles (view : BidiView T) (nb : BidiNeighbours)
    (cf : T → (Nat × Nat) → T → (Nat × Nat) → Option Nat)
    (hr : (Nat × Nat) → (Nat × Nat) → Nat) (start d : Nat × Nat) (N : Nat)
    (ed : Adjacency Nat) : (Nat × Nat) → PathFindDataTile Nat :=
  updTiles (runPF view nb cf hr (some d) (initPF start) N) ed

/-- The i-th cell of the final predecessor chain from the destination. -/
def chainCell (view : BidiView T) (nb : BidiNeighbours)
    (cf : T → (Nat × Nat) → T → (Nat × Nat) → Option Nat)
    (hr : (Nat × Nat) → (Nat × Nat) → Nat) (start d : Nat × Nat) (N : Nat)
    (ed : Adjacency Nat) (i : Nat) : Nat × Nat :=
  origChain (finalTiles view nb cf hr start d N ed) start d i

/-- The step index of the last finalization of the i-th chain cell. -/
def FIdx (view : BidiView T) (nb : BidiNeighbours)
    (cf : T → (Nat × Nat) → T → (Nat × Nat) → Option Nat)
    (hr : (Nat × Nat) → (Nat × Nat) → Nat) (start d : Nat × Nat) (N : Nat)
    (ed : Adjacency Nat) (i : Nat) : Nat :=
  Nat.findGreatest
    (fun j => finPos view nb cf hr (some d) (initPF start) j =
      some (chainCell view nb cf hr start d N ed i)) N

/-- The entry whose pop last finalized the i-th chain cell. -/
def fCE (view : BidiView T) (nb : BidiNeighbours)
    (cf : T → (Nat × Nat) → T → (Nat × Nat) → Option Nat)
    (hr : (Nat × Nat) → (Nat × Nat) → Nat) (start d : Nat × Nat) (N : Nat)
    (ed : Adjacency Nat) (i : Nat) : Adjacency Nat :=
  (finEntry view nb cf hr (some d) (initPF start)
    (FIdx view nb cf hr start d N ed i)).getD ⟨0, 0, start, start⟩

/-- A terminating run of the single-destination search from the seeded
initial state: every step before N continues the loop, and step N pops the
entry ed, which improves the destination cell. -/
structure TermRun (view : BidiView T) (nb : BidiNeighbours)
    (cf : T → (Nat × Nat) → T → (Nat × Nat) → Option Nat)
    (hr : (Nat × Nat) → (Nat × Nat) → Nat) (start d : Nat × Nat) (N : Nat)
    (ed : Adjacency Nat) : Prop where
  startB : start.1 < view.width ∧ start.2 < view.height
  cont : ∀ j, j < N → ContinuesAt view nb cf hr (some d) (initPF start) j
  finN : finEntry view nb cf hr (some d) (initPF start) N = some ed
  posN : ed.position = d

/-- The level-i data of the final chain: the i-th cell was last finalized
at step FIdx i by the entry fCE i, whose origin and cost its tile keeps to
the end of the run. -/
def NodeOK (view : BidiView T) (nb : BidiNeighbours)
    (cf : T → (Nat × Nat) → T → (Nat × Nat) → Option Nat)
    (hr : (Nat × Nat) → (Nat × Nat) → Nat) (start d : Nat × Nat) (N : Nat)
    (ed : Adjacency Nat) (i : Nat) : Prop :=
  finEntry view nb cf hr (some d) (initPF start)
      (FIdx view nb cf hr start d N ed i) =
    some (fCE view nb cf hr start d N ed i) ∧
  (fCE view nb cf hr start d N ed i).position =
    chainCell view nb cf hr start d N ed i ∧
  FIdx view nb cf hr start d N ed i ≤ N ∧
  ∀ k, FIdx view nb cf hr start d N ed i < k → k ≤ N →
    (runPF view nb cf hr (some d) (initPF start) k).tiles
        (chainCell view nb cf hr start d N ed i) =
      ⟨some (fCE view nb cf hr start d N ed i).origin,
        some (fCE view nb cf hr start d N ed i).actual_cost, false⟩

/-- The level-i link of the final chain: the entry fCE i was pushed at the
last finalization of the next chain cell, carrying its recorded cost plus
the exact edge cost, and stayed in the heap until its own pop. -/
def LinkOK (view : BidiView T) (nb : BidiNeighbours)
    (cf : T → (Nat × Nat) → T → (Nat × Nat) → Option Nat)
    (hr : (Nat × Nat) → (Nat × Nat) → Nat) (start d : Nat × Nat) (N : Nat)
    (ed : Adjacency Nat) (i : Nat) : Prop :=
  FIdx view nb cf hr start d N ed (i + 1) < FIdx view nb cf hr start d N ed i ∧
  chainCell view nb cf hr start d N ed (i + 1) =
    (fCE view nb cf hr start d N ed i).origin ∧
  chainCell view nb cf hr start d N ed i ∈
    nb.generate_points_on (chainCell view nb cf hr start d N ed (i + 1))
      view.width view.height ∧
  (∃ w, edgeCostN view cf (chainCell view nb cf hr start d N ed (i + 1))
      (chainCell view nb cf hr start d N ed i) = some w ∧
    (fCE view nb cf hr start d N ed i).actual_cost =
      (fCE view nb cf hr start d N ed (i + 1)).actual_cost + w) ∧
  (fCE view nb cf hr start d N ed i).estimated_cost =
    (fCE view nb cf hr start d N ed i).actual_cost +
      hr (chainCell view nb cf hr start d N ed i) d ∧
  ∀ k, FIdx view nb cf hr start d N ed (i + 1) < k →
    k ≤ FIdx view nb cf hr start d N ed i →
    fCE view nb cf hr start d N ed i ∈
      (runPF view nb cf hr (some d) (initPF start) k).heap

/-- Interval location in a strictly descending sequence of step indices. -/
theorem desc_tiling (f : Nat → Nat) :
    ∀ (i : Nat), (∀ j, j < i → f (j + 1) < f j) →
      ∀ σ, f i < σ → σ ≤ f 0 → ∃ j, j < i ∧ f (j + 1) < σ ∧ σ ≤ f j := by
  intro i
  induction i with
  | zero =>
    intro _ σ h1 h2
    omega
  | succ i ih =>
    intro hdec σ h1 h2
    by_cases hσ : f i < σ
    · obtain ⟨j, hj, hj1, hj2⟩ := ih (fun j hj => hdec j (Nat.lt_succ_of_lt hj))
        σ hσ h2
      exact ⟨j, Nat.lt_succ_of_lt hj, hj1, hj2⟩
    · exact ⟨i, Nat.lt_succ_self i, h1, Nat.le_of_not_lt hσ⟩

/-- Chain entries carry at least the accumulated cost of the deepest
established level. -/
theorem chain_actual_le {view : BidiView T} {nb : BidiNeighbours}
    {cf : T → (Nat × Nat) → T → (Nat × Nat) → Option Nat}
    {hr : (Nat × Nat) → (Nat × Nat) → Nat} {start d : Nat × Nat} {N : Nat}
    {ed : Adjacency Nat} {i : Nat}
    (hlinks : ∀ j, j < i → LinkOK view nb cf hr start d N ed j) :
    ∀ j, j ≤ i →
      (fCE view nb cf hr start d N ed i).actual_cost ≤
        (fCE view nb cf hr start d N ed j).actual_cost := by
  intro j hj
  induction i with
  | zero =>
    interval_cases j
    exact Nat.le_refl _
  | succ i ih =>
    rcases Nat.lt_or_ge j (i + 1) with hji | hji
    · obtain ⟨_, _, _, ⟨w, _, hsum⟩, _, _⟩ := hlinks i (Nat.lt_succ_self i)
      have h1 := ih (fun j' hj' => hlinks j' (Nat.lt_succ_of_lt hj'))
        (Nat.lt_succ_iff.mp hji)
      omega
    · have : j = i + 1 := Nat.le_antisymm hj hji
      subst this
      exact Nat.le_refl _

/-- The first step at which a given cell is finalized strictly after a
given step, when one exists. -/
theorem first_fin_after {view : BidiView T} {nb : BidiNeighbours}
    {cf : T → (Nat × Nat) → T → (Nat × Nat) → Option Nat}
    {hr : (Nat × Nat) → (Nat × Nat) → Nat} {dest : Option (Nat × Nat)}
    {s0 : PFState Nat} {p : Nat × Nat} {lo hi : Nat}
    (h : ∃ k, lo < k ∧ k ≤ hi ∧ finPos view nb cf hr dest s0 k = some p) :
    ∃ t, (lo < t ∧ t ≤ hi ∧ finPos view nb cf hr dest s0 t = some p) ∧
      ∀ k, lo < k → k < t → finPos view nb cf hr dest s0 k ≠ some p := by
  obtain ⟨t, ⟨ht1, ht2, ht3⟩, hleast⟩ := nat_exists_least h
  refine ⟨t, ⟨ht1, ht2, ht3⟩, ?_⟩
  intro k hk1 hk2 hk3
  have := hleast k ⟨hk1, by omega, hk3⟩
  omega

/-- A cell recorded at some step of the run was finalized at an earlier
step. -/
theorem run_rec_fin {view : BidiView T} {nb : BidiNeighbours}
    {cf : T → (Nat × Nat) → T → (Nat × Nat) → Option Nat}
    {hr : (Nat × Nat) → (Nat × Nat) → Nat} {dest : Option (Nat × Nat)}
    {start : Nat × Nat} :
    ∀ {k : Nat},
      (∀ j, j < k → ContinuesAt view nb cf hr dest (initPF start) j) →
      ∀ {p : Nat × Nat},
      ((runPF view nb cf hr dest (initPF start) k).tiles p).cost ≠ none →
      ∃ j, j < k ∧ finPos view nb cf hr dest (initPF start) j = some p := by
  intro k
  induction k with
  | zero =>
    intro _ p hp
    exact absurd rfl hp
  | succ k ih =>
    intro hc p hp
    rcases run_tiles_cases (hc k (Nat.lt_succ_self k)) p with h | ⟨a, ha, hap, _⟩
    · rw [h] at hp
      obtain ⟨j, hj, hfin⟩ := ih (fun j hj => hc j (Nat.lt_succ_of_lt hj)) hp
      exact ⟨j, Nat.lt_succ_of_lt hj, hfin⟩
    · refine ⟨k, Nat.lt_succ_self k, ?_⟩
      rw [finPos, ha]
      simp [hap]

/-- The entry popped at a step is unique. -/
theorem finEntry_unique {view : BidiView T} {nb : BidiNeighbours}
    {cf : T → (Nat × Nat) → T → (Nat × Nat) → Option Nat}
    {hr : (Nat × Nat) → (Nat × Nat) → Nat} {dest : Option (Nat × Nat)}
    {s0 : PFState Nat} {k : Nat} {a b : Adjacency Nat}
    (ha : finEntry view nb cf hr dest s0 k = some a)
    (hb : finEntry view nb cf hr dest s0 k = some b) : a = b := by
  rw [ha] at hb
  injection hb

/-- The estimated cost of every pushed entry adds the heuristic of its cell
to its accumulated cost. -/
theorem expand_est {view : BidiView T} {nb : BidiNeighbours}
    {cf : T → (Nat × Nat) → T → (Nat × Nat) → Option Nat}
    {hr : (Nat × Nat) → (Nat × Nat) → Nat} {d : Nat × Nat}
    {tiles : (Nat × Nat) → PathFindDataTile Nat} {pos : Nat × Nat} {cur : Nat}
    {e : Adjacency Nat}
    (he : e ∈ expandEntries natCostModel view nb cf hr (some d) tiles pos cur) :
    e.estimated_cost = e.actual_cost + hr e.position d := by
  obtain ⟨n, _, c, _, _, he⟩ :=
    (mem_expand_nat view nb cf hr d tiles pos cur e).mp he
  rw [he]

/-- The last finalizing entry of a non-start cell was pushed at an earlier
finalization of its origin cell, with the exact edge cost added, and stayed
in the heap until its own pop. -/
theorem link_push {view : BidiView T} {nb : BidiNeighbours}
    {cf : T → (Nat × Nat) → T → (Nat × Nat) → Option Nat}
    {hr : (Nat × Nat) → (Nat × Nat) → Nat} {start d : Nat × Nat} {N : Nat}
    {ed : Adjacency Nat} (htr : TermRun view nb cf hr start d N ed)
    {Fi : Nat} {fu : Adjacency Nat} (hFiN : Fi ≤ N)
    (hfin : finEntry view nb cf hr (some d) (initPF start) Fi = some fu)
    (hns : fu.position ≠ start) :
    ∃ Q b w, Q < Fi ∧
      finEntry view nb cf hr (some d) (initPF start) Q = some b ∧
      b.position = fu.origin ∧
      fu.position ∈ nb.generate_points_on fu.origin view.width view.height ∧
      edgeCostN view cf fu.origin fu.position = some w ∧
      fu.actual_cost = b.actual_cost + w ∧
      fu.estimated_cost = fu.actual_cost + hr fu.position d ∧
      ∀ k, Q < k → k ≤ Fi →
        fu ∈ (runPF view nb cf hr (some d) (initPF start) k).heap := by
  obtain ⟨rest, hpop, himp⟩ := finEntry_inv hfin
  have hmem : fu ∈ (runPF view nb cf hr (some d) (initPF start) Fi).heap :=
    popMin_mem natCostModel _ fu rest hpop
  have hcont' : ∀ j, j < Fi → ContinuesAt view nb cf hr (some d) (initPF start) j :=
    fun j hj => htr.cont j (Nat.lt_of_lt_of_le hj hFiN)
  rcases run_heap_provenance hcont' hmem with hall | ⟨ρ, hρ, ⟨b, hfinb, hexp⟩, hpend⟩
  · have h0 := hall 0 (Nat.zero_le _)
    have hfu : fu = ⟨0, 0, start, start⟩ := by
      have hh : (runPF view nb cf hr (some d) (initPF start) 0).heap =
          [(⟨0, 0, start, start⟩ : Adjacency Nat)] := rfl
      rw [hh] at h0
      exact List.mem_singleton.mp h0
    exact absurd (by rw [hfu]) hns
  · rw [mem_expand_nat] at hexp
    obtain ⟨n, hgen, c, hedge, hfil, hfu⟩ := hexp
    have hpos : fu.position = n := by rw [hfu]
    have horig : fu.origin = b.position := by rw [hfu]
    refine ⟨ρ, b, c, hρ, hfinb, horig.symm, ?_, ?_, ?_, ?_, hpend⟩
    · rw [hpos, horig]
      exact hgen
    · rw [hpos, horig]
      exact hedge
    · rw [hfu]
    · rw [hfu]

/-- Core refutation: the origin cell of the last finalizing entry of a
chain cell is never finalized again between that entry's push and the end
of the run. The hypotheses describe the already-established chain levels
above the current one (strictly descending finalization steps, pops,
pendency intervals, cost ordering), the push data of the current level's
entry, and a hypothetical first re-finalization of the origin at step t;
the conclusion is absurdity. -/
theorem link_no_refin {view : BidiView T} {nb : BidiNeighbours}
    {cf : T → (Nat × Nat) → T → (Nat × Nat) → Option Nat}
    {hr : (Nat × Nat) → (Nat × Nat) → Nat} {start d : Nat × Nat} {N : Nat}
    {ed : Adjacency Nat} (htr : TermRun view nb cf hr start d N ed)
    (F : Nat → Nat) (fc : Nat → Adjacency Nat) (i : Nat)
    (hF0 : F 0 = N)
    (hFdec : ∀ j, j < i → F (j + 1) < F j)
    (hFN : ∀ j, j ≤ i → F j ≤ N)
    (hfins : ∀ j, j ≤ i →
      finEntry view nb cf hr (some d) (initPF start) (F j) = some (fc j))
    (hpendc : ∀ j, j < i → ∀ k, F (j + 1) < k → k ≤ F j →
      fc j ∈ (runPF view nb cf hr (some d) (initPF start) k).heap)
    (hCD : ∀ j, j ≤ i → (fc i).actual_cost ≤ (fc j).actual_cost)
    (htileu : ∀ k, F i < k → k ≤ N →
      (runPF view nb cf hr (some d) (initPF start) k).tiles (fc i).position =
        ⟨some (fc i).origin, some (fc i).actual_cost, false⟩)
    {Q : Nat} {b : Adjacency Nat} {w : Nat}
    (hQ : Q < F i)
    (hfinQ : finEntry view nb cf hr (some d) (initPF start) Q = some b)
    (hbpos : b.position = (fc i).origin)
    (hgen : (fc i).position ∈
      nb.generate_points_on (fc i).origin view.width view.height)
    (hedge : edgeCostN view cf (fc i).origin (fc i).position = some w)
    (hsum : (fc i).actual_cost = b.actual_cost + w)
    (hestu : (fc i).estimated_cost =
      (fc i).actual_cost + hr (fc i).position d)
    {t : Nat} (ht1 : Q < t) (ht2 : t ≤ N)
    (hfint : finPos view nb cf hr (some d) (initPF start) t =
      some (fc i).origin)
    (htleast : ∀ k, Q < k → k < t →
      finPos view nb cf hr (some d) (initPF start) k ≠ some (fc i).origin) :
    False := by
  have hQN : Q < N := by
    have := hFN i (Nat.le_refl i)
    omega
  have hFiN : F i ≤ N := hFN i (Nat.le_refl i)
  have hcA : ∀ M : Nat, M ≤ N → ∀ j, j < M →
      ContinuesAt view nb cf hr (some d) (initPF start) j :=
    fun M hM j hj => htr.cont j (by omega)
  -- the popped entry at step t
  obtain ⟨qs, hfinqs, hqspos⟩ :
      ∃ qs, finEntry view nb cf hr (some d) (initPF start) t = some qs ∧
        qs.position = (fc i).origin := by
    rw [finPos] at hfint
    rcases hq : finEntry view nb cf hr (some d) (initPF start) t with _ | qs
    · rw [hq] at hfint
      exact absurd hfint (by simp)
    · rw [hq] at hfint
      refine ⟨qs, rfl, ?_⟩
      simpa using hfint
  -- the recorded value of the origin cell on (Q, t]
  have hQcont : ContinuesAt view nb cf hr (some d) (initPF start) Q :=
    htr.cont Q hQN
  have hbtile := run_tiles_fin hQcont hfinQ
  have hfl : ((runPF view nb cf hr (some d) (initPF start) Q).tiles
      b.position).in_shortest_path = false :=
    run_flag (hcA Q (by omega)) b.position
  have hvconst : ∀ k, Q < k → k ≤ t →
      (runPF view nb cf hr (some d) (initPF start) k).tiles b.position =
        ⟨some b.origin, some b.actual_cost, false⟩ := by
    intro k hk1 hk2
    have hstep : (runPF view nb cf hr (some d) (initPF start) k).tiles
        b.position =
        (runPF view nb cf hr (some d) (initPF start) (Q + 1)).tiles
          b.position := by
      apply run_tiles_const (Nat.succ_le_of_lt hk1)
      intro j hj1 hj2
      constructor
      · exact hcA N (Nat.le_refl N) j (by omega)
      · rw [hbpos]
        exact htleast j (by omega) (by omega)
    rw [hstep, hbtile, hfl]
  have hvrec : ((runPF view nb cf hr (some d) (initPF start) t).tiles
      b.position).cost = some b.actual_cost := by
    rw [hvconst t ht1 (Nat.le_refl t)]
  have hqslt : qs.actual_cost < b.actual_cost := by
    apply finEntry_improves hfinqs
    rw [hqspos, ← hbpos]
    exact hvrec
  -- the chain cell and its origin are distinct
  have hvB : (fc i).origin.1 < view.width ∧ (fc i).origin.2 < view.height := by
    obtain ⟨restb, hpopb, _⟩ := finEntry_inv hfinQ
    have hsnd := run_asound htr.startB (hcA Q (by omega))
    have hb := hsnd.heap_inB b (popMin_mem natCostModel _ b restb hpopb)
    rw [← hbpos]
    exact hb
  have hune : (fc i).position ≠ (fc i).origin := mem_generate_ne hvB hgen
  have htne : t ≠ F i := by
    intro he
    rw [he] at hfinqs
    have hq := finEntry_unique hfinqs (hfins i (Nat.le_refl i))
    rw [hq] at hqspos
    exact hune hqspos
  rcases Nat.lt_or_ge t (F i) with htlt | htge
  -- ===== Case A: the origin is re-finalized before the pop of fc i =====
  · have htcont : ContinuesAt view nb cf hr (some d) (initPF start) t :=
      htr.cont t (by omega)
    obtain ⟨a0, rest0, hpop0, hcase0⟩ := run_step_cases htcont
    have ha0 : a0 = qs := by
      obtain ⟨rest', hpop', _⟩ := finEntry_inv hfinqs
      rw [hpop0] at hpop'
      injection hpop' with hpr
      exact congrArg Prod.fst hpr
    rcases hcase0 with ⟨himpf, _, _⟩ | ⟨himpt, hfe, hdne, heq⟩
    · obtain ⟨_, _, himp'⟩ := finEntry_inv hfinqs
      rw [ha0] at himpf
      rw [himpf] at himp'
      simp at himp'
    · obtain ⟨E, hEdef⟩ : ∃ E : Adjacency Nat,
          E = ⟨qs.actual_cost + w + hr (fc i).position d, qs.actual_cost + w,
            (fc i).position, (fc i).origin⟩ := ⟨_, rfl⟩
      have hEpos : E.position = (fc i).position := by rw [hEdef]
      have hEact : E.actual_cost = qs.actual_cost + w := by rw [hEdef]
      have hEest : E.estimated_cost =
          qs.actual_cost + w + hr (fc i).position d := by rw [hEdef]
      have hEmem : E ∈ expandEntries natCostModel view nb cf hr (some d)
          (updTiles (runPF view nb cf hr (some d) (initPF start) t) qs)
          qs.position qs.actual_cost := by
        rw [mem_expand_nat]
        refine ⟨(fc i).position, ?_, w, ?_, ?_, ?_⟩
        · rw [hqspos]
          exact hgen
        · rw [hqspos]
          exact hedge
        · have hne' : (fc i).position ≠ qs.position := by
            rw [hqspos]
            exact hune
          rw [updTiles, if_neg hne']
          rcases hrec : ((runPF view nb cf hr (some d) (initPF start) t).tiles
              (fc i).position).cost with _ | r
          · trivial
          · show w < r
            obtain ⟨r', hrle, hrecF⟩ := run_cost_mono
              (hcA (F i) hFiN) (Nat.le_of_lt htlt) hrec
            have hlt := finEntry_improves (hfins i (Nat.le_refl i)) hrecF
            omega
        · rw [hEdef, hqspos]
      have hEheap : E ∈ (runPF view nb cf hr (some d) (initPF start)
          (t + 1)).heap := by
        rw [ha0] at heq
        rw [heq]
        dsimp only
        rw [mem_foldl_cons]
        exact Or.inl hEmem
      have hfate : ∀ k, t < k → k ≤ F i →
          E ∈ (runPF view nb cf hr (some d) (initPF start) k).heap ∨
          ∃ r, r ≤ E.actual_cost ∧
            ((runPF view nb cf hr (some d) (initPF start) k).tiles
              (fc i).position).cost = some r := by
        intro k
        induction k with
        | zero => intro h1 _; omega
        | succ k ih =>
          intro hk1 hk2
          rcases Nat.lt_or_ge t k with hk | hk
          · have hkcont : ContinuesAt view nb cf hr (some d) (initPF start) k :=
              htr.cont k (by omega)
            rcases ih hk (by omega) with hheap | ⟨r, hrle, hrrec⟩
            · obtain ⟨x, restx, hpopx, hcasex⟩ := run_step_cases hkcont
              by_cases hxE : x = E
              · subst hxE
                rcases hcasex with ⟨himpf, _, heqk⟩ | ⟨himpt', hfek, _, _⟩
                · obtain ⟨r0, hrec0, hble⟩ := improves_false_cases himpf
                  right
                  refine ⟨r0, ?_, ?_⟩
                  · rw [natCostModel_blt_false] at hble
                    exact hble
                  · rw [heqk]
                    dsimp only
                    rw [← hEpos]
                    exact hrec0
                · right
                  have htl := run_tiles_fin hkcont hfek
                  refine ⟨x.actual_cost, Nat.le_refl _, ?_⟩
                  rw [← hEpos, htl]
              · left
                exact run_heap_keep hkcont hpopx hheap (fun h => hxE h.symm)
            · right
              obtain ⟨r', hr'le, hrec'⟩ := run_cost_mono
                (hcA (k + 1) (by omega)) (Nat.le_succ k) hrrec
              exact ⟨r', by omega, hrec'⟩
          · have hkt : k = t := by omega
            subst hkt
            exact Or.inl hEheap
      rcases hfate (F i) htlt (Nat.le_refl _) with hheap | ⟨r, hrle, hrrec⟩
      · obtain ⟨restF, hpopF, _⟩ := finEntry_inv (hfins i (Nat.le_refl i))
        have hmin := popMin_min _ _ _ hpopF E hheap
        rw [hEest] at hmin
        omega
      · have := finEntry_improves (hfins i (Nat.le_refl i)) hrrec
        rw [hEact] at hrle
        omega
  -- ===== Case B: the origin is re-finalized after the pop of fc i =====
  · have htgt : F i < t := Nat.lt_of_le_of_ne htge (fun h => htne h.symm)
    have hvd : (fc i).origin ≠ d := by
      intro he
      have hdun := run_dest_unrec rfl (hcA t ht2)
      rw [hbpos] at hvrec
      rw [he] at hvrec
      rw [hvrec] at hdun
      simp at hdun
    have htN : t ≠ N := by
      intro he
      have hfN : finPos view nb cf hr (some d) (initPF start) N = some d := by
        rw [finPos, htr.finN]
        simp [htr.posN]
      rw [he, hfN] at hfint
      injection hfint with hx
      exact hvd hx.symm
    have htcont : ContinuesAt view nb cf hr (some d) (initPF start) t :=
      htr.cont t (by omega)
    obtain ⟨a0, rest0, hpop0, hcase0⟩ := run_step_cases htcont
    have ha0 : a0 = qs := by
      obtain ⟨rest', hpop', _⟩ := finEntry_inv hfinqs
      rw [hpop0] at hpop'
      injection hpop' with hpr
      exact congrArg Prod.fst hpr
    rcases hcase0 with ⟨himpf, _, _⟩ | ⟨himpt, hfe, hdne, heq⟩
    · obtain ⟨_, _, himp'⟩ := finEntry_inv hfinqs
      rw [ha0] at himpf
      rw [himpf] at himp'
      simp at himp'
    · obtain ⟨E, hEdef⟩ : ∃ E : Adjacency Nat,
          E = ⟨qs.actual_cost + w + hr (fc i).position d, qs.actual_cost + w,
            (fc i).position, (fc i).origin⟩ := ⟨_, rfl⟩
      have hEpos : E.position = (fc i).position := by rw [hEdef]
      have hEact : E.actual_cost = qs.actual_cost + w := by rw [hEdef]
      have hEest : E.estimated_cost =
          qs.actual_cost + w + hr (fc i).position d := by rw [hEdef]
      have hEmem : E ∈ expandEntries natCostModel view nb cf hr (some d)
          (updTiles (runPF view nb cf hr (some d) (initPF start) t) qs)
          qs.position qs.actual_cost := by
        rw [mem_expand_nat]
        refine ⟨(fc i).position, ?_, w, ?_, ?_, ?_⟩
        · rw [hqspos]
          exact hgen
        · rw [hqspos]
          exact hedge
        · have hne' : (fc i).position ≠ qs.position := by
            rw [hqspos]
            exact hune
          rw [updTiles, if_neg hne', htileu t htgt ht2]
          show w < (fc i).actual_cost
          omega
        · rw [hEdef, hqspos]
      have hEheap : E ∈ (runPF view nb cf hr (some d) (initPF start)
          (t + 1)).heap := by
        rw [ha0] at heq
        rw [heq]
        dsimp only
        rw [mem_foldl_cons]
        exact Or.inl hEmem
      have hEactlt : E.actual_cost < (fc i).actual_cost := by
        rw [hEact]
        omega
      have hEpend : ∀ k, t < k → k ≤ N →
          E ∈ (runPF view nb cf hr (some d) (initPF start) k).heap := by
        intro k
        induction k with
        | zero => intro h1 _; omega
        | succ k ih =>
          intro hk1 hk2
          rcases Nat.lt_or_ge t k with hk | hk
          · have hkcont : ContinuesAt view nb cf hr (some d) (initPF start) k :=
              htr.cont k (by omega)
            have hprev := ih hk (by omega)
            obtain ⟨x, restx, hpopx, hcasex⟩ := run_step_cases hkcont
            by_cases hxE : x = E
            · exfalso
              subst hxE
              rcases hcasex with ⟨himpf', _, _⟩ | ⟨himpt', hfek, _, _⟩
              · obtain ⟨r0, hrec0, hble⟩ := improves_false_cases himpf'
                rw [hEpos] at hrec0
                rw [htileu k (by omega) (by omega)] at hrec0
                injection hrec0 with hrec0
                rw [natCostModel_blt_false] at hble
                omega
              · have htl := run_tiles_fin hkcont hfek
                rw [hEpos] at htl
                have hcc := htileu (k + 1) (by omega) (by omega)
                rw [htl] at hcc
                injection hcc with h1 h2 h3
                injection h2 with h2
                omega
            · exact run_heap_keep hkcont hpopx hprev (fun h => hxE h.symm)
          · have hkt : k = t := by omega
            subst hkt
            exact hEheap
      -- the backward walk along push ancestors
      have hL1 : ∀ τ, F i < τ → τ ≤ t →
          ∀ X, finEntry view nb cf hr (some d) (initPF start) τ = some X →
          X.actual_cost < (fc i).actual_cost →
          ∃ σ Y, F i < σ ∧ σ ≤ τ ∧
            finEntry view nb cf hr (some d) (initPF start) σ = some Y ∧
            (fc i).estimated_cost ≤ Y.estimated_cost ∧
            (∀ j, j ≤ i → Y ≠ fc j) ∧
            ∀ ς, σ < ς → ς ≤ τ → ∃ Z ρ,
              Z ∈ (runPF view nb cf hr (some d) (initPF start) ς).heap ∧
              ς ≤ ρ ∧ ρ ≤ τ ∧
              finEntry view nb cf hr (some d) (initPF start) ρ = some Z ∧
              ∀ j, j ≤ i → Z ≠ fc j := by
        intro τ
        induction τ using Nat.strong_induction_on with
        | _ τ ihτ =>
          intro hτ1 hτ2 X hfX hXlt
          by_cases hch : ∃ j, j ≤ i ∧ X = fc j
          · obtain ⟨j, hj, hXj⟩ := hch
            have := hCD j hj
            rw [hXj] at hXlt
            omega
          · push_neg at hch
            obtain ⟨restX, hpopX, himpX⟩ := finEntry_inv hfX
            have hXmem : X ∈
                (runPF view nb cf hr (some d) (initPF start) τ).heap :=
              popMin_mem natCostModel _ X restX hpopX
            rcases run_heap_provenance (hcA τ (by omega))
                hXmem with hall | ⟨ρ, hρ, ⟨P, hfinP, hexpX⟩, hpendX⟩
            · have h0 := hall 0 (Nat.zero_le _)
              have hXi : X = ⟨0, 0, start, start⟩ := by
                have hh : (runPF view nb cf hr (some d)
                    (initPF start) 0).heap =
                    [(⟨0, 0, start, start⟩ : Adjacency Nat)] := rfl
                rw [hh] at h0
                exact List.mem_singleton.mp h0
              have hf0 : finEntry view nb cf hr (some d) (initPF start) 0 =
                  some ⟨0, 0, start, start⟩ := rfl
              have h01 := run_tiles_fin (htr.cont 0 (by omega)) hf0
              have hrec1 : ((runPF view nb cf hr (some d)
                  (initPF start) 1).tiles start).cost = some 0 := by
                rw [h01]
              obtain ⟨r0, hr0le, hrecτ⟩ := run_cost_mono
                (hcA τ (by omega)) (show 1 ≤ τ by omega) hrec1
              have hXimp := finEntry_improves hfX
                (show ((runPF view nb cf hr (some d) (initPF start) τ).tiles
                  X.position).cost = some r0 by rw [hXi]; exact hrecτ)
              rw [hXi] at hXimp
              dsimp only at hXimp
              omega
            · rw [mem_expand_nat] at hexpX
              obtain ⟨n, hgenX, c, hedgeX, hfilX, hXdef⟩ := hexpX
              rcases Nat.lt_trichotomy ρ (F i) with hρlt | hρeq | hρgt
              · have hXFi : X ∈ (runPF view nb cf hr (some d) (initPF start)
                    (F i)).heap := hpendX (F i) hρlt (by omega)
                obtain ⟨restF, hpopF, _⟩ := finEntry_inv
                  (hfins i (Nat.le_refl i))
                have hest := popMin_min _ _ _ hpopF X hXFi
                refine ⟨τ, X, hτ1, Nat.le_refl τ, hfX, hest, hch, ?_⟩
                intro ς h1 h2
                omega
              · have hP : P = fc i := by
                  rw [hρeq] at hfinP
                  exact finEntry_unique hfinP (hfins i (Nat.le_refl i))
                rw [hXdef] at hXlt
                dsimp only at hXlt
                rw [hP] at hXlt
                omega
              · have hPlt : P.actual_cost < (fc i).actual_cost := by
                  rw [hXdef] at hXlt
                  dsimp only at hXlt
                  omega
                obtain ⟨σ, Y, hσ1, hσ2, hfY, hestY, hYnc, hcov⟩ :=
                  ihτ ρ hρ hρgt (by omega) P hfinP hPlt
                refine ⟨σ, Y, hσ1, by omega, hfY, hestY, hYnc, ?_⟩
                intro ς h1 h2
                rcases le_or_lt ς ρ with hςρ | hςρ
                · obtain ⟨Z, ρ', hZ1, hZ2, hZ3, hZ4, hZ5⟩ := hcov ς h1 hςρ
                  exact ⟨Z, ρ', hZ1, hZ2, by omega, hZ4, hZ5⟩
                · refine ⟨X, τ, hpendX ς hςρ (by omega), by omega,
                    Nat.le_refl τ, hfX, hch⟩
      -- apply the walk to the improving pop at t
      have hqlt : qs.actual_cost < (fc i).actual_cost := by omega
      obtain ⟨σ0, Y0, hσ01, hσ02, hfY0, hestY0, hY0nc, hcov⟩ :=
        hL1 t htgt (Nat.le_refl t) qs hfinqs hqlt
      -- the estimated-cost climb
      have hL2 : ∀ m, ∀ σ Y, t - σ < m → σ0 ≤ σ → F i < σ → σ ≤ t →
          finEntry view nb cf hr (some d) (initPF start) σ = some Y →
          (fc i).estimated_cost ≤ Y.estimated_cost →
          (∀ j, j ≤ i → Y ≠ fc j) → False := by
        intro m
        induction m with
        | zero => intro σ Y h; omega
        | succ m ihm =>
          intro σ Y hm hσb hσ1 hσ2 hfY hestY hYnc
          obtain ⟨j, hji, hj1, hj2⟩ := desc_tiling F i hFdec σ hσ1
            (by rw [hF0]; omega)
          rcases Nat.eq_or_lt_of_le hj2 with hσF | hσF
          · have hfj := hfins j (by omega)
            rw [← hσF] at hfj
            exact hYnc j (by omega) (finEntry_unique hfY hfj)
          · have hfcj : fc j ∈
                (runPF view nb cf hr (some d) (initPF start) σ).heap :=
              hpendc j hji σ hj1 (Nat.le_of_lt hσF)
            obtain ⟨restY, hpopY, _⟩ := finEntry_inv hfY
            have hYle := popMin_min _ _ _ hpopY (fc j) hfcj
            rcases le_or_lt (F j) t with hFjt | hFjt
            · obtain ⟨Z, ρ, hZheap, hρ1, hρ2, hfZ, hZnc⟩ :=
                hcov (F j) (by omega) hFjt
              have hρne : F j < ρ := by
                rcases Nat.eq_or_lt_of_le hρ1 with h | h
                · exfalso
                  have hfj := hfins j (by omega)
                  rw [h] at hfj
                  exact hZnc j (by omega) (finEntry_unique hfZ hfj)
                · exact h
              obtain ⟨restj, hpopj, _⟩ := finEntry_inv (hfins j (by omega))
              have hjle := popMin_min _ _ _ hpopj Z hZheap
              exact ihm ρ Z (by omega) (by omega) (by omega) hρ2 hfZ
                (by omega) hZnc
            · have hEFj : E ∈ (runPF view nb cf hr (some d) (initPF start)
                  (F j)).heap := hEpend (F j) hFjt (hFN j (by omega))
              obtain ⟨restj, hpopj, _⟩ := finEntry_inv (hfins j (by omega))
              have hjle := popMin_min _ _ _ hpopj E hEFj
              rw [hEest] at hjle
              omega
      exact hL2 (t - σ0 + 1) σ0 Y0 (by omega) (Nat.le_refl σ0) hσ01 hσ02
        hfY0 hestY0 hY0nc

/-- The destination cell is never finalized before the final step. -/
theorem fin_dest_eq_N {view : BidiView T} {nb : BidiNeighbours}
    {cf : T → (Nat × Nat) → T → (Nat × Nat) → Option Nat}
    {hr : (Nat × Nat) → (Nat × Nat) → Nat} {start d : Nat × Nat} {N : Nat}
    {ed : Adjacency Nat} (htr : TermRun view nb cf hr start d N ed)
    {k : Nat} (hk : k ≤ N)
    (hfin : finPos view nb cf hr (some d) (initPF start) k = some d) :
    k = N := by
  by_contra hne
  have hkN : k < N := by omega
  obtain ⟨a, ha, hap⟩ : ∃ a, finEntry view nb cf hr (some d) (initPF start) k =
      some a ∧ a.position = d := by
    rw [finPos] at hfin
    rcases hq : finEntry view nb cf hr (some d) (initPF start) k with _ | a
    · rw [hq] at hfin
      exact absurd hfin (by simp)
    · rw [hq] at hfin
      refine ⟨a, rfl, ?_⟩
      simpa using hfin
  have htile := run_tiles_fin (htr.cont k hkN) ha
  have hdun : ((runPF view nb cf hr (some d) (initPF start) (k + 1)).tiles
      d).cost = none :=
    run_dest_unrec rfl (fun j hj => htr.cont j (by omega))
  rw [hap] at htile
  rw [htile] at hdun
  simp at hdun

/-- Finalized cells are in bounds. -/
theorem fin_inB {view : BidiView T} {nb : BidiNeighbours}
    {cf : T → (Nat × Nat) → T → (Nat × Nat) → Option Nat}
    {hr : (Nat × Nat) → (Nat × Nat) → Nat} {start d : Nat × Nat} {N : Nat}
    {ed : Adjacency Nat} (htr : TermRun view nb cf hr start d N ed)
    {k : Nat} (hk : k ≤ N) {a : Adjacency Nat}
    (ha : finEntry view nb cf hr (some d) (initPF start) k = some a) :
    a.position.1 < view.width ∧ a.position.2 < view.height := by
  obtain ⟨rest, hpop, _⟩ := finEntry_inv ha
  have hsnd : ASound view nb cf hr start d
      (runPF view nb cf hr (some d) (initPF start) k) :=
    run_asound htr.startB (fun j hj => htr.cont j (by omega))
  exact hsnd.heap_inB a (popMin_mem natCostModel _ a rest hpop)

/-- The single induction step of the chain reconstruction: level i of the
chain being established and not yet at the start cell, level i + 1 and the
connecting link hold as well. -/
theorem link_step {view : BidiView T} {nb : BidiNeighbours}
    {cf : T → (Nat × Nat) → T → (Nat × Nat) → Option Nat}
    {hr : (Nat × Nat) → (Nat × Nat) → Nat} {start d : Nat × Nat} {N : Nat}
    {ed : Adjacency Nat} (htr : TermRun view nb cf hr start d N ed) (i : Nat)
    (hnodes : ∀ j, j ≤ i → NodeOK view nb cf hr start d N ed j)
    (hlinks : ∀ j, j < i → LinkOK view nb cf hr start d N ed j)
    (hns : chainCell view nb cf hr start d N ed i ≠ start) :
    LinkOK view nb cf hr start d N ed i ∧
      NodeOK view nb cf hr start d N ed (i + 1) := by
  obtain ⟨hfin_i, hpos_i, hFiN, htile_i⟩ := hnodes i (Nat.le_refl i)
  have hns' : (fCE view nb cf hr start d N ed i).position ≠ start := by
    rw [hpos_i]
    exact hns
  obtain ⟨Q, b, w, hQ, hfinQ, hbpos, hgen', hedge', hsum', hestu', hpend⟩ :=
    link_push htr hFiN hfin_i hns'
  have htileu : ∀ k, FIdx view nb cf hr start d N ed i < k → k ≤ N →
      (runPF view nb cf hr (some d) (initPF start) k).tiles
        (fCE view nb cf hr start d N ed i).position =
      ⟨some (fCE view nb cf hr start d N ed i).origin,
        some (fCE view nb cf hr start d N ed i).actual_cost, false⟩ := by
    intro k h1 h2
    rw [hpos_i]
    exact htile_i k h1 h2
  -- no re-finalization of the origin cell after the push
  have hnofin : ∀ k, Q < k → k ≤ N →
      finPos view nb cf hr (some d) (initPF start) k ≠
        some (fCE view nb cf hr start d N ed i).origin := by
    intro k hk1 hk2 hfin
    obtain ⟨t, ⟨ht1, ht2, ht3⟩, htleast⟩ := first_fin_after ⟨k, hk1, hk2, hfin⟩
    exact link_no_refin htr (FIdx view nb cf hr start d N ed)
      (fCE view nb cf hr start d N ed) i
      (by
        obtain ⟨h1, h2, _, _⟩ := hnodes 0 (Nat.zero_le i)
        -- FIdx 0 = N: the destination is finalized only at N
        have hf0 : finPos view nb cf hr (some d) (initPF start)
            (FIdx view nb cf hr start d N ed 0) =
            some (chainCell view nb cf hr start d N ed 0) := by
          rw [finPos, h1]
          simp [h2]
        have hc0 : chainCell view nb cf hr start d N ed 0 = d := rfl
        rw [hc0] at hf0
        have hkN : FIdx view nb cf hr start d N ed 0 ≤ N :=
          Nat.findGreatest_le N
        exact fin_dest_eq_N htr hkN hf0)
      (fun j hj => (hlinks j hj).1)
      (fun j hj => (hnodes j hj).2.2.1)
      (fun j hj => (hnodes j hj).1)
      (fun j hj => (hlinks j hj).2.2.2.2.2)
      (chain_actual_le hlinks)
      htileu hQ hfinQ hbpos hgen' hedge' hsum' hestu' ht1 ht2 ht3 htleast
  -- the tile of the origin cell is unchanged from its finalization at Q
  have hQN : Q < N := by omega
  have hbtile := run_tiles_fin (htr.cont Q hQN) hfinQ
  have hfl : ((runPF view nb cf hr (some d) (initPF start) Q).tiles
      b.position).in_shortest_path = false :=
    run_flag (fun j hj => htr.cont j (by omega)) b.position
  have hvconst : ∀ k, Q < k → k ≤ N →
      (runPF view nb cf hr (some d) (initPF start) k).tiles b.position =
        ⟨some b.origin, some b.actual_cost, false⟩ := by
    intro k hk1 hk2
    have hstep : (runPF view nb cf hr (some d) (initPF start) k).tiles
        b.position =
        (runPF view nb cf hr (some d) (initPF start) (Q + 1)).tiles
          b.position := by
      apply run_tiles_const (Nat.succ_le_of_lt hk1)
      intro j hj1 hj2
      constructor
      · exact htr.cont j (by omega)
      · rw [hbpos]
        exact hnofin j (by omega) (by omega)
    rw [hstep, hbtile, hfl]
  -- FIdx i < N unless the chain cell is the destination, and the origin of
  -- the final tile of the chain cell is the recorded origin
  have horigin : chainCell view nb cf hr start d N ed (i + 1) =
      (fCE view nb cf hr start d N ed i).origin := by
    show ((finalTiles view nb cf hr start d N ed
      (chainCell view nb cf hr start d N ed i)).origin).getD start =
      (fCE view nb cf hr start d N ed i).origin
    rw [finalTiles, updTiles]
    by_cases hcd : chainCell view nb cf hr start d N ed i = ed.position
    · rw [if_pos hcd]
      -- the chain cell is the destination: fCE i = ed
      have hfi : finPos view nb cf hr (some d) (initPF start)
          (FIdx view nb cf hr start d N ed i) =
          some (chainCell view nb cf hr start d N ed i) := by
        rw [finPos, hfin_i]
        simp [hpos_i]
      rw [hcd, htr.posN] at hfi
      have hFN' := fin_dest_eq_N htr hFiN hfi
      have he : fCE view nb cf hr start d N ed i = ed := by
        have := hfin_i
        rw [hFN'] at this
        exact finEntry_unique this htr.finN
      rw [he]
      rfl
    · rw [if_neg hcd]
      -- the chain cell keeps its last finalized tile at step N
      have hFin : FIdx view nb cf hr start d N ed i < N := by
        rcases Nat.eq_or_lt_of_le hFiN with h | h
        · exfalso
          have := hfin_i
          rw [h] at this
          have he := finEntry_unique this htr.finN
          apply hcd
          rw [← hpos_i, he]
        · exact h
      rw [htile_i N hFin (Nat.le_refl N)]
      rfl
  have hQfin : finPos view nb cf hr (some d) (initPF start) Q =
      some (chainCell view nb cf hr start d N ed (i + 1)) := by
    rw [finPos, hfinQ, horigin]
    simp [hbpos]
  have hnofin2 : ∀ k, Q < k → k ≤ N →
      finPos view nb cf hr (some d) (initPF start) k ≠
        some (chainCell view nb cf hr start d N ed (i + 1)) := by
    intro k h1 h2 h
    apply hnofin k h1 h2
    rw [← horigin]
    exact h
  have hge : Q ≤ FIdx view nb cf hr start d N ed (i + 1) :=
    Nat.le_findGreatest (by omega) hQfin
  have hle : FIdx view nb cf hr start d N ed (i + 1) ≤ Q := by
    by_contra hgt
    have hspec0 := Nat.findGreatest_spec (P := fun j =>
      finPos view nb cf hr (some d) (initPF start) j =
        some (chainCell view nb cf hr start d N ed (i + 1)))
      (show Q ≤ N by omega) hQfin
    have hspec : finPos view nb cf hr (some d) (initPF start)
        (FIdx view nb cf hr start d N ed (i + 1)) =
        some (chainCell view nb cf hr start d N ed (i + 1)) := hspec0
    have hFle : FIdx view nb cf hr start d N ed (i + 1) ≤ N :=
      Nat.findGreatest_le N
    exact hnofin2 _ (by omega) hFle hspec
  have hQeq : FIdx view nb cf hr start d N ed (i + 1) = Q := by omega
  have hb : fCE view nb cf hr start d N ed (i + 1) = b := by
    rw [fCE, hQeq, hfinQ]
    rfl
  constructor
  · -- LinkOK i
    refine ⟨?_, horigin, ?_, ⟨w, ?_, ?_⟩, ?_, ?_⟩
    · omega
    · rw [← hpos_i, horigin]
      exact hgen'
    · rw [horigin, ← hpos_i]
      exact hedge'
    · rw [hb]
      exact hsum'
    · rw [hpos_i] at hestu'
      exact hestu'
    · intro k hk1 hk2
      rw [hQeq] at hk1
      exact hpend k hk1 hk2
  · -- NodeOK (i+1)
    refine ⟨?_, ?_, ?_, ?_⟩
    · rw [hQeq, hb]
      exact hfinQ
    · rw [hb, horigin]
      exact hbpos
    · omega
    · intro k hk1 hk2
      rw [hQeq] at hk1
      rw [horigin, ← hbpos, hb]
      exact hvconst k hk1 hk2

/-- The chain levels all hold, as long as the chain has not reached the
start cell. -/
theorem chain_master {view : BidiView T} {nb : BidiNeighbours}
    {cf : T → (Nat × Nat) → T → (Nat × Nat) → Option Nat}
    {hr : (Nat × Nat) → (Nat × Nat) → Nat} {start d : Nat × Nat} {N : Nat}
    {ed : Adjacency Nat} (htr : TermRun view nb cf hr start d N ed) :
    ∀ i, (∀ j, j < i → chainCell view nb cf hr start d N ed j ≠ start) →
      (∀ j, j ≤ i → NodeOK view nb cf hr start d N ed j) ∧
      (∀ j, j < i → LinkOK view nb cf hr start d N ed j) := by
  intro i
  induction i with
  | zero =>
    intro _
    constructor
    · intro j hj
      interval_cases j
      -- NodeOK 0
      have hc0 : chainCell view nb cf hr start d N ed 0 = d := rfl
      have hfN : finPos view nb cf hr (some d) (initPF start) N = some d := by
        rw [finPos, htr.finN]
        simp [htr.posN]
      have hFeq : FIdx view nb cf hr start d N ed 0 = N := by
        have hge : N ≤ FIdx view nb cf hr start d N ed 0 := by
          apply Nat.le_findGreatest (Nat.le_refl N)
          rw [hc0]
          exact hfN
        have hle : FIdx view nb cf hr start d N ed 0 ≤ N :=
          Nat.findGreatest_le N
        omega
      have hfe : fCE view nb cf hr start d N ed 0 = ed := by
        rw [fCE, hFeq, htr.finN]
        rfl
      refine ⟨?_, ?_, ?_, ?_⟩
      · rw [hFeq, hfe]
        exact htr.finN
      · rw [hfe, hc0]
        exact htr.posN
      · rw [hFeq]
      · intro k hk1 hk2
        rw [hFeq] at hk1
        omega
    · intro j hj
      omega
  | succ i ih =>
    intro halive
    obtain ⟨hnodes, hlinks⟩ := ih (fun j hj => halive j (Nat.lt_succ_of_lt hj))
    obtain ⟨hlink_i, hnode_i1⟩ := link_step htr i hnodes hlinks
      (halive i (Nat.lt_succ_self i))
    constructor
    · intro j hj
      rcases Nat.lt_or_ge j (i + 1) with h | h
      · exact hnodes j (Nat.lt_succ_iff.mp h)
      · have : j = i + 1 := by omega
        subst this
        exact hnode_i1
    · intro j hj
      rcases Nat.lt_or_ge j i with h | h
      · exact hlinks j h
      · have : j = i := by omega
        subst this
        exact hlink_i

/-- Equal chain cells have equal last-finalization indices. -/
theorem FIdx_congr {view : BidiView T} {nb : BidiNeighbours}
    {cf : T → (Nat × Nat) → T → (Nat × Nat) → Option Nat}
    {hr : (Nat × Nat) → (Nat × Nat) → Nat} {start d : Nat × Nat} {N : Nat}
    {ed : Adjacency Nat} {a b : Nat}
    (h : chainCell view nb cf hr start d N ed a =
      chainCell view nb cf hr start d N ed b) :
    FIdx view nb cf hr start d N ed a = FIdx view nb cf hr start d N ed b := by
  unfold FIdx
  rw [h]

/-- The finalization indices of the chain levels strictly decrease. -/
theorem FIdx_strict {view : BidiView T} {nb : BidiNeighbours}
    {cf : T → (Nat × Nat) → T → (Nat × Nat) → Option Nat}
    {hr : (Nat × Nat) → (Nat × Nat) → Nat} {start d : Nat × Nat} {N : Nat}
    {ed : Adjacency Nat} {K : Nat}
    (hlinks : ∀ j, j < K → LinkOK view nb cf hr start d N ed j) :
    ∀ a b, a < b → b ≤ K →
      FIdx view nb cf hr start d N ed b < FIdx view nb cf hr start d N ed a := by
  intro a b
  induction b with
  | zero =>
    intro h _
    omega
  | succ b ih =>
    intro hab hbK
    have h1 : FIdx view nb cf hr start d N ed (b + 1) <
        FIdx view nb cf hr start d N ed b := (hlinks b (by omega)).1
    rcases Nat.lt_or_ge a b with h | h
    · have h2 := ih h (by omega)
      omega
    · have hab' : a = b := by omega
      subst hab'
      exact h1

/-- The chain reaches the start cell, at a least level. -/
theorem chain_reaches_start {view : BidiView T} {nb : BidiNeighbours}
    {cf : T → (Nat × Nat) → T → (Nat × Nat) → Option Nat}
    {hr : (Nat × Nat) → (Nat × Nat) → Nat} {start d : Nat × Nat} {N : Nat}
    {ed : Adjacency Nat} (htr : TermRun view nb cf hr start d N ed) :
    ∃ K, chainCell view nb cf hr start d N ed K = start ∧
      ∀ j, j < K → chainCell view nb cf hr start d N ed j ≠ start := by
  have hex : ∃ K, chainCell view nb cf hr start d N ed K = start := by
    by_contra hno
    push_neg at hno
    obtain ⟨hnodes, hlinks⟩ := chain_master htr (view.width * view.height)
      (fun j _ => hno j)
    have hinj : ∀ x ∈ List.range (view.width * view.height + 1),
        ∀ y ∈ List.range (view.width * view.height + 1),
        chainCell view nb cf hr start d N ed x =
          chainCell view nb cf hr start d N ed y → x = y := by
      intro x hx y hy hxy
      rw [List.mem_range] at hx hy
      by_contra hne
      rcases Nat.lt_or_ge x y with h | h
      · have h1 := FIdx_strict hlinks x y h (by omega)
        rw [FIdx_congr hxy] at h1
        omega
      · have hyx : y < x := by omega
        have h1 := FIdx_strict hlinks y x hyx (by omega)
        rw [FIdx_congr hxy] at h1
        omega
    have hnd : ((List.range (view.width * view.height + 1)).map
        (chainCell view nb cf hr start d N ed)).Nodup :=
      List.Nodup.map_on hinj (List.nodup_range _)
    have hB : ∀ p ∈ (List.range (view.width * view.height + 1)).map
        (chainCell view nb cf hr start d N ed),
        p.1 < view.width ∧ p.2 < view.height := by
      intro p hp
      rw [List.mem_map] at hp
      obtain ⟨j, hj, hjp⟩ := hp
      rw [List.mem_range] at hj
      obtain ⟨hfin, hpos, hFN, _⟩ := hnodes j (by omega)
      have hib := fin_inB htr hFN hfin
      rw [hpos, hjp] at hib
      exact hib
    have hlen := nodup_inB_length_le view.width view.height _ hnd hB
    rw [List.length_map, List.length_range] at hlen
    omega
  obtain ⟨K, hK, hleast⟩ := nat_exists_least hex
  refine ⟨K, hK, ?_⟩
  intro j hj hjs
  have := hleast j hjs
  omega

/-- The start cell is finalized only at step zero. -/
theorem fin_start_zero {view : BidiView T} {nb : BidiNeighbours}
    {cf : T → (Nat × Nat) → T → (Nat × Nat) → Option Nat}
    {hr : (Nat × Nat) → (Nat × Nat) → Nat} {start d : Nat × Nat} {N : Nat}
    {ed : Adjacency Nat} (htr : TermRun view nb cf hr start d N ed)
    {k : Nat} (hk : k ≤ N)
    (hfin : finPos view nb cf hr (some d) (initPF start) k = some start) :
    k = 0 := by
  by_contra hne
  have hk1 : 1 ≤ k := by omega
  obtain ⟨a, ha, hap⟩ : ∃ a, finEntry view nb cf hr (some d) (initPF start) k =
      some a ∧ a.position = start := by
    rw [finPos] at hfin
    rcases hq : finEntry view nb cf hr (some d) (initPF start) k with _ | a
    · rw [hq] at hfin
      exact absurd hfin (by simp)
    · rw [hq] at hfin
      refine ⟨a, rfl, ?_⟩
      simpa using hfin
  have hfe0 : finEntry view nb cf hr (some d) (initPF start) 0 =
      some ⟨0, 0, start, start⟩ := rfl
  have ht : (runPF view nb cf hr (some d) (initPF start) 1).tiles start =
      ⟨some start, some 0, false⟩ :=
    run_tiles_fin (htr.cont 0 (by omega)) hfe0
  have h1 : ((runPF view nb cf hr (some d) (initPF start) 1).tiles start).cost =
      some 0 := by
    rw [ht]
  have hcA : ∀ i, i < k → ContinuesAt view nb cf hr (some d) (initPF start) i :=
    fun i hi => htr.cont i (by omega)
  obtain ⟨c', hc', hrec⟩ := run_cost_mono hcA hk1 h1
  have hc0 : c' = 0 := by omega
  subst hc0
  have hlt := finEntry_improves ha (by rw [hap]; exact hrec)
  omega

/-- Level zero of the chain: the destination, finalized at the final step
by the terminating entry. -/
theorem fCE_zero {view : BidiView T} {nb : BidiNeighbours}
    {cf : T → (Nat × Nat) → T → (Nat × Nat) → Option Nat}
    {hr : (Nat × Nat) → (Nat × Nat) → Nat} {start d : Nat × Nat} {N : Nat}
    {ed : Adjacency Nat} (htr : TermRun view nb cf hr start d N ed) :
    FIdx view nb cf hr start d N ed 0 = N ∧
      fCE view nb cf hr start d N ed 0 = ed := by
  have hc0 : chainCell view nb cf hr start d N ed 0 = d := rfl
  have hfN : finPos view nb cf hr (some d) (initPF start) N = some d := by
    rw [finPos, htr.finN]
    simp [htr.posN]
  have hge : N ≤ FIdx view nb cf hr start d N ed 0 := by
    apply Nat.le_findGreatest (Nat.le_refl N)
    rw [hc0]
    exact hfN
  have hle : FIdx view nb cf hr start d N ed 0 ≤ N := Nat.findGreatest_le N
  have hFeq : FIdx view nb cf hr start d N ed 0 = N := by omega
  refine ⟨hFeq, ?_⟩
  rw [fCE, hFeq, htr.finN]
  rfl

/-- The deepest chain level: the start cell was finalized at step zero by
the seed entry. -/
theorem start_node {view : BidiView T} {nb : BidiNeighbours}
    {cf : T → (Nat × Nat) → T → (Nat × Nat) → Option Nat}
    {hr : (Nat × Nat) → (Nat × Nat) → Nat} {start d : Nat × Nat} {N : Nat}
    {ed : Adjacency Nat} (htr : TermRun view nb cf hr start d N ed) {K : Nat}
    (hKs : chainCell view nb cf hr start d N ed K = start)
    (hnode : NodeOK view nb cf hr start d N ed K) :
    FIdx view nb cf hr start d N ed K = 0 ∧
      fCE view nb cf hr start d N ed K = ⟨0, 0, start, start⟩ := by
  obtain ⟨hfin, hpos, hFN, _⟩ := hnode
  have hf : finPos view nb cf hr (some d) (initPF start)
      (FIdx view nb cf hr start d N ed K) = some start := by
    rw [finPos, hfin]
    simp [hpos, hKs]
  have hF0 := fin_start_zero htr hFN hf
  refine ⟨hF0, ?_⟩
  have hfe0 : finEntry view nb cf hr (some d) (initPF start) 0 =
      some ⟨0, 0, start, start⟩ := rfl
  rw [hF0] at hfin
  exact finEntry_unique hfin hfe0

/-- Chain cells are in bounds. -/
theorem chainCell_inB {view : BidiView T} {nb : BidiNeighbours}
    {cf : T → (Nat × Nat) → T → (Nat × Nat) → Option Nat}
    {hr : (Nat × Nat) → (Nat × Nat) → Nat} {start d : Nat × Nat} {N : Nat}
    {ed : Adjacency Nat} (htr : TermRun view nb cf hr start d N ed) {j : Nat}
    (hnode : NodeOK view nb cf hr start d N ed j) :
    (chainCell view nb cf hr start d N ed j).1 < view.width ∧
      (chainCell view nb cf hr start d N ed j).2 < view.height := by
  obtain ⟨hfin, hpos, hFN, _⟩ := hnode
  have h := fin_inB htr hFN hfin
  rw [hpos] at h
  exact h

/-- The final tile of each chain cell holds the origin and cost of its
finalizing entry, with the flag clear. -/
theorem finalTile_node {view : BidiView T} {nb : BidiNeighbours}
    {cf : T → (Nat × Nat) → T → (Nat × Nat) → Option Nat}
    {hr : (Nat × Nat) → (Nat × Nat) → Nat} {start d : Nat × Nat} {N : Nat}
    {ed : Adjacency Nat} (htr : TermRun view nb cf hr start d N ed) {K : Nat}
    (hnodes : ∀ j, j ≤ K → NodeOK view nb cf hr start d N ed j)
    (hlinks : ∀ j, j < K → LinkOK view nb cf hr start d N ed j)
    (hK1 : 1 ≤ K) :
    ∀ j, j ≤ K →
      finalTiles view nb cf hr start d N ed
          (chainCell view nb cf hr start d N ed j) =
        ⟨some (fCE view nb cf hr start d N ed j).origin,
          some (fCE view nb cf hr start d N ed j).actual_cost, false⟩ := by
  obtain ⟨hF0, hfe0⟩ := fCE_zero htr
  have hNpos : 1 ≤ N := by
    have h1 := (hlinks 0 (by omega)).1
    rw [hF0] at h1
    omega
  intro j hj
  rcases Nat.eq_zero_or_pos j with hj0 | hjpos
  · subst hj0
    have hcd : chainCell view nb cf hr start d N ed 0 = ed.position := by
      rw [htr.posN]
      rfl
    rw [finalTiles, updTiles, if_pos hcd, hfe0]
    have hfl : ((runPF view nb cf hr (some d) (initPF start) N).tiles
        ed.position).in_shortest_path = false :=
      run_flag htr.cont ed.position
    rw [hfl]
  · have hFj : FIdx view nb cf hr start d N ed j < N := by
      have h1 := FIdx_strict hlinks 0 j hjpos hj
      rw [hF0] at h1
      exact h1
    obtain ⟨_, _, _, htile⟩ := hnodes j hj
    have hne : chainCell view nb cf hr start d N ed j ≠ ed.position := by
      intro h
      have hcd : chainCell view nb cf hr start d N ed j =
          chainCell view nb cf hr start d N ed 0 := by
        rw [h, htr.posN]
        rfl
      have hFjj := FIdx_congr hcd
      rw [hF0] at hFjj
      omega
    rw [finalTiles, updTiles, if_neg hne]
    exact htile N hFj (Nat.le_refl N)

/-- The list of chain cells from level j through level j + m. -/
def chainSeg (view : BidiView T) (nb : BidiNeighbours)
    (cf : T → (Nat × Nat) → T → (Nat × Nat) → Option Nat)
    (hr : (Nat × Nat) → (Nat × Nat) → Nat) (start d : Nat × Nat) (N : Nat)
    (ed : Adjacency Nat) (j m : Nat) : List (Nat × Nat) :=
  (List.range (m + 1)).map
    (fun t => chainCell view nb cf hr start d N ed (j + t))

theorem chainSeg_cons (view : BidiView T) (nb : BidiNeighbours)
    (cf : T → (Nat × Nat) → T → (Nat × Nat) → Option Nat)
    (hr : (Nat × Nat) → (Nat × Nat) → Nat) (start d : Nat × Nat) (N : Nat)
    (ed : Adjacency Nat) (j m : Nat) :
    chainSeg view nb cf hr start d N ed j (m + 1) =
      chainCell view nb cf hr start d N ed j ::
        chainSeg view nb cf hr start d N ed (j + 1) m := by
  rw [chainSeg, chainSeg, List.range_succ_eq_map, List.map_cons, List.map_map]
  congr 1
  apply List.map_congr_left
  intro t _
  show chainCell view nb cf hr start d N ed (j + (t + 1)) =
    chainCell view nb cf hr start d N ed ((j + 1) + t)
  have harith : j + (t + 1) = (j + 1) + t := by omega
  rw [harith]

theorem chainSeg_mem {view : BidiView T} {nb : BidiNeighbours}
    {cf : T → (Nat × Nat) → T → (Nat × Nat) → Option Nat}
    {hr : (Nat × Nat) → (Nat × Nat) → Nat} {start d : Nat × Nat} {N : Nat}
    {ed : Adjacency Nat} {j m : Nat} {x : Nat × Nat}
    (hx : x ∈ chainSeg view nb cf hr start d N ed j m) :
    ∃ t, t ≤ m ∧ x = chainCell view nb cf hr start d N ed (j + t) := by
  rw [chainSeg, List.mem_map] at hx
  obtain ⟨t, ht, hxt⟩ := hx
  rw [List.mem_range] at ht
  exact ⟨t, by omega, hxt.symm⟩

/-- The chain from any level down to the deepest level is a valid
predecessor chain of the final tile table. -/
theorem chain_valid_level {view : BidiView T} {nb : BidiNeighbours}
    {cf : T → (Nat × Nat) → T → (Nat × Nat) → Option Nat}
    {hr : (Nat × Nat) → (Nat × Nat) → Nat} {start d : Nat × Nat} {N : Nat}
    {ed : Adjacency Nat} (htr : TermRun view nb cf hr start d N ed) {K : Nat}
    (hKs : chainCell view nb cf hr start d N ed K = start)
    (halive : ∀ j, j < K → chainCell view nb cf hr start d N ed j ≠ start)
    (hnodes : ∀ j, j ≤ K → NodeOK view nb cf hr start d N ed j)
    (hlinks : ∀ j, j < K → LinkOK view nb cf hr start d N ed j)
    (hK1 : 1 ≤ K) :
    ∀ m j, j + m = K →
      ValidChain view nb cf start (finalTiles view nb cf hr start d N ed)
        (chainCell view nb cf hr start d N ed j)
        ((fCE view nb cf hr start d N ed j).actual_cost)
        (chainSeg view nb cf hr start d N ed j m) := by
  have htile := finalTile_node htr hnodes hlinks hK1
  obtain ⟨hFK0, hfeK⟩ := start_node htr hKs (hnodes K (Nat.le_refl K))
  intro m
  induction m with
  | zero =>
    intro j hj
    have hjK : j = K := by omega
    subst hjK
    have hseg : chainSeg view nb cf hr start d N ed j 0 = [start] := by
      have h1 : List.range 1 = [0] := rfl
      rw [chainSeg, h1]
      simp [hKs]
    have hts : finalTiles view nb cf hr start d N ed start =
        ⟨some start, some 0, false⟩ := by
      have h := htile j (Nat.le_refl j)
      rw [hKs, hfeK] at h
      exact h
    have ho : (finalTiles view nb cf hr start d N ed start).origin =
        some start := congrArg PathFindDataTile.origin hts
    have hc : (finalTiles view nb cf hr start d N ed start).cost =
        some 0 := congrArg PathFindDataTile.cost hts
    have hvb : ValidChain view nb cf start
        (finalTiles view nb cf hr start d N ed) start 0 [start] :=
      ValidChain.base ho hc
    rw [hseg, hKs, hfeK]
    exact hvb
  | succ m ih =>
    intro j hj
    have hjK : j < K := by omega
    have hvc := ih (j + 1) (by omega)
    obtain ⟨hFdec, horig, hgen, hwex, hest, hpend⟩ := hlinks j hjK
    obtain ⟨w, hw, hsum⟩ := hwex
    rw [chainSeg_cons, hsum]
    refine ValidChain.step _ _ _ _ _ hvc (halive j hjK) ?_ ?_ hgen hw ?_
    · intro hmem
      obtain ⟨t, ht, hxt⟩ := chainSeg_mem hmem
      have hcd : chainCell view nb cf hr start d N ed (j + 1 + t) =
          chainCell view nb cf hr start d N ed j := hxt.symm
      have hFe := FIdx_congr hcd
      have hFs := FIdx_strict hlinks j (j + 1 + t) (by omega) (by omega)
      omega
    · have h := htile j (by omega)
      rw [h, horig]
    · have h := htile j (by omega)
      rw [h, ← hsum]

/-- A terminating run yields a valid predecessor chain from the
destination, with in-bounds cells. -/
theorem term_chain {view : BidiView T} {nb : BidiNeighbours}
    {cf : T → (Nat × Nat) → T → (Nat × Nat) → Option Nat}
    {hr : (Nat × Nat) → (Nat × Nat) → Nat} {start d : Nat × Nat} {N : Nat}
    {ed : Adjacency Nat} (htr : TermRun view nb cf hr start d N ed) :
    ∃ l, ValidChain view nb cf start (finalTiles view nb cf hr start d N ed) d
        ed.actual_cost l ∧
      ∀ p ∈ l, p.1 < view.width ∧ p.2 < view.height := by
  obtain ⟨K, hKs, halive⟩ := chain_reaches_start htr
  obtain ⟨hnodes, hlinks⟩ := chain_master htr K halive
  rcases Nat.eq_zero_or_pos K with hK0 | hK1
  · subst hK0
    have hds : d = start := hKs
    subst hds
    have hN0 : N = 0 := by
      by_contra hN
      obtain ⟨s', hs'⟩ := htr.cont 0 (by omega)
      have h0 : runPF view nb cf hr (some d) (initPF d) 0 = initPF d := rfl
      rw [h0] at hs'
      have hfound := pathfindStep_found natCostModel view nb cf hr (some d)
        (initPF d) ⟨0, 0, d, d⟩ [] rfl rfl rfl
      rw [hfound] at hs'
      exact absurd hs' (by simp)
    have hseed : finEntry view nb cf hr (some d) (initPF d) 0 =
        some ⟨0, 0, d, d⟩ := rfl
    have hed : ed = ⟨0, 0, d, d⟩ := by
      have h1 := htr.finN
      rw [hN0] at h1
      exact finEntry_unique h1 hseed
    have hsp : d = ed.position := (congrArg Adjacency.position hed).symm
    have hft : finalTiles view nb cf hr d d N ed d =
        ⟨some d, some 0, false⟩ := by
      rw [finalTiles, updTiles, if_pos hsp, hed, hN0]
      rfl
    have ho : (finalTiles view nb cf hr d d N ed d).origin = some d :=
      congrArg PathFindDataTile.origin hft
    have hc : (finalTiles view nb cf hr d d N ed d).cost = some 0 :=
      congrArg PathFindDataTile.cost hft
    have hvb : ValidChain view nb cf d
        (finalTiles view nb cf hr d d N ed) d 0 [d] :=
      ValidChain.base ho hc
    refine ⟨[d], ?_, ?_⟩
    · have hca : (0 : Nat) = ed.actual_cost :=
        (congrArg Adjacency.actual_cost hed).symm
      rw [← hca]
      exact hvb
    · intro p hp
      rw [List.mem_singleton] at hp
      subst hp
      exact htr.startB
  · have hvc := chain_valid_level htr hKs halive hnodes hlinks hK1 K 0
      (by omega)
    obtain ⟨hF0, hfe0⟩ := fCE_zero htr
    have hca : (fCE view nb cf hr start d N ed 0).actual_cost =
        ed.actual_cost := congrArg Adjacency.actual_cost hfe0
    rw [hca] at hvc
    refine ⟨chainSeg view nb cf hr start d N ed 0 K, ?_, ?_⟩
    · exact hvc
    · intro p hp
      obtain ⟨t, ht, hxt⟩ := chainSeg_mem hp
      subst hxt
      exact chainCell_inB htr (hnodes (0 + t) (by omega))

/-- A continuing step of the search loop preserves the running result. -/
theorem pathfindStep_inr_result {cm : CostModel C} {view : BidiView T}
    {nb : BidiNeighbours}
    {cf : T → (Nat × Nat) → T → (Nat × Nat) → Option C}
    {hrf : (Nat × Nat) → (Nat × Nat) → C} {dest : Option (Nat × Nat)}
    {s s' : PFState C}
    (h : pathfindStep cm view nb cf hrf dest s = Sum.inr s') :
    s'.result = s.result := by
  rcases hpop : popMin cm s.heap with _ | ⟨a, rest⟩
  · rw [pathfindStep, hpop] at h
    exact absurd h (by simp)
  · rcases himp : improves cm s a with _ | _
    · rw [pathfindStep_discard cm view nb cf hrf dest s a rest hpop himp] at h
      injection h with h
      subst h
      rfl
    · by_cases hdest : dest = some a.position
      · rw [pathfindStep_found cm view nb cf hrf dest s a rest hpop himp
          hdest] at h
        exact absurd h (by simp)
      · rw [pathfindStep_expand cm view nb cf hrf dest s a rest hpop himp
          hdest] at h
        injection h with h
        subst h
        rfl

/-- Case analysis of a terminating step: the heap was empty and the state
is returned unchanged, or the destination entry was popped as improving
and the search ends with ShortestPathFound. -/
theorem pathfindStep_inl_cases {cm : CostModel C} {view : BidiView T}
    {nb : BidiNeighbours}
    {cf : T → (Nat × Nat) → T → (Nat × Nat) → Option C}
    {hrf : (Nat × Nat) → (Nat × Nat) → C} {dest : Option (Nat × Nat)}
    {s final : PFState C}
    (h : pathfindStep cm view nb cf hrf dest s = Sum.inl final) :
    final = s ∨
    ∃ a rest, popMin cm s.heap = some (a, rest) ∧ improves cm s a = true ∧
      dest = some a.position ∧
      final = ⟨rest, PathFindDataResult.ShortestPathFound a.actual_cost,
        fun p => if p = a.position then ⟨some a.origin, some a.actual_cost,
          (s.tiles a.position).in_shortest_path⟩ else s.tiles p⟩ := by
  rcases hpop : popMin cm s.heap with _ | ⟨a, rest⟩
  · rw [pathfindStep, hpop] at h
    left
    injection h with h
    exact h.symm
  · rcases himp : improves cm s a with _ | _
    · rw [pathfindStep_discard cm view nb cf hrf dest s a rest hpop himp] at h
      exact absurd h (by simp)
    · by_cases hdest : dest = some a.position
      · rw [pathfindStep_found cm view nb cf hrf dest s a rest hpop himp
          hdest] at h
        right
        refine ⟨a, rest, rfl, himp, hdest, ?_⟩
        injection h with h
        exact h.symm
      · rw [pathfindStep_expand cm view nb cf hrf dest s a rest hpop himp
          hdest] at h
        exact absurd h (by simp)

/-- A fueled loop run ending in ShortestPathFound, from a state not
already holding one, factors through the step-indexed trace: some step N
below the fuel terminates the loop. -/
theorem loop_found_run {view : BidiView T} {nb : BidiNeighbours}
    {cf : T → (Nat × Nat) → T → (Nat × Nat) → Option Nat}
    {hr : (Nat × Nat) → (Nat × Nat) → Nat} {dest : Option (Nat × Nat)} :
    ∀ {fuel : Nat} {s0 : PFState Nat} {c : Nat},
      (∀ c', s0.result ≠ PathFindDataResult.ShortestPathFound c') →
      (pathfindLoop natCostModel view nb cf hr dest fuel s0).result =
        PathFindDataResult.ShortestPathFound c →
      ∃ N, N < fuel ∧
        (∀ j, j < N → ContinuesAt view nb cf hr dest s0 j) ∧
        pathfindStep natCostModel view nb cf hr dest
            (runPF view nb cf hr dest s0 N) =
          Sum.inl (pathfindLoop natCostModel view nb cf hr dest fuel s0) := by
  intro fuel
  induction fuel with
  | zero =>
    intro s0 c hs0 hres
    exact absurd hres (hs0 c)
  | succ fuel ih =>
    intro s0 c hs0 hres
    rcases hstep : pathfindStep natCostModel view nb cf hr dest s0 with
      final | s'
    · have hloop : pathfindLoop natCostModel view nb cf hr dest (fuel + 1) s0 =
          final := by
        rw [pathfindLoop, hstep]
      refine ⟨0, Nat.succ_pos fuel, fun j hj => absurd hj (Nat.not_lt_zero j),
        ?_⟩
      rw [hloop]
      exact hstep
    · have hloop : pathfindLoop natCostModel view nb cf hr dest (fuel + 1) s0 =
          pathfindLoop natCostModel view nb cf hr dest fuel s' := by
        rw [pathfindLoop, hstep]
      have hs' : ∀ c', s'.result ≠ PathFindDataResult.ShortestPathFound c' := by
        intro c' hc'
        rw [pathfindStep_inr_result hstep] at hc'
        exact hs0 c' hc'
      rw [hloop] at hres
      obtain ⟨N, hN, hcont, hterm⟩ := ih hs' hres
      have hshift : ∀ j, runPF view nb cf hr dest s' j =
          runPF view nb cf hr dest s0 (j + 1) := by
        intro j
        rw [← stepTot_inr hstep, runPF_shift]
      refine ⟨N + 1, by omega, ?_, ?_⟩
      · intro j hj
        rcases Nat.eq_zero_or_pos j with hj0 | hjp
        · subst hj0
          exact ⟨s', hstep⟩
        · obtain ⟨j', hj'⟩ : ∃ j', j = j' + 1 := ⟨j - 1, by omega⟩
          subst hj'
          have hc := hcont j' (by omega)
          rw [ContinuesAt, hshift] at hc
          exact hc
      · rw [hloop, ← hshift]
        exact hterm

/-- Any step of the search loop keeps all in_shortest_path flags clear. -/
theorem stepAny_flags {cm : CostModel C} {view : BidiView T}
    {nb : BidiNeighbours}
    {cf : T → (Nat × Nat) → T → (Nat × Nat) → Option C}
    {hrf : (Nat × Nat) → (Nat × Nat) → C} {dest : Option (Nat × Nat)}
    {s t : PFState C}
    (h : pathfindStep cm view nb cf hrf dest s = Sum.inl t ∨
      pathfindStep cm view nb cf hrf dest s = Sum.inr t)
    (hf : ∀ p, (s.tiles p).in_shortest_path = false) :
    ∀ p, (t.tiles p).in_shortest_path = false := by
  rcases hpop : popMin cm s.heap with _ | ⟨a, rest⟩
  · have hstep : pathfindStep cm view nb cf hrf dest s = Sum.inl s := by
      rw [pathfindStep, hpop]
    rcases h with h | h <;> rw [hstep] at h
    · injection h with h
      subst h
      exact hf
    · exact absurd h (by simp)
  · rcases himp : improves cm s a with _ | _
    · have hstep := pathfindStep_discard cm view nb cf hrf dest s a rest
        hpop himp
      rcases h with h | h <;> rw [hstep] at h
      · exact absurd h (by simp)
      · injection h with h
        subst h
        exact hf
    · by_cases hdest : dest = some a.position
      · have hstep := pathfindStep_found cm view nb cf hrf dest s a rest
          hpop himp hdest
        rcases h with h | h <;> rw [hstep] at h
        · injection h with h
          subst h
          intro p
          dsimp only
          by_cases hp : p = a.position
          · rw [if_pos hp]
            exact hf a.position
          · rw [if_neg hp]
            exact hf p
        · exact absurd h (by simp)
      · have hstep := pathfindStep_expand cm view nb cf hrf dest s a rest
          hpop himp hdest
        rcases h with h | h <;> rw [hstep] at h
        · exact absurd h (by simp)
        · injection h with h
          subst h
          intro p
          dsimp only
          by_cases hp : p = a.position
          · rw [if_pos hp]
            exact hf a.position
          · rw [if_neg hp]
            exact hf p

/-- The search loop keeps all in_shortest_path flags clear. -/
theorem loop_flags {view : BidiView T} {nb : BidiNeighbours}
    {cf : T → (Nat × Nat) → T → (Nat × Nat) → Option Nat}
    {hr : (Nat × Nat) → (Nat × Nat) → Nat} {dest : Option (Nat × Nat)} :
    ∀ (fuel : Nat) (s0 : PFState Nat),
      (∀ p, (s0.tiles p).in_shortest_path = false) →
      ∀ p, ((pathfindLoop natCostModel view nb cf hr dest fuel s0).tiles
        p).in_shortest_path = false := by
  intro fuel
  induction fuel with
  | zero =>
    intro s0 hf p
    exact hf p
  | succ fuel ih =>
    intro s0 hf p
    rcases hstep : pathfindStep natCostModel view nb cf hr dest s0 with
      final | s'
    · have hloop : pathfindLoop natCostModel view nb cf hr dest (fuel + 1) s0 =
          final := by
        rw [pathfindLoop, hstep]
      rw [hloop]
      exact stepAny_flags (Or.inl hstep) hf p
    · have hloop : pathfindLoop natCostModel view nb cf hr dest (fuel + 1) s0 =
          pathfindLoop natCostModel view nb cf hr dest fuel s' := by
        rw [pathfindLoop, hstep]
      rw [hloop]
      exact ih s' (stepAny_flags (Or.inr hstep) hf) p

/-- A single-destination loop run from the seeded state that reports
ShortestPathFound c carries a valid predecessor chain of cost c in its
tile table, over in-bounds cells, with every flag still clear. -/
theorem core_found_chain {view : BidiView T} {nb : BidiNeighbours}
    {cf : T → (Nat × Nat) → T → (Nat × Nat) → Option Nat}
    {hr : (Nat × Nat) → (Nat × Nat) → Nat} {start d : Nat × Nat}
    {fuel : Nat} {c : Nat}
    (hs : start.1 < view.width ∧ start.2 < view.height)
    (hres : (pathfindLoop natCostModel view nb cf hr (some d) fuel
      (initPF start)).result = PathFindDataResult.ShortestPathFound c) :
    ∃ l, ValidChain view nb cf start
        (pathfindLoop natCostModel view nb cf hr (some d) fuel
          (initPF start)).tiles d c l ∧
      (∀ p ∈ l, p.1 < view.width ∧ p.2 < view.height) ∧
      ∀ p, ((pathfindLoop natCostModel view nb cf hr (some d) fuel
        (initPF start)).tiles p).in_shortest_path = false := by
  have hs0 : ∀ c', (initPF start).result ≠
      PathFindDataResult.ShortestPathFound c' := by
    intro c' h
    exact absurd h (by simp [initPF])
  obtain ⟨N, hN, hcont, hterm⟩ := loop_found_run hs0 hres
  rcases pathfindStep_inl_cases hterm with hfin | ⟨a, rest, hpop, himp, hdest,
    hfin⟩
  · rw [hfin, run_result hcont] at hres
    exact absurd hres (by simp [initPF])
  · have hfinN : finEntry view nb cf hr (some d) (initPF start) N = some a := by
      rw [finEntry, hpop]
      simp [himp]
    have hposN : a.position = d := by
      injection hdest with h
      exact h.symm
    have htr : TermRun view nb cf hr start d N a := ⟨hs, hcont, hfinN, hposN⟩
    have htiles : (pathfindLoop natCostModel view nb cf hr (some d) fuel
        (initPF start)).tiles = finalTiles view nb cf hr start d N a := by
      rw [hfin]
      rfl
    have hca : c = a.actual_cost := by
      rw [hfin] at hres
      dsimp only at hres
      injection hres with h
      exact h.symm
    obtain ⟨l, hvc, hb⟩ := term_chain htr
    have hflags : ∀ p, ((finalTiles view nb cf hr start d N a
        p).in_shortest_path) = false := by
      intro p
      rw [finalTiles, updTiles]
      by_cases hp : p = a.position
      · rw [if_pos hp]
        have hfl : ((runPF view nb cf hr (some d) (initPF start) N).tiles
            a.position).in_shortest_path = false := run_flag hcont a.position
        exact hfl
      · rw [if_neg hp]
        have hfl : ((runPF view nb cf hr (some d) (initPF start) N).tiles
            p).in_shortest_path = false := run_flag hcont p
        exact hfl
    rw [htiles, hca]
    exact ⟨l, hvc, hb, hflags⟩

/-- The reconstruction branch of pathfind_core leaves every flag clear
when the loop did not report ShortestPathFound. -/
theorem core_tiles_flags {view : BidiView T} {nb : BidiNeighbours}
    {cf : T → (Nat × Nat) → T → (Nat × Nat) → Option Nat}
    {hr : (Nat × Nat) → (Nat × Nat) → Nat} {start : Nat × Nat}
    {dest : Option (Nat × Nat)} {fuel : Nat} {s0 : PFState Nat}
    (hf0 : ∀ p, (s0.tiles p).in_shortest_path = false)
    (hnospf : ∀ c, (pathfindLoop natCostModel view nb cf hr dest fuel
      s0).result ≠ PathFindDataResult.ShortestPathFound c) :
    ∀ p, ((match (pathfindLoop natCostModel view nb cf hr dest fuel
        s0).result with
      | PathFindDataResult.ShortestPathFound _ =>
        reconstructLoop start (view.width * view.height + 1) dest
          (pathfindLoop natCostModel view nb cf hr dest fuel s0).tiles
      | _ => (pathfindLoop natCostModel view nb cf hr dest fuel s0).tiles)
        p).in_shortest_path = false := by
  intro p
  rcases hres : (pathfindLoop natCostModel view nb cf hr dest fuel
      s0).result with _ | c0 | _
  · exact loop_flags fuel s0 hf0 p
  · exact absurd hres (hnospf c0)
  · exact loop_flags fuel s0 hf0 p

/-- C5: whenever a search returns outcome ShortestPathFound c — stated for
pathfind_core with an arbitrary destination option and arbitrary heuristic,
so it covers pathfind_to_dest, pathfind_to_dest_heuristic and
pathfind_to_whole — a destination was given and exactly the cells of the
recorded predecessor chain from the destination back to the start have
in_shortest_path set: the chain reaches the start in finitely many steps
(it is duplicate-free), each step is a neighbour transition under the
chosen policy matching the recorded origins, and the normalized edge costs
along the chain sum exactly to c; when the outcome is not
ShortestPathFound, no cell has in_shortest_path set. -/
theorem pathfind_reconstruction_spec (view : BidiView T) (start : Nat × Nat)
    (dest : Option (Nat × Nat)) (nb : BidiNeighbours)
    (cf : T → (Nat × Nat) → T → (Nat × Nat) → Option Nat)
    (hr : (Nat × Nat) → (Nat × Nat) → Nat) (data : PathFindData Nat)
    (hrun : pathfind_core view start dest nb cf hr = Except.ok data) :
    (∀ c, data.result = PathFindDataResult.ShortestPathFound c →
      ∃ d l, dest = some d ∧
        ValidChain view nb cf start data.tiles d c l ∧
        l.head? = some d ∧ l.getLast? = some start ∧ l.Nodup ∧
        chainOrigins data.tiles l ∧ chainSteps view nb l ∧
        chainCostSum view cf l = some c ∧
        ∀ p, ((data.tiles p).in_shortest_path = true ↔ p ∈ l)) ∧
    ((∀ c, data.result ≠ PathFindDataResult.ShortestPathFound c) →
      ∀ p, (data.tiles p).in_shortest_path = false) := by
  by_cases hs : start.1 < view.width ∧ start.2 < view.height
  case neg =>
    rw [pathfind_core.eq_def, if_pos hs] at hrun
    exact absurd hrun (by simp)
  case pos =>
  by_cases hd : destOutOfBounds view dest
  case pos =>
    rw [pathfind_core.eq_def, if_neg (not_not_intro hs), if_pos hd] at hrun
    exact absurd hrun (by simp)
  case neg =>
  rw [pathfind_core.eq_def, if_neg (not_not_intro hs), if_neg hd] at hrun
  injection hrun with hdata
  rcases dest with _ | d
  · -- without a destination, the loop result is never ShortestPathFound
    have hnospf : ∀ c, (pathfindLoop natCostModel view nb cf hr none
        (pathfindFuel view cf)
        ⟨[⟨0, 0, start, start⟩], PathFindDataResult.MultipleDestinations,
          fun _ => ⟨none, none, false⟩⟩).result ≠
        PathFindDataResult.ShortestPathFound c := by
      intro c hc
      have hs0 : ∀ c', (⟨[⟨0, 0, start, start⟩],
          PathFindDataResult.MultipleDestinations,
          fun _ => ⟨none, none, false⟩⟩ : PFState Nat).result ≠
          PathFindDataResult.ShortestPathFound c' := by
        intro c' h
        simp at h
      obtain ⟨N, hN, hcont, hterm⟩ := loop_found_run hs0 hc
      rcases pathfindStep_inl_cases hterm with hfin | ⟨a, rest, hpop, himp,
        hdest, hfin⟩
      · rw [hfin, run_result hcont] at hc
        simp at hc
      · simp at hdest
    constructor
    · intro c hc
      rw [← hdata] at hc
      have hc2 : (pathfindLoop natCostModel view nb cf hr none
          (pathfindFuel view cf)
          ⟨[⟨0, 0, start, start⟩], PathFindDataResult.MultipleDestinations,
            fun _ => ⟨none, none, false⟩⟩).result =
          PathFindDataResult.ShortestPathFound c := hc
      exact absurd hc2 (hnospf c)
    · intro hne p
      rw [← hdata]
      exact core_tiles_flags (fun _ => rfl)
        (fun c0 h => hne c0 (by rw [← hdata]; exact h)) p
  · constructor
    · intro c hc
      rw [← hdata] at hc
      have hc2 : (pathfindLoop natCostModel view nb cf hr (some d)
          (pathfindFuel view cf) (initPF start)).result =
          PathFindDataResult.ShortestPathFound c := hc
      obtain ⟨l, hvc, hb, hfl⟩ := core_found_chain hs hc2
      have hmarks := reconstructLoop_marks (view.width * view.height + 1)
        d c l (pathfindLoop natCostModel view nb cf hr (some d)
          (pathfindFuel view cf) (initPF start)).tiles hvc
        (by
          have hlen : l.length ≤ view.width * view.height :=
            nodup_inB_length_le view.width view.height l
              (validChain_nodup hvc) hb
          omega)
      have htl : data.tiles = reconstructLoop start
          (view.width * view.height + 1) (some d)
          (pathfindLoop natCostModel view nb cf hr (some d)
            (pathfindFuel view cf) (initPF start)).tiles := by
        rw [← hdata]
        show (match (pathfindLoop natCostModel view nb cf hr (some d)
            (pathfindFuel view cf) (initPF start)).result with
          | PathFindDataResult.ShortestPathFound _ =>
            reconstructLoop start (view.width * view.height + 1) (some d)
              (pathfindLoop natCostModel view nb cf hr (some d)
                (pathfindFuel view cf) (initPF start)).tiles
          | _ => (pathfindLoop natCostModel view nb cf hr (some d)
              (pathfindFuel view cf) (initPF start)).tiles) =
          reconstructLoop start (view.width * view.height + 1) (some d)
            (pathfindLoop natCostModel view nb cf hr (some d)
              (pathfindFuel view cf) (initPF start)).tiles
        rw [hc2]
      obtain ⟨sft, hsft⟩ : ∃ sft, (pathfindLoop natCostModel view nb cf hr
          (some d) (pathfindFuel view cf) (initPF start)).tiles = sft :=
        ⟨_, rfl⟩
      rw [hsft] at hvc hmarks htl
      have hfl2 : ∀ p, (sft p).in_shortest_path = false := by
        intro p
        rw [← hsft]
        exact hfl p
      rw [htl, hmarks]
      have hagree : ∀ r, ((fun q => if q ∈ l then
          (⟨(sft q).origin, (sft q).cost, true⟩ : PathFindDataTile Nat)
          else sft q) r).origin = (sft r).origin ∧
          ((fun q => if q ∈ l then
          (⟨(sft q).origin, (sft q).cost, true⟩ : PathFindDataTile Nat)
          else sft q) r).cost = (sft r).cost := by
        intro r
        by_cases hrl : r ∈ l <;> simp [hrl]
      refine ⟨d, l, rfl, validChain_congr hagree hvc, validChain_head hvc,
        validChain_last hvc, validChain_nodup hvc,
        validChain_origins (validChain_congr hagree hvc),
        validChain_steps hvc, validChain_sum hvc, ?_⟩
      intro p
      by_cases hp : p ∈ l
      · simp [hp]
      · simp [hp, hfl2 p]
    · intro hne p
      rw [← hdata]
      exact core_tiles_flags (fun _ => rfl)
        (fun c0 h => hne c0 (by rw [← hdata]; exact h)) p

/-- Witness for C5: the 2 × 1 grid with unit edges under a unit heuristic;
the certified chain of the concrete run is produced by the theorem at this
input. -/
theorem pathfind_reconstruction_spec_witness :
    ∃ data, pathfind_core (⟨2, 1, fun _ => 0⟩ : BidiView Nat) (0, 0)
        (some (1, 0)) BidiNeighbours.Adjacent (fun _ _ _ _ => some 1)
        (fun _ _ => 1) = Except.ok data ∧
      ((∀ c, data.result = PathFindDataResult.ShortestPathFound c →
        ∃ d l, some (1, 0) = some d ∧
          ValidChain (⟨2, 1, fun _ => 0⟩ : BidiView Nat)
            BidiNeighbours.Adjacent (fun _ _ _ _ => some 1) (0, 0)
            data.tiles d c l ∧
          l.head? = some d ∧ l.getLast? = some (0, 0) ∧ l.Nodup ∧
          chainOrigins data.tiles l ∧
          chainSteps (⟨2, 1, fun _ => 0⟩ : BidiView Nat)
            BidiNeighbours.Adjacent l ∧
          chainCostSum (⟨2, 1, fun _ => 0⟩ : BidiView Nat)
            (fun _ _ _ _ => some 1) l = some c ∧
          ∀ p, ((data.tiles p).in_shortest_path = true ↔ p ∈ l)) ∧
      ((∀ c, data.result ≠ PathFindDataResult.ShortestPathFound c) →
        ∀ p, (data.tiles p).in_shortest_path = false)) :=
  ⟨_, rfl, pathfind_reconstruction_spec (⟨2, 1, fun _ => 0⟩ : BidiView Nat)
    (0, 0) (some (1, 0)) BidiNeighbours.Adjacent (fun _ _ _ _ => some 1)
    (fun _ _ => 1) _ rfl⟩

end Bidivec
